import Mathlib

/-!
# Verification of the zikv concurrent skiplist memtable (sequential model)

This file gives a shallow embedding of the Go sources of the `zikv`
write-buffer: the byte-level key helpers (`ParseKey`, `ParseTs`, `SameKey`),
the `ValueStruct` codec (`entry.go`), the arena, and the skiplist
(`findNear`, `findSpliceForLevel`, `Add`, `Search`, reference counting).

Modelling conventions:
* bytes and machine words are `Nat`, with truncation written explicitly
  (`% 256`, `% 2 ^ 16`, `% 2 ^ 32`, `% 2 ^ 64`) where the Go code converts;
* the byte arena is the list of bytes written so far (index 0 holds the
  reserved null byte, so the allocation cursor is `buf.length`, matching the
  cursor that starts at 1); the fixed-capacity exhaustion assertion, which
  kills the process in Go, is not modelled — the model corresponds to runs
  inside capacity;
* node records, which Go reinterprets from raw arena bytes, are kept in a
  separate indexed store (`nodes : List Node`); a node "offset" `o` denotes
  `nodes[o-1]`, and offset `0` remains the nil sentinel exactly as in
  `getNode`;
* loops whose termination depends on data-structure invariants
  (`findNear`, `findSpliceForLevel`, the CAS retry loop of `Add`) are
  written with an explicit fuel that is large enough in every state
  satisfying the structure invariant;
* execution is sequential: an atomic CAS is modelled as compare-then-set,
  and `FastRand` draws are passed in as an explicit stream.
-/
namespace ZKV

set_option maxHeartbeats 1000000

/-! ## Byte-level key helpers (ParseKey / ParseTs / SameKey) -/
/-- Go `bytes.Compare` on byte slices: lexicographic, a proper prefix is
smaller. -/
def byteCompare : List Nat → List Nat → Int
  | [], [] => 0
  | [], _ :: _ => -1
  | _ :: _, [] => 1
  | a :: as, b :: bs => if a < b then -1 else if b < a then 1 else byteCompare as bs

/-- `ParseKey`: keys of length < 8 are returned whole, otherwise the final
8 bytes (the timestamp suffix) are stripped. -/
def ParseKey (key : List Nat) : List Nat :=
  if key.length < 8 then key else key.take (key.length - 8)

/-- `binary.BigEndian.Uint64` of (the first 8 bytes of) a byte slice. -/
def uint64BE (bs : List Nat) : Nat :=
  (bs.take 8).foldl (fun acc b => acc * 256 + b % 256) 0

/-- `ParseTs`: 0 for keys of length ≤ 8, otherwise `MaxUint64` minus the
big-endian u64 read from the last 8 bytes. -/
def ParseTs (key : List Nat) : Nat :=
  if key.length ≤ 8 then 0 else (2 ^ 64 - 1) - uint64BE (key.drop (key.length - 8))

/-- `SameKey`: equal total length and byte-equal user-key prefixes. -/
def SameKey (src dst : List Nat) : Bool :=
  if src.length ≠ dst.length then false
  else ParseKey src == ParseKey dst

/-- The timestamp suffix of an internal key: its final 8 bytes when the key
is at least 8 bytes long, nothing otherwise (the cutoff of `ParseKey`). -/
def tsSuffix (key : List Nat) : List Nat :=
  if key.length < 8 then [] else key.drop (key.length - 8)

/-- Modelled from the spec: `CompareKeys`, called by `findNear` and
`findSpliceForLevel`, is not among the given sources.  Spec §3 comparison
contract: internal keys are ordered by user key ascending
byte-lexicographically, then by the stored timestamp suffix in ascending
byte order. -/
def CompareKeys (a b : List Nat) : Int :=
  let c := byteCompare (ParseKey a) (ParseKey b)
  if c ≠ 0 then c else byteCompare (tsSuffix a) (tsSuffix b)

/-! ## ValueStruct codec (entry.go) -/
/-- Structural helper for `sizeVarint`: the fuel only forces termination
and is irrelevant as soon as it exceeds `x` (`sizeVarintAux_irrel`). -/
def sizeVarintAux : Nat → Nat → Nat
  | 0, _ => 1
  | fuel + 1, x => if x < 128 then 1 else 1 + sizeVarintAux fuel (x / 128)

/-- `sizeVarint`: the number of base-128 digits written for `x` (a do-while
loop in the source, so 0 still takes one byte). -/
def sizeVarint (x : Nat) : Nat := sizeVarintAux (x + 1) x

/-- Structural helper for `putUvarint`; fuel as in `sizeVarintAux`. -/
def putUvarintAux : Nat → Nat → List Nat
  | 0, x => [x]
  | fuel + 1, x => if x < 128 then [x] else (x % 128 + 128) :: putUvarintAux fuel (x / 128)

/-- Go `binary.PutUvarint`: little-endian base-128 digits, a set high bit
marking continuation. -/
def putUvarint (x : Nat) : List Nat := putUvarintAux (x + 1) x

/-- Go `binary.Uvarint` accumulator loop: `i` is the byte index, `shift`
the current shift, `x` the value accumulated so far.  The source's
`x | uint64(b&0x7f)<<s` is written as addition, the two operands occupying
disjoint bit ranges; `uint64` truncation is the explicit `% 2 ^ 64`.  A
non-positive second component signals overflow, as in Go. -/
def goUvarintAux : List Nat → Nat → Nat → Nat → Nat × Int
  | [], _, _, _ => (0, 0)
  | b :: rest, i, shift, x =>
    if i = 10 then (0, -((i : Int) + 1))
    else if b < 128 then
      if i = 9 ∧ 1 < b then (0, -((i : Int) + 1))
      else ((x + b * 2 ^ shift % 2 ^ 64) % 2 ^ 64, (i : Int) + 1)
    else goUvarintAux rest (i + 1) (shift + 7) ((x + b % 128 * 2 ^ shift % 2 ^ 64) % 2 ^ 64)

/-- Go `binary.Uvarint`: (value, number of bytes read). -/
def goUvarint (buf : List Nat) : Nat × Int := goUvarintAux buf 0 0 0

/-- The value cell: `Meta`, `Value` bytes, `ExpiresAt`; `Version` is
carried in memory only and never serialized. -/
structure ValueStruct where
  Meta : Nat
  Value : List Nat
  ExpiresAt : Nat
  Version : Nat
deriving Repr, DecidableEq

/-- `EncodedSize`: `len(Value) + 1` for the meta byte plus the varint
length of `ExpiresAt`, converted to `uint32` as in the source. -/
def ValueStruct.EncodedSize (vs : ValueStruct) : Nat :=
  (vs.Value.length + 1 + sizeVarint vs.ExpiresAt) % 2 ^ 32

/-- The byte string `EncodeValue` writes into its destination buffer:
byte 0 is `Meta`, then the varint of `ExpiresAt`, then the `Value` bytes. -/
def ValueStruct.encodeBytes (vs : ValueStruct) : List Nat :=
  vs.Meta % 256 :: (putUvarint vs.ExpiresAt ++ vs.Value)

/-- `DecodeValue`: `Meta` from byte 0, `ExpiresAt` and its byte count from
`binary.Uvarint`, `Value` the remaining bytes.  (`Version` is left at its
zero value; on the canonical buffers produced by `EncodeValue` the byte
count is positive, so its `Int.toNat` is exact.) -/
def DecodeValue (buf : List Nat) : ValueStruct :=
  { Meta := buf.headD 0
    ExpiresAt := (goUvarint (buf.drop 1)).1
    Value := buf.drop (1 + (goUvarint (buf.drop 1)).2.toNat)
    Version := 0 }

/-! ## Arena (arena.go)

The arena is modelled as the list of bytes written so far; its length is
the allocation cursor (`Arena.n`).  `newArena` reserves index 0, so the
cursor starts at 1 and offset 0 stays the nil sentinel.  Each `put`
returns the pre-advance cursor, exactly as `allocate` does.  The
fixed-capacity assertion (`shouldGrow == false` kills the process on
exhaustion) is not modelled: the model describes runs within capacity. -/
structure Arena where
  buf : List Nat
deriving Repr, DecidableEq

def newArena : Arena := ⟨[0]⟩

/-- `allocate`-and-write: append `bs`, return the pre-advance cursor. -/
def Arena.putBytes (a : Arena) (bs : List Nat) : Arena × Nat :=
  (⟨a.buf ++ bs⟩, a.buf.length)

/-- `putKey`: allocate and copy the key bytes. -/
def Arena.putKey (a : Arena) (key : List Nat) : Arena × Nat := a.putBytes key

/-- `getKey`: the `size` bytes at `offset`. -/
def Arena.getKey (a : Arena) (offset size : Nat) : List Nat :=
  (a.buf.drop offset).take size

/-- `size()`: the current cursor. -/
def Arena.size (a : Arena) : Nat := a.buf.length

/-! ## Node layout and the packed value word -/
def maxHeight : Nat := 20

/-- `heightIncrease = math.MaxUint32 / 3`. -/
def heightIncrease : Nat := (2 ^ 32 - 1) / 3

/-- `encodeValue`: `uint64(valSize)<<32 | uint64(valOffset)` — the two
`uint32` halves occupy disjoint bit ranges, so the `|` is addition. -/
def encodeValue (valOffset valSize : Nat) : Nat :=
  valSize % 2 ^ 32 * 2 ^ 32 + valOffset % 2 ^ 32

/-- `decodeValue`: low half is the offset, high half the size. -/
def decodeValue (value : Nat) : Nat × Nat :=
  (value % 2 ^ 32, value / 2 ^ 32 % 2 ^ 32)

/-- A node record.  In the source this is a fixed-layout struct
reinterpreted from raw arena bytes; the model keeps the same fields with
`tower` always carrying `maxHeight` slots (slots at or above `height` are
never written and stay 0, mirroring the trimmed allocation). -/
structure Node where
  value : Nat
  keyOffset : Nat
  keySize : Nat
  height : Nat
  tower : List Nat
deriving Repr, DecidableEq

/-- `putVal`: allocate `EncodedSize` bytes and write the encoded cell. -/
def Arena.putVal (a : Arena) (v : ValueStruct) : Arena × Nat :=
  a.putBytes v.encodeBytes

/-! ## Skiplist state -/
/-- The skiplist.  `nodes` is the node store (offset `o ≥ 1` denotes
`nodes[o-1]`); `ref` is the reference count; `arenaValid` stands for the
`arena` pointer being non-nil (`DecrRef` clears it); `hasOnClose` for a
non-nil `OnClose` callback. -/
structure Skiplist where
  height : Nat
  headOffset : Nat
  ref : Int
  arenaValid : Bool
  hasOnClose : Bool
  arena : Arena
  nodes : List Node
deriving Repr, DecidableEq

/-- `getNode`: nil for offset 0, otherwise the record at the offset. -/
def Skiplist.getNode (s : Skiplist) (offset : Nat) : Option Node :=
  if offset = 0 then none else s.nodes[offset - 1]?

/-- `node.key(arena)`: the key bytes of a node. -/
def Skiplist.nodeKey (s : Skiplist) (nd : Node) : List Nat :=
  s.arena.getKey nd.keyOffset nd.keySize

/-- Key of the node stored at `offset` (`[]` for the nil/head sentinel). -/
def Skiplist.keyAt (s : Skiplist) (offset : Nat) : List Nat :=
  match s.getNode offset with
  | none => []
  | some nd => s.nodeKey nd

/-- `node.getNextOffset(h)`: the tower slot at level `h` of the node at
`offset` (0 when the offset itself is nil). -/
def Skiplist.getNextOffset (s : Skiplist) (offset h : Nat) : Nat :=
  match s.getNode offset with
  | none => 0
  | some nd => nd.tower.getD h 0

/-- `node.setValue`: atomically store a new packed value word. -/
def Skiplist.setNodeValue (s : Skiplist) (offset w : Nat) : Skiplist :=
  match s.getNode offset with
  | none => s
  | some nd => { s with nodes := s.nodes.set (offset - 1) { nd with value := w } }

/-- Store into `tower[lvl]` of the node at `offset` (used both for the
pre-publication plain store on the new node and for a successful CAS). -/
def Skiplist.setNodeTower (s : Skiplist) (offset lvl target : Nat) : Skiplist :=
  match s.getNode offset with
  | none => s
  | some nd => { s with nodes := s.nodes.set (offset - 1) { nd with tower := nd.tower.set lvl target } }

/-- `newNode`: allocate the node, copy key and encoded value into the
arena, and fill the fields.  Returns the new state and the node's offset
(`getNodeOffset`).  `uint16(len(key))` is the explicit `% 2 ^ 16`. -/
def Skiplist.newNode (s : Skiplist) (key : List Nat) (v : ValueStruct) (height : Nat) :
    Skiplist × Nat :=
  let p1 := s.arena.putKey key
  let p2 := p1.1.putVal v
  let nd : Node :=
    { value := encodeValue p2.2 v.EncodedSize
      keyOffset := p1.2
      keySize := key.length % 2 ^ 16
      height := height
      tower := List.replicate maxHeight 0 }
  ({ s with arena := p2.1, nodes := s.nodes ++ [nd] }, s.nodes.length + 1)

/-- `NewSkiplist`: fresh arena, head sentinel of full height with nil key
and empty value, list height 1, refcount 1.  The arena-capacity argument
only sizes the backing buffer and is not part of the model. -/
def NewSkiplist : Skiplist :=
  let s0 : Skiplist :=
    { height := 1, headOffset := 0, ref := 1, arenaValid := true,
      hasOnClose := false, arena := newArena, nodes := [] }
  let p := s0.newNode [] ⟨0, [], 0, 0⟩ maxHeight
  { p.1 with headOffset := p.2 }

def Skiplist.getHeight (s : Skiplist) : Nat := s.height

/-- `randomHeight`: start at 1, grow while the draw is ≤ `MaxUint32/3`,
cap at `maxHeight`.  The `FastRand` stream is the explicit list. -/
def randomHeightAux : List Nat → Nat → Nat
  | [], h => h
  | d :: rest, h =>
    if h < maxHeight && decide (d ≤ heightIncrease) then randomHeightAux rest (h + 1) else h

def randomHeight (draws : List Nat) : Nat := randomHeightAux draws 1

/-! ## findNear -/
/-- The `findNear` traversal loop.  `x` is the current offset, `level` the
current level; the fuel only forces termination and is irrelevant on
states satisfying the structure invariant (the loop strictly descends or
moves to strictly greater keys). -/
def Skiplist.findNearAux (s : Skiplist) (key : List Nat) (less allowEqual : Bool) :
    Nat → Nat → Nat → Option (Nat × Bool)
  | 0, _, _ => none
  | fuel + 1, x, level =>
    match s.getNode (s.getNextOffset x level) with
    | none =>
      if 0 < level then s.findNearAux key less allowEqual fuel x (level - 1)
      else if !less then some (0, false)
      else if x = s.headOffset then some (0, false)
      else some (x, false)
    | some nextNode =>
      if 0 < CompareKeys key (s.nodeKey nextNode) then
        s.findNearAux key less allowEqual fuel (s.getNextOffset x level) level
      else if CompareKeys key (s.nodeKey nextNode) = 0 then
        if allowEqual then some (s.getNextOffset x level, true)
        else if !less then some (s.getNextOffset (s.getNextOffset x level) 0, false)
        else if 0 < level then s.findNearAux key less allowEqual fuel x (level - 1)
        else if x = s.headOffset then some (0, false)
        else some (x, false)
      else
        if 0 < level then s.findNearAux key less allowEqual fuel x (level - 1)
        else if !less then some (s.getNextOffset x level, false)
        else if x = s.headOffset then some (0, false)
        else some (x, false)

/-- Fuel that suffices on every state satisfying the invariant. -/
def Skiplist.findNearFuel (s : Skiplist) : Nat := s.nodes.length + maxHeight + 1

/-- `findNear`: start at the head, at level `height - 1`.  Returns (node
offset, exact match?); `(0, false)` doubles as the out-of-fuel default,
which is never taken on states satisfying the invariant. -/
def Skiplist.findNear (s : Skiplist) (key : List Nat) (less allowEqual : Bool) : Nat × Bool :=
  (s.findNearAux key less allowEqual s.findNearFuel s.headOffset (s.getHeight - 1)).getD
    (0, false)

/-! ## findSpliceForLevel and Add -/
/-- The `findSpliceForLevel` loop, walking right from `before` at `level`;
fuel as in `findNearAux`. -/
def Skiplist.findSpliceAux (s : Skiplist) (key : List Nat) (level : Nat) :
    Nat → Nat → Option (Nat × Nat)
  | 0, _ => none
  | fuel + 1, before =>
    match s.getNode (s.getNextOffset before level) with
    | none => some (before, s.getNextOffset before level)
    | some nextNode =>
      if CompareKeys key (s.nodeKey nextNode) = 0 then
        some (s.getNextOffset before level, s.getNextOffset before level)
      else if CompareKeys key (s.nodeKey nextNode) < 0 then
        some (before, s.getNextOffset before level)
      else s.findSpliceAux key level fuel (s.getNextOffset before level)

/-- `findSpliceForLevel(key, before, level) -> (prev, next)`; equality is
signalled by `prev == next`.  `(0, 0)` is the out-of-fuel default, never
taken under the invariant. -/
def Skiplist.findSpliceForLevel (s : Skiplist) (key : List Nat) (before level : Nat) :
    Nat × Nat :=
  (s.findSpliceAux key level (s.nodes.length + 1) before).getD (0, 0)

/-- The errors `Add` can raise; each `assert…` is a fatal `AssertTrue` in
the source, `fuelOut` is the model's fuel exhaustion (never hit under the
invariant). -/
inductive AddErr where
  | fuelOut
  | assertPrevNilLevel
  | assertSpliceNotEqual
  | assertEqualAboveBase
deriving Repr, DecidableEq

/-- The descent of `Add` building `prev[0..listHeight]`/`next[..]` from
level `listHeight - 1` down to 0; an equality at some level short-circuits
with the existing node's offset (`inr`). -/
def Skiplist.spliceDescend (s : Skiplist) (key : List Nat) :
    Nat → List Nat → List Nat → (List Nat × List Nat) ⊕ Nat
  | 0, prev, next => .inl (prev, next)
  | i + 1, prev, next =>
    let pn := s.findSpliceForLevel key (prev.getD (i + 1) 0) i
    if pn.1 = pn.2 then .inr pn.1
    else s.spliceDescend key i (prev.set i pn.1) (next.set i pn.2)

/-- One step of `Add`: overwrite the value word of the node at `p` with a
freshly allocated encoded value (the duplicate-key path). -/
def Skiplist.overwriteValue (s : Skiplist) (p : Nat) (v : ValueStruct) : Skiplist :=
  let pv := s.arena.putVal v
  let s2 := { s with arena := pv.1 }
  s2.setNodeValue p (encodeValue pv.2 v.EncodedSize)

/-- Result of publishing one level inside `Add`'s per-level loop. -/
inductive PubRes where
  | cont : Skiplist → List Nat → List Nat → PubRes
  | done : Skiplist → PubRes
  | err : AddErr → PubRes
deriving Repr

/-- Head of the retry-loop body of `Add`: on a nil `prev[i]` (possible
above the height observed at entry) check `AssertTrue(i > 1)`, re-splice
from the head and check `AssertTrue(prev[i] != next[i])`; otherwise keep
the splice arrays unchanged. -/
def Skiplist.resolvePrev (s : Skiplist) (key : List Nat) (i : Nat)
    (prev next : List Nat) : AddErr ⊕ (List Nat × List Nat) :=
  if s.getNode (prev.getD i 0) = none then
    if i ≤ 1 then .inl .assertPrevNilLevel
    else
      let pn := s.findSpliceForLevel key s.headOffset i
      if pn.1 = pn.2 then .inl .assertSpliceNotEqual
      else .inr (prev.set i pn.1, next.set i pn.2)
  else .inr (prev, next)

/-- The per-level CAS retry loop of `Add` (the inner `for {}` at level
`i`): after `resolvePrev`, store `next[i]` into the unpublished node's
tower, CAS `prev[i].tower[i]` from `next[i]` to the new node; a failed CAS
re-splices from `prev[i]`, with `AssertTruef(i == 0)` on an equality found
during retry (which then takes the value-overwrite path). -/
def Skiplist.publishLevel (key : List Nat) (v : ValueStruct) (xOff i : Nat) :
    Nat → Skiplist → List Nat → List Nat → PubRes
  | 0, _, _, _ => .err .fuelOut
  | fuel + 1, s, prev, next =>
    match s.resolvePrev key i prev next with
    | .inl e => .err e
    | .inr pn =>
      if (s.setNodeTower xOff i (pn.2.getD i 0)).getNextOffset (pn.1.getD i 0) i =
          pn.2.getD i 0 then
        .cont ((s.setNodeTower xOff i (pn.2.getD i 0)).setNodeTower (pn.1.getD i 0) i xOff)
          pn.1 pn.2
      else if ((s.setNodeTower xOff i (pn.2.getD i 0)).findSpliceForLevel key
          (pn.1.getD i 0) i).1 =
          ((s.setNodeTower xOff i (pn.2.getD i 0)).findSpliceForLevel key (pn.1.getD i 0) i).2 then
        if i ≠ 0 then .err .assertEqualAboveBase
        else .done ((s.setNodeTower xOff i (pn.2.getD i 0)).overwriteValue
          ((s.setNodeTower xOff i (pn.2.getD i 0)).findSpliceForLevel key (pn.1.getD i 0) i).1 v)
      else
        Skiplist.publishLevel key v xOff i fuel (s.setNodeTower xOff i (pn.2.getD i 0))
          (pn.1.set i ((s.setNodeTower xOff i (pn.2.getD i 0)).findSpliceForLevel key
            (pn.1.getD i 0) i).1)
          (pn.2.set i ((s.setNodeTower xOff i (pn.2.getD i 0)).findSpliceForLevel key
            (pn.1.getD i 0) i).2)

/-- The outer `for i := 0; i < height; i++` loop of `Add`. -/
def Skiplist.publishLoop (key : List Nat) (v : ValueStruct) (xOff : Nat) :
    Nat → Nat → Skiplist → List Nat → List Nat → Except AddErr Skiplist
  | _, 0, s, _, _ => .ok s
  | i, r + 1, s, prev, next =>
    match Skiplist.publishLevel key v xOff i (s.nodes.length + 1) s prev next with
    | .err e => .error e
    | .done s2 => .ok s2
    | .cont s2 prev' next' => Skiplist.publishLoop key v xOff (i + 1) r s2 prev' next'

/-- The entry passed to `Add` (only the fields `Add` reads). -/
structure Entry where
  Key : List Nat
  Value : List Nat
  ExpiresAt : Nat
  Meta : Nat
  Version : Nat
deriving Repr, DecidableEq

/-- The value cell `Add` builds from its entry. -/
def Entry.vs (e : Entry) : ValueStruct :=
  { Meta := e.Meta, Value := e.Value, ExpiresAt := e.ExpiresAt, Version := e.Version }

/-- The insert path of `Add` once the descent has found no equal key:
allocate the node at the drawn height, CAS-bump the list height
(sequentially a single conditional store), publish level by level. -/
def Skiplist.addInsert (s : Skiplist) (e : Entry) (draws : List Nat)
    (prev next : List Nat) : Except AddErr Skiplist :=
  Skiplist.publishLoop e.Key e.vs (s.newNode e.Key e.vs (randomHeight draws)).2 0
    (randomHeight draws)
    (if (s.newNode e.Key e.vs (randomHeight draws)).1.getHeight < randomHeight draws then
      { (s.newNode e.Key e.vs (randomHeight draws)).1 with height := randomHeight draws }
    else (s.newNode e.Key e.vs (randomHeight draws)).1)
    prev next

/-- `Add(e)`: descend building the splices, seeding `prev[listHeight]`
with the head offset; overwrite in place on a duplicate key, otherwise
take the insert path. -/
def Skiplist.Add (s : Skiplist) (e : Entry) (draws : List Nat) : Except AddErr Skiplist :=
  match s.spliceDescend e.Key s.getHeight
      ((List.replicate (maxHeight + 1) 0).set s.getHeight s.headOffset)
      (List.replicate (maxHeight + 1) 0) with
  | .inr p => .ok (s.overwriteValue p e.vs)
  | .inl pn => s.addInsert e draws pn.1 pn.2

/-! ## Search, iterators, reference counting -/
/-- The Go zero `ValueStruct`, returned when the key is absent. -/
def emptyVS : ValueStruct := ⟨0, [], 0, 0⟩

/-- `getVal`: decode the value cell stored at `offset`/`size`. -/
def Arena.getVal (a : Arena) (offset size : Nat) : ValueStruct :=
  DecodeValue (a.getKey offset size)

/-- `Search(key)`: `findNear(key, less=false, allowEqual=true)`; on a
`SameKey` match return the decoded cell with `ExpiresAt := ParseTs` of the
stored key, otherwise the empty cell.  No error return exists. -/
def Skiplist.Search (s : Skiplist) (key : List Nat) : ValueStruct :=
  match s.getNode (s.findNear key false true).1 with
  | none => emptyVS
  | some nd =>
    if !SameKey key (s.arena.getKey nd.keyOffset nd.keySize) then emptyVS
    else
      { s.arena.getVal (decodeValue nd.value).1 (decodeValue nd.value).2 with
          ExpiresAt := ParseTs (s.arena.getKey nd.keyOffset nd.keySize) }

/-- `MemSize()`: the arena cursor. -/
def Skiplist.MemSize (s : Skiplist) : Nat := s.arena.size

/-- `IncrRef`: atomic increment (sequential model). -/
def Skiplist.IncrRef (s : Skiplist) : Skiplist := { s with ref := s.ref + 1 }

/-- `DecrRef`: atomic decrement; at zero (or below, on misuse) run
`OnClose` if set and clear the arena pointer.  The boolean reports whether
`OnClose` was invoked. -/
def Skiplist.DecrRef (s : Skiplist) : Skiplist × Bool :=
  let newRef := s.ref - 1
  if 0 < newRef then ({ s with ref := newRef }, false)
  else ({ s with ref := newRef, arenaValid := false }, s.hasOnClose)

/-- An iterator: the list it holds a reference on, and the current node. -/
structure SkipListIterator where
  list : Skiplist
  n : Nat
deriving Repr, DecidableEq

/-- `NewSkipListIterator`: take a reference, return the iterator. -/
def Skiplist.NewSkipListIterator (s : Skiplist) : Skiplist × SkipListIterator :=
  let s2 := s.IncrRef
  (s2, { list := s2, n := 0 })

/-- Iterator `Close`: drop the reference (the Go method always returns a
nil error). -/
def SkipListIterator.close (it : SkipListIterator) : Skiplist × Bool :=
  it.list.DecrRef

/-! ## The structure invariant

`chainAux`/`chain` compute the list of offsets reached by following
`tower[L]` (guarded by each node's height, since in the real layout slots
at or above a node's height are not allocated); `chainFrom` is the
relational version used in proofs.  The invariant `inv` is a boolean so
that concrete states can be checked by evaluation. -/
/-- Follow `tower[L]` from offset `o`, collecting the visited offsets;
`none` on a dangling offset, a trimmed tower slot, or fuel exhaustion. -/
def Skiplist.chainAux (s : Skiplist) (L : Nat) : Nat → Nat → Option (List Nat)
  | 0, o => if o = 0 then some [] else none
  | fuel + 1, o =>
    if o = 0 then some []
    else
      match s.getNode o with
      | none => none
      | some nd =>
        if L < nd.height then (s.chainAux L fuel (nd.tower.getD L 0)).map (o :: ·)
        else none

/-- The level-`L` chain hanging off the head sentinel. -/
def Skiplist.chain (s : Skiplist) (L : Nat) : Option (List Nat) :=
  s.chainAux L (s.nodes.length + 1) (s.getNextOffset s.headOffset L)

/-- `chainFrom s L o c`: following `tower[L]` from offset `o` visits
exactly the offsets in `c`, then reaches nil. -/
def Skiplist.chainFrom (s : Skiplist) (L : Nat) : Nat → List Nat → Prop
  | o, [] => o = 0
  | o, a :: rest => o = a ∧ ∃ nd, s.getNode a = some nd ∧ L < nd.height ∧
      s.chainFrom L (nd.tower.getD L 0) rest

/-- Reachable non-head node offsets. -/
def Skiplist.isNode (s : Skiplist) (o : Nat) : Prop :=
  1 ≤ o ∧ o ≤ s.nodes.length ∧ o ≠ s.headOffset

/-- Structural well-formedness of one node record. -/
def Skiplist.nodeOkB (s : Skiplist) (nd : Node) : Bool :=
  decide (1 ≤ nd.height) && decide (nd.height ≤ maxHeight) &&
  decide (nd.tower.length = maxHeight) &&
  decide (nd.keyOffset + nd.keySize ≤ s.arena.buf.length) &&
  (List.range maxHeight).all fun L => decide (nd.height ≤ L → nd.tower.getD L 0 = 0)

/-- The per-level link invariant at offset `o`: every live tower slot is
nil or points to a strictly taller-keyed valid node (no key constraint
out of the head sentinel), and never at the head. -/
def Skiplist.linkOkB (s : Skiplist) (o : Nat) : Bool :=
  match s.getNode o with
  | none => true
  | some nd =>
    (List.range maxHeight).all fun L =>
      if L < nd.height then
        decide (nd.tower.getD L 0 = 0) ||
          (decide (nd.tower.getD L 0 ≠ s.headOffset) &&
            match s.getNode (nd.tower.getD L 0) with
            | none => false
            | some m =>
              decide (L < m.height) &&
                (decide (o = s.headOffset) ||
                  decide (CompareKeys (s.nodeKey nd) (s.nodeKey m) < 0)))
      else true

/-- The data-structure invariant, as an executable check: head sentinel at
offset 1 with full height and nil key, height within `[1, maxHeight]`,
well-formed node records, the link invariant everywhere, and level-0
completeness (every non-head node sits on the level-0 chain). -/
def Skiplist.inv (s : Skiplist) : Bool :=
  decide (s.headOffset = 1) && decide (1 ≤ s.nodes.length) &&
  (match s.getNode 1 with
   | none => false
   | some hd => decide (hd.height = maxHeight) && decide (hd.keySize = 0)) &&
  decide (1 ≤ s.height) && decide (s.height ≤ maxHeight) &&
  s.nodes.all s.nodeOkB &&
  (List.range (s.nodes.length + 1)).all s.linkOkB &&
  (match s.chain 0 with
   | none => false
   | some c =>
     (List.range (s.nodes.length + 1)).all fun o => decide (o ≤ 1) || decide (o ∈ c)) &&
  s.nodes.all (fun nd =>
    (List.range maxHeight).all fun L => decide (s.height ≤ L → nd.tower.getD L 0 = 0)) &&
  (List.range maxHeight).all fun L =>
    match s.chain L with
    | none => false
    | some cL =>
      (List.range (s.nodes.length + 1)).all fun o =>
        decide (o ≤ 1) ||
        (match s.getNode o with
         | none => true
         | some nd => decide (nd.height ≤ L) || decide (o ∈ cL))

/-- `chainSeg s L o P f`: following `tower[L]` from `o` visits exactly the
offsets in `P`, exiting at offset `f`. -/
def Skiplist.chainSeg (s : Skiplist) (L : Nat) : Nat → List Nat → Nat → Prop
  | o, [], f => o = f
  | o, a :: rest, f => o = a ∧ ∃ nd, s.getNode a = some nd ∧ L < nd.height ∧
      s.chainSeg L (nd.tower.getD L 0) rest f

/-- Mid-publish invariant of `Add`'s per-level loop: levels below `i` link
the new node at `xOff`, levels at or above `i` still exclude it, and the
splice arrays hold valid pending positions for the remaining levels. -/
structure PubInv (key : List Nat) (xOff h i : Nat)
    (s : Skiplist) (prev next : List Nat) : Prop where
  head_off : s.headOffset = 1
  head_node : ∃ hd, s.getNode 1 = some hd ∧ hd.height = maxHeight ∧ hd.keySize = 0
  x_off : xOff = s.nodes.length
  x_ge2 : 2 ≤ xOff
  x_node : ∃ x, s.getNode xOff = some x ∧ x.height = h ∧ s.nodeKey x = key ∧
    ∀ L, i ≤ L → x.tower.getD L 0 = 0
  h_le : h ≤ s.height
  h_pos : 1 ≤ h
  hgt_hi : s.height ≤ maxHeight
  nodes_ok : ∀ nd ∈ s.nodes, s.nodeOkB nd = true
  links_ok : ∀ o, o ≤ s.nodes.length → s.linkOkB o = true
  high_zero : ∀ nd ∈ s.nodes, ∀ L, s.height ≤ L → nd.tower.getD L 0 = 0
  fresh : ∀ o m, s.getNode o = some m → o ≠ 1 → o ≠ xOff → s.nodeKey m ≠ key
  chains : ∀ L, L < maxHeight → ∃ cL, s.chain L = some cL ∧
    (∀ o nd, s.getNode o = some nd → 2 ≤ o → L < nd.height →
      (o = xOff ∧ i ≤ L) ∨ o ∈ cL) ∧
    (i ≤ L → xOff ∉ cL)
  prev_len : prev.length = maxHeight + 1
  next_len : next.length = maxHeight + 1
  splices : ∀ j, i ≤ j → j < h →
    (prev.getD j 0 = 0 ∧ 2 ≤ j) ∨
    (∃ pm, s.getNode (prev.getD j 0) = some pm ∧ j < pm.height ∧
      prev.getD j 0 ≠ xOff ∧
      (prev.getD j 0 = 1 ∨
        (s.isNode (prev.getD j 0) ∧ CompareKeys (s.keyAt (prev.getD j 0)) key < 0)) ∧
      pm.tower.getD j 0 = next.getD j 0 ∧
      (next.getD j 0 = 0 ∨
        (next.getD j 0 ≠ 1 ∧ next.getD j 0 ≠ xOff ∧
          ∃ nm, s.getNode (next.getD j 0) = some nm ∧ j < nm.height ∧
            0 < CompareKeys (s.keyAt (next.getD j 0)) key)))

/-- A concrete one-node skiplist holding the key `"k"||ts(1)`. -/
def skW : Skiplist :=
  match NewSkiplist.Add ⟨[107, 255, 255, 255, 255, 255, 255, 255, 254], [118], 0, 0, 0⟩ [] with
  | .ok s => s
  | .error _ => NewSkiplist

/-- The node `findNear` finds in `skW` for the bare user key `"k"`. -/
def ndW : Node :=
  (skW.getNode (skW.findNear [107] false true).1).getD ⟨0, 0, 0, 0, []⟩

/-- The per-offset link facts extracted from `inv`. -/
def Skiplist.linkFacts (s : Skiplist) : Prop :=
  ∀ o nd, s.getNode o = some nd → ∀ L, L < nd.height →
    nd.tower.getD L 0 = 0 ∨
    (nd.tower.getD L 0 ≠ s.headOffset ∧
      ∃ m, s.getNode (nd.tower.getD L 0) = some m ∧ L < m.height ∧
        (o = s.headOffset ∨ CompareKeys (s.nodeKey nd) (s.nodeKey m) < 0))

/-! ### findNear specification (C1) -/
/-- The boundary condition of `findNear` for a node key `k` against the
target `key`, by mode `(less, allowEqual)`: `≤ key`, `< key`, `≥ key`,
`> key` respectively. -/
def nearCond (key k : List Nat) : Bool → Bool → Prop
  | true, true => CompareKeys k key ≤ 0
  | true, false => CompareKeys k key < 0
  | false, true => 0 ≤ CompareKeys k key
  | false, false => 0 < CompareKeys k key

/-- Specification of `findNear`: `(0, false)` exactly when no reachable
node satisfies the boundary condition; otherwise a reachable non-head node
satisfying it that is best (greatest for `less`, least otherwise), the
boolean true iff the returned key is an exact match. -/
def Skiplist.findNearSpec (s : Skiplist) (key : List Nat) (less allowEqual : Bool)
    (r : Nat × Bool) : Prop :=
  (r.1 = 0 ∧ r.2 = false ∧ ∀ o, s.isNode o → ¬ nearCond key (s.keyAt o) less allowEqual) ∨
  (s.isNode r.1 ∧ nearCond key (s.keyAt r.1) less allowEqual ∧
    (∀ o, s.isNode o → nearCond key (s.keyAt o) less allowEqual →
      (if less = true then CompareKeys (s.keyAt o) (s.keyAt r.1) ≤ 0
       else CompareKeys (s.keyAt r.1) (s.keyAt o) ≤ 0)) ∧
    (r.2 = true ↔ s.keyAt r.1 = key))

/-- The state after one concrete `Add` on the fresh list. -/
def addW : Skiplist :=
  match NewSkiplist.Add ⟨[107, 1], [118], 0, 0, 0⟩ [] with
  | .ok s => s
  | .error _ => NewSkiplist

/-! ### Order theory of `byteCompare` and `CompareKeys` -/
theorem byteCompare_eq_zero_iff : ∀ a b : List Nat, byteCompare a b = 0 ↔ a = b := by
  intro a
  induction a with
  | nil =>
    intro b
    cases b with
    | nil => simp [byteCompare]
    | cons y ys => simp [byteCompare]
  | cons x xs ih =>
    intro b
    cases b with
    | nil => simp [byteCompare]
    | cons y ys =>
      simp only [byteCompare, List.cons.injEq]
      rcases Nat.lt_trichotomy x y with h | h | h
      · rw [if_pos h]
        constructor
        · intro hc; exact absurd hc (by decide)
        · rintro ⟨rfl, -⟩; exact absurd h (lt_irrefl x)
      · subst h
        rw [if_neg (lt_irrefl x), if_neg (lt_irrefl x), ih ys]
        constructor
        · intro h2; exact ⟨rfl, h2⟩
        · rintro ⟨-, h2⟩; exact h2
      · rw [if_neg (by omega), if_pos h]
        constructor
        · intro hc; exact absurd hc (by decide)
        · rintro ⟨rfl, -⟩; exact absurd h (lt_irrefl x)

theorem byteCompare_swap : ∀ a b : List Nat, byteCompare b a = -byteCompare a b := by
  intro a
  induction a with
  | nil => intro b; cases b <;> simp [byteCompare]
  | cons x xs ih =>
    intro b
    cases b with
    | nil => simp [byteCompare]
    | cons y ys =>
      simp only [byteCompare]
      rcases Nat.lt_trichotomy x y with h | h | h
      · rw [if_neg (by omega), if_pos h, if_pos h]; decide
      · subst h
        rw [if_neg (lt_irrefl x), if_neg (lt_irrefl x), if_neg (lt_irrefl x),
          if_neg (lt_irrefl x)]
        exact ih ys
      · rw [if_pos h, if_neg (by omega), if_pos h]

theorem byteCompare_lt_trans :
    ∀ a b c : List Nat, byteCompare a b < 0 → byteCompare b c < 0 → byteCompare a c < 0 := by
  intro a
  induction a with
  | nil =>
    intro b c hab hbc
    cases c with
    | nil =>
      cases b with
      | nil => simpa [byteCompare] using hab
      | cons y ys => simpa [byteCompare] using hbc
    | cons z zs => simp [byteCompare]
  | cons x xs ih =>
    intro b c hab hbc
    cases b with
    | nil => simp [byteCompare] at hab
    | cons y ys =>
      cases c with
      | nil => simp [byteCompare] at hbc
      | cons z zs =>
        simp only [byteCompare] at hab hbc ⊢
        rcases Nat.lt_trichotomy x y with h1 | h1 | h1
        · rcases Nat.lt_trichotomy y z with h2 | h2 | h2
          · rw [if_pos (by omega)]; decide
          · subst h2; rw [if_pos h1]; decide
          · rw [if_pos h2, if_neg (by omega)] at hbc
            exact absurd hbc (by decide)
        · subst h1
          rcases Nat.lt_trichotomy x z with h2 | h2 | h2
          · rw [if_pos h2]; decide
          · subst h2
            rw [if_neg (lt_irrefl x), if_neg (lt_irrefl x)] at hab hbc ⊢
            exact ih ys zs hab hbc
          · rw [if_neg (by omega), if_pos h2] at hbc
            exact absurd hbc (by decide)
        · rw [if_neg (by omega), if_pos h1] at hab
          exact absurd hab (by decide)

theorem byteCompare_trichotomy (a b : List Nat) :
    byteCompare a b = -1 ∨ byteCompare a b = 0 ∨ byteCompare a b = 1 := by
  induction a generalizing b with
  | nil => cases b <;> simp [byteCompare]
  | cons x xs ih =>
    cases b with
    | nil => simp [byteCompare]
    | cons y ys =>
      simp only [byteCompare]
      rcases Nat.lt_trichotomy x y with h | h | h
      · rw [if_pos h]; tauto
      · subst h; rw [if_neg (lt_irrefl x), if_neg (lt_irrefl x)]; exact ih ys
      · rw [if_neg (by omega), if_pos h]; tauto

theorem byteCompare_le_lt_trans {a b c : List Nat}
    (hab : byteCompare a b ≤ 0) (hbc : byteCompare b c < 0) : byteCompare a c < 0 := by
  rcases lt_or_eq_of_le hab with h | h
  · exact byteCompare_lt_trans a b c h hbc
  · rw [(byteCompare_eq_zero_iff a b).mp h]; exact hbc

theorem byteCompare_lt_le_trans {a b c : List Nat}
    (hab : byteCompare a b < 0) (hbc : byteCompare b c ≤ 0) : byteCompare a c < 0 := by
  rcases lt_or_eq_of_le hbc with h | h
  · exact byteCompare_lt_trans a b c hab h
  · rw [← (byteCompare_eq_zero_iff b c).mp h]; exact hab

/-- A key splits into its user-key prefix and its timestamp suffix. -/
theorem parseKey_append_tsSuffix (k : List Nat) : ParseKey k ++ tsSuffix k = k := by
  unfold ParseKey tsSuffix
  by_cases h : k.length < 8
  · simp [h]
  · simp [h, List.take_append_drop]

theorem CompareKeys_eq_zero_iff (a b : List Nat) : CompareKeys a b = 0 ↔ a = b := by
  unfold CompareKeys
  by_cases h : byteCompare (ParseKey a) (ParseKey b) ≠ 0
  · rw [if_pos h]
    constructor
    · intro h0; exact absurd h0 h
    · rintro rfl; exact absurd ((byteCompare_eq_zero_iff _ _).mpr rfl) h
  · rw [if_neg h]
    push_neg at h
    rw [byteCompare_eq_zero_iff] at h
    rw [byteCompare_eq_zero_iff]
    constructor
    · intro h2
      have := parseKey_append_tsSuffix a
      rw [h, h2, parseKey_append_tsSuffix b] at this
      exact this.symm
    · rintro rfl; rfl

theorem CompareKeys_swap (a b : List Nat) : CompareKeys b a = -CompareKeys a b := by
  unfold CompareKeys
  rw [byteCompare_swap (ParseKey a) (ParseKey b), byteCompare_swap (tsSuffix a) (tsSuffix b)]
  by_cases h : byteCompare (ParseKey a) (ParseKey b) = 0
  · simp [h]
  · rw [if_pos (by omega : -byteCompare (ParseKey a) (ParseKey b) ≠ 0), if_pos h]

theorem CompareKeys_lt_trans {a b c : List Nat}
    (hab : CompareKeys a b < 0) (hbc : CompareKeys b c < 0) : CompareKeys a c < 0 := by
  unfold CompareKeys at hab hbc ⊢
  by_cases h1 : byteCompare (ParseKey a) (ParseKey b) = 0
  · rw [if_neg (by omega)] at hab
    by_cases h2 : byteCompare (ParseKey b) (ParseKey c) = 0
    · rw [if_neg (by omega)] at hbc
      have hac : byteCompare (ParseKey a) (ParseKey c) = 0 := by
        rw [byteCompare_eq_zero_iff] at h1 h2 ⊢
        rw [h1, h2]
      rw [if_neg (by omega)]
      exact byteCompare_lt_trans _ _ _ hab hbc
    · rw [if_pos h2] at hbc
      have hac : byteCompare (ParseKey a) (ParseKey c) < 0 := by
        rw [byteCompare_eq_zero_iff] at h1
        rw [h1]; exact hbc
      rw [if_pos (by omega)]
      exact hac
  · rw [if_pos h1] at hab
    by_cases h2 : byteCompare (ParseKey b) (ParseKey c) = 0
    · have hac : byteCompare (ParseKey a) (ParseKey c) < 0 := by
        rw [byteCompare_eq_zero_iff] at h2
        rw [← h2]; exact hab
      rw [if_pos (by omega)]
      exact hac
    · rw [if_pos h2] at hbc
      have hac := byteCompare_lt_trans _ _ _ hab hbc
      rw [if_pos (by omega)]
      exact hac

theorem CompareKeys_pos_iff (a b : List Nat) : 0 < CompareKeys a b ↔ CompareKeys b a < 0 := by
  rw [CompareKeys_swap b a]; omega

theorem CompareKeys_self (a : List Nat) : CompareKeys a a = 0 :=
  (CompareKeys_eq_zero_iff a a).mpr rfl

theorem CompareKeys_le_lt_trans {a b c : List Nat}
    (hab : CompareKeys a b ≤ 0) (hbc : CompareKeys b c < 0) : CompareKeys a c < 0 := by
  rcases lt_or_eq_of_le hab with h | h
  · exact CompareKeys_lt_trans h hbc
  · rw [(CompareKeys_eq_zero_iff a b).mp h]; exact hbc

theorem CompareKeys_lt_le_trans {a b c : List Nat}
    (hab : CompareKeys a b < 0) (hbc : CompareKeys b c ≤ 0) : CompareKeys a c < 0 := by
  rcases lt_or_eq_of_le hbc with h | h
  · exact CompareKeys_lt_trans hab h
  · rw [← (CompareKeys_eq_zero_iff b c).mp h]; exact hab

theorem sizeVarintAux_irrel : ∀ fuel₁ fuel₂ x, x < fuel₁ → x < fuel₂ →
    sizeVarintAux fuel₁ x = sizeVarintAux fuel₂ x := by
  intro f1
  induction f1 with
  | zero => intro f2 x h; omega
  | succ f ih =>
    intro f2 x h1 h2
    cases f2 with
    | zero => omega
    | succ g =>
      simp only [sizeVarintAux]
      by_cases hx : x < 128
      · simp [hx]
      · have hdiv : x / 128 < x := Nat.div_lt_self (by omega) (by omega)
        rw [if_neg hx, if_neg hx, ih g (x / 128) (by omega) (by omega)]

theorem putUvarintAux_irrel : ∀ fuel₁ fuel₂ x, x < fuel₁ → x < fuel₂ →
    putUvarintAux fuel₁ x = putUvarintAux fuel₂ x := by
  intro f1
  induction f1 with
  | zero => intro f2 x h; omega
  | succ f ih =>
    intro f2 x h1 h2
    cases f2 with
    | zero => omega
    | succ g =>
      simp only [putUvarintAux]
      by_cases hx : x < 128
      · simp [hx]
      · have hdiv : x / 128 < x := Nat.div_lt_self (by omega) (by omega)
        rw [if_neg hx, if_neg hx, ih g (x / 128) (by omega) (by omega)]

/-- The defining equation of `sizeVarint`. -/
theorem sizeVarint_eq (x : Nat) :
    sizeVarint x = if x < 128 then 1 else 1 + sizeVarint (x / 128) := by
  show sizeVarintAux (x + 1) x = _
  simp only [sizeVarintAux]
  by_cases hx : x < 128
  · simp [hx]
  · have hdiv : x / 128 < x := Nat.div_lt_self (by omega) (by omega)
    rw [if_neg hx, if_neg hx,
      sizeVarintAux_irrel x (x / 128 + 1) (x / 128) (by omega) (by omega)]
    rfl

/-- The defining equation of `putUvarint`. -/
theorem putUvarint_eq (x : Nat) :
    putUvarint x = if x < 128 then [x] else (x % 128 + 128) :: putUvarint (x / 128) := by
  show putUvarintAux (x + 1) x = _
  simp only [putUvarintAux]
  by_cases hx : x < 128
  · simp [hx]
  · have hdiv : x / 128 < x := Nat.div_lt_self (by omega) (by omega)
    rw [if_neg hx, if_neg hx,
      putUvarintAux_irrel x (x / 128 + 1) (x / 128) (by omega) (by omega)]
    rfl

theorem sizeVarint_pos (x : Nat) : 1 ≤ sizeVarint x := by
  rw [sizeVarint_eq]
  split <;> omega

theorem sizeVarint_lt (x : Nat) (h : 128 ≤ x) : sizeVarint x = 1 + sizeVarint (x / 128) := by
  rw [sizeVarint_eq, if_neg (by omega)]

theorem sizeVarint_small (x : Nat) (h : x < 128) : sizeVarint x = 1 := by
  rw [sizeVarint_eq, if_pos h]

theorem putUvarint_length (x : Nat) : (putUvarint x).length = sizeVarint x := by
  induction x using Nat.strong_induction_on with
  | _ x ih =>
    by_cases h : x < 128
    · rw [putUvarint_eq, if_pos h, sizeVarint_small x h]; rfl
    · rw [putUvarint_eq, if_neg h, sizeVarint_lt x (by omega)]
      simp [ih (x / 128) (Nat.div_lt_self (by omega) (by omega))]
      omega

/-- The main varint decoding lemma: `binary.Uvarint` undoes
`binary.PutUvarint` at any start index where the value still fits. -/
theorem goUvarintAux_putUvarint (x : Nat) :
    ∀ i acc rest, i ≤ 9 → acc < 2 ^ (7 * i) → acc + x * 2 ^ (7 * i) < 2 ^ 64 →
      goUvarintAux (putUvarint x ++ rest) i (7 * i) acc =
        (acc + x * 2 ^ (7 * i), (i : Int) + sizeVarint x) := by
  induction x using Nat.strong_induction_on with
  | _ x ih =>
    intro i acc rest hi hacc hbound
    have hxlt : x * 2 ^ (7 * i) < 2 ^ 64 := lt_of_le_of_lt (Nat.le_add_left _ _) hbound
    by_cases hx : x < 128
    · rw [putUvarint_eq, if_pos hx]
      have hno9 : ¬(i = 9 ∧ 1 < x) := by
        rintro ⟨rfl, hx1⟩
        have h2 : 2 * 2 ^ (7 * 9) ≤ x * 2 ^ (7 * 9) := Nat.mul_le_mul_right _ hx1
        norm_num at h2
        norm_num at hxlt
        omega
      simp only [List.cons_append, goUvarintAux, if_neg (by omega : ¬ i = 10), if_pos hx,
        if_neg hno9]
      rw [Nat.mod_eq_of_lt hxlt, Nat.mod_eq_of_lt hbound, sizeVarint_small x hx]
      simp
    · rw [putUvarint_eq, if_neg hx]
      have hi8 : i ≤ 8 := by
        by_contra hgt
        have h9 : i = 9 := by omega
        subst h9
        have h2 : 128 * 2 ^ (7 * 9) ≤ x * 2 ^ (7 * 9) :=
          Nat.mul_le_mul_right _ (by omega)
        norm_num at h2
        norm_num at hxlt
        omega
      have hpos : 0 < 2 ^ (7 * i) := Nat.pos_pow_of_pos _ (by omega)
      have hchunk : x % 128 * 2 ^ (7 * i) < 2 ^ (7 * i + 7) := by
        have hlt : x % 128 < 128 := Nat.mod_lt _ (by omega)
        calc x % 128 * 2 ^ (7 * i) < 128 * 2 ^ (7 * i) :=
              (Nat.mul_lt_mul_right hpos).mpr hlt
          _ = 2 ^ (7 * i + 7) := by rw [pow_add]; ring
      have hlt64 : (7 : Nat) * i + 7 ≤ 63 := by omega
      have hchunk64 : x % 128 * 2 ^ (7 * i) < 2 ^ 64 :=
        lt_of_lt_of_le hchunk (Nat.pow_le_pow_right (by omega) (by omega))
      have hacc' : acc + x % 128 * 2 ^ (7 * i) < 2 ^ (7 * (i + 1)) := by
        have hmul : 7 * (i + 1) = 7 * i + 7 := by ring
        have hsplit : (2 : Nat) ^ (7 * i + 7) = 128 * 2 ^ (7 * i) := by
          rw [pow_add]; ring
        rw [hmul, hsplit]
        have hle : x % 128 * 2 ^ (7 * i) ≤ 127 * 2 ^ (7 * i) :=
          Nat.mul_le_mul_right _ (by omega)
        omega
      have hacc64 : acc + x % 128 * 2 ^ (7 * i) < 2 ^ 64 := by
        have : (2 : Nat) ^ (7 * (i + 1)) ≤ 2 ^ 64 := Nat.pow_le_pow_right (by omega) (by omega)
        omega
      have hsum : acc + x % 128 * 2 ^ (7 * i) + x / 128 * 2 ^ (7 * (i + 1)) =
          acc + x * 2 ^ (7 * i) := by
        have hmul : 7 * (i + 1) = 7 * i + 7 := by ring
        rw [hmul, pow_add]
        have : x % 128 * 2 ^ (7 * i) + x / 128 * (2 ^ (7 * i) * 2 ^ 7) =
            (x % 128 + x / 128 * 128) * 2 ^ (7 * i) := by ring
        rw [add_assoc, this, Nat.mod_add_div' x 128]
      simp only [List.cons_append, goUvarintAux, if_neg (by omega : ¬ i = 10),
        if_neg (by omega : ¬ x % 128 + 128 < 128), List.append_eq]
      have hb : (x % 128 + 128) % 128 = x % 128 := by omega
      rw [hb, Nat.mod_eq_of_lt hchunk64, Nat.mod_eq_of_lt hacc64]
      have h7 : 7 * i + 7 = 7 * (i + 1) := by ring
      rw [h7]
      rw [ih (x / 128) (Nat.div_lt_self (by omega) (by omega)) (i + 1)
        (acc + x % 128 * 2 ^ (7 * i)) rest (by omega) hacc' (by rw [hsum]; exact hbound)]
      rw [hsum, sizeVarint_lt x (by omega)]
      simp only [Prod.mk.injEq, true_and]
      push_cast
      ring

/-- `binary.Uvarint` inverts `binary.PutUvarint` for any `uint64` value,
regardless of trailing bytes. -/
theorem goUvarint_putUvarint (x : Nat) (rest : List Nat) (hx : x < 2 ^ 64) :
    goUvarint (putUvarint x ++ rest) = (x, (sizeVarint x : Int)) := by
  have h := goUvarintAux_putUvarint x 0 0 rest (by omega) (by norm_num) (by simpa)
  simpa [goUvarint] using h

/-- C6: `EncodedSize(v) = 1 + varint_len(ExpiresAt) + len(Value)`;
`EncodeValue` writes exactly that many bytes, laid out as `Meta`, then
`varint(ExpiresAt)`, then the `Value` bytes; and `DecodeValue` on those
bytes restores `Meta`, `ExpiresAt` and `Value` bytewise (round trip). -/
theorem encode_decode_roundtrip (v : ValueStruct) (hMeta : v.Meta < 256)
    (hExp : v.ExpiresAt < 2 ^ 64)
    (hSize : v.Value.length + 1 + sizeVarint v.ExpiresAt < 2 ^ 32) :
    v.EncodedSize = 1 + sizeVarint v.ExpiresAt + v.Value.length ∧
    v.encodeBytes.length = v.EncodedSize ∧
    v.encodeBytes = v.Meta :: (putUvarint v.ExpiresAt ++ v.Value) ∧
    DecodeValue v.encodeBytes =
      { Meta := v.Meta, ExpiresAt := v.ExpiresAt, Value := v.Value, Version := 0 } := by
  have hsz : v.EncodedSize = 1 + sizeVarint v.ExpiresAt + v.Value.length := by
    unfold ValueStruct.EncodedSize
    rw [Nat.mod_eq_of_lt hSize]
    ring
  have hmeta : v.Meta % 256 = v.Meta := Nat.mod_eq_of_lt hMeta
  refine ⟨hsz, ?_, ?_, ?_⟩
  · unfold ValueStruct.encodeBytes
    rw [hsz]
    simp [putUvarint_length]
    ring
  · unfold ValueStruct.encodeBytes
    rw [hmeta]
  · unfold ValueStruct.encodeBytes DecodeValue
    simp only [List.headD_cons, List.drop_succ_cons, List.drop_zero, List.drop_one,
      List.tail_cons]
    rw [goUvarint_putUvarint _ _ hExp, hmeta]
    simp only [Int.toNat_natCast]
    rw [Nat.add_comm 1 (sizeVarint v.ExpiresAt), List.drop_succ_cons,
      ← putUvarint_length v.ExpiresAt, List.drop_left]

/-- Witness for `encode_decode_roundtrip` at a concrete value cell. -/
theorem encode_decode_roundtrip_witness :
    DecodeValue (ValueStruct.encodeBytes ⟨7, [1, 2, 3], 300, 5⟩) =
      ⟨7, [1, 2, 3], 300, 0⟩ ∧
    (ValueStruct.encodeBytes ⟨7, [1, 2, 3], 300, 5⟩).length =
      ValueStruct.EncodedSize ⟨7, [1, 2, 3], 300, 5⟩ := by
  have h := encode_decode_roundtrip ⟨7, [1, 2, 3], 300, 5⟩ (by decide) (by decide)
    (by decide)
  exact ⟨h.2.2.2, h.2.1⟩

/-- C7: `ParseTs` returns 0 for keys of length ≤ 8 and `MaxU64` minus the
big-endian u64 of the final 8 bytes otherwise; `ParseKey` returns the key
whole below length 8 and strips the final 8 bytes otherwise; at length
exactly 8 the user key is empty while the timestamp parses to 0. -/
theorem parse_key_ts_spec (key : List Nat) :
    (key.length ≤ 8 → ParseTs key = 0) ∧
    (8 < key.length →
      ParseTs key = (2 ^ 64 - 1) - uint64BE (key.drop (key.length - 8))) ∧
    (key.length < 8 → ParseKey key = key) ∧
    (8 ≤ key.length → ParseKey key = key.take (key.length - 8)) ∧
    (key.length = 8 → ParseKey key = [] ∧ ParseTs key = 0) := by
  refine ⟨fun h => ?_, fun h => ?_, fun h => ?_, fun h => ?_, fun h => ?_⟩
  · rw [ParseTs, if_pos h]
  · rw [ParseTs, if_neg (by omega)]
  · rw [ParseKey, if_pos h]
  · rw [ParseKey, if_neg (by omega)]
  · refine ⟨?_, by rw [ParseTs, if_pos (by omega)]⟩
    rw [ParseKey, if_neg (by omega), h]
    simp

/-- Witness for `parse_key_ts_spec` at concrete keys of length 8 and 2. -/
theorem parse_key_ts_spec_witness :
    (ParseKey [0, 1, 2, 3, 4, 5, 6, 7] = [] ∧ ParseTs [0, 1, 2, 3, 4, 5, 6, 7] = 0) ∧
    ParseKey [9, 9] = [9, 9] :=
  ⟨(parse_key_ts_spec [0, 1, 2, 3, 4, 5, 6, 7]).2.2.2.2 rfl,
   (parse_key_ts_spec [9, 9]).2.2.1 (by decide)⟩

/-! ## Reference counting (C5), SameKey/Search length mismatch (C10),
Search composition (C4), height bounds (C8) -/
/-- C5: `NewSkiplist` starts with ref 1 and a live arena; creating an
iterator increments the count and leaves the arena untouched; iterator
close is exactly `DecrRef`; a decrement that leaves the count positive
keeps the arena; the decrement that reaches 0 invokes `OnClose` exactly
when it is set and clears the arena reference. -/
theorem refcount_lifecycle :
    (NewSkiplist.ref = 1 ∧ NewSkiplist.arenaValid = true) ∧
    (∀ s : Skiplist, s.NewSkipListIterator.1.ref = s.ref + 1 ∧
      s.NewSkipListIterator.1.arenaValid = s.arenaValid ∧
      s.NewSkipListIterator.1.arena = s.arena) ∧
    (∀ it : SkipListIterator, it.close = it.list.DecrRef) ∧
    (∀ s : Skiplist, 1 < s.ref →
      s.DecrRef = ({ s with ref := s.ref - 1 }, false)) ∧
    (∀ s : Skiplist, s.ref = 1 →
      s.DecrRef.1.arenaValid = false ∧ s.DecrRef.2 = s.hasOnClose ∧
      s.DecrRef.1.ref = 0) := by
  refine ⟨⟨rfl, rfl⟩, fun s => ⟨rfl, rfl, rfl⟩, fun it => rfl, fun s h => ?_, fun s h => ?_⟩
  · unfold Skiplist.DecrRef
    rw [if_pos (by omega)]
  · unfold Skiplist.DecrRef
    rw [if_neg (by omega)]
    refine ⟨rfl, rfl, ?_⟩
    simp [h]

/-- Witness for `refcount_lifecycle` on concrete states. -/
theorem refcount_lifecycle_witness :
    ({ NewSkiplist with ref := 2 } : Skiplist).DecrRef =
      ({ NewSkiplist with ref := 1 }, false) ∧
    NewSkiplist.DecrRef.1.arenaValid = false := by
  refine ⟨?_, (refcount_lifecycle.2.2.2.2 NewSkiplist rfl).1⟩
  have h := refcount_lifecycle.2.2.2.1 { NewSkiplist with ref := 2 } (by decide)
  simpa using h

/-- C10: `SameKey` is false whenever the lengths differ, even when the
parsed user keys are byte-equal; consequently `Search` with a key whose
total length differs from the stored internal key's returns the empty
cell although the user-key prefixes match. -/
theorem samekey_length_mismatch (key stored : List Nat)
    (hlen : key.length ≠ stored.length) (_hpfx : ParseKey key = ParseKey stored)
    (s : Skiplist) (nd : Node)
    (hfound : s.getNode (s.findNear key false true).1 = some nd)
    (hkey : s.arena.getKey nd.keyOffset nd.keySize = stored) :
    SameKey key stored = false ∧ s.Search key = emptyVS := by
  have hsk : SameKey key stored = false := by
    unfold SameKey
    rw [if_pos hlen]
  refine ⟨hsk, ?_⟩
  unfold Skiplist.Search
  rw [hfound]
  simp [hkey, hsk]

/-- Witness for `samekey_length_mismatch`: the one-node list holding
`"k"||ts(1)` searched with the bare user key `"k"`. -/
theorem samekey_length_mismatch_witness :
    SameKey [107] [107, 255, 255, 255, 255, 255, 255, 255, 254] = false ∧
    skW.Search [107] = emptyVS :=
  samekey_length_mismatch [107] [107, 255, 255, 255, 255, 255, 255, 255, 254]
    (by decide) (by decide) skW ndW (by decide) (by decide)

/-- C4: `Search` is `findNear(key, less=false, allowEqual=true)` followed
by the `SameKey` filter: on a match it returns the node's decoded value
cell with `ExpiresAt` replaced by `ParseTs` of the stored key, otherwise
(in particular when the key is absent) the empty cell — `Search` is total
and has no error path. -/
theorem search_spec (s : Skiplist) (key : List Nat) :
    (s.getNode (s.findNear key false true).1 = none → s.Search key = emptyVS) ∧
    (∀ nd, s.getNode (s.findNear key false true).1 = some nd →
      (SameKey key (s.nodeKey nd) = false → s.Search key = emptyVS) ∧
      (SameKey key (s.nodeKey nd) = true →
        s.Search key =
          { s.arena.getVal (decodeValue nd.value).1 (decodeValue nd.value).2 with
              ExpiresAt := ParseTs (s.nodeKey nd) })) := by
  constructor
  · intro hnone
    unfold Skiplist.Search
    rw [hnone]
  · intro nd hsome
    constructor
    · intro hsk
      unfold Skiplist.Search
      rw [hsome]
      simp only [Skiplist.nodeKey] at hsk
      simp [hsk]
    · intro hsk
      unfold Skiplist.Search
      rw [hsome]
      simp only [Skiplist.nodeKey] at hsk
      simp only [Skiplist.nodeKey]
      simp [hsk]

/-- Witness for `search_spec`: the empty skiplist returns the empty cell. -/
theorem search_spec_witness : NewSkiplist.Search [1, 2, 3] = emptyVS :=
  (search_spec NewSkiplist [1, 2, 3]).1 rfl

/-! ### Height bookkeeping lemmas (towards C8) -/
theorem setNodeTower_height (s : Skiplist) (o l t : Nat) :
    (s.setNodeTower o l t).height = s.height := by
  unfold Skiplist.setNodeTower
  cases s.getNode o <;> rfl

theorem setNodeValue_height (s : Skiplist) (o w : Nat) :
    (s.setNodeValue o w).height = s.height := by
  unfold Skiplist.setNodeValue
  cases s.getNode o <;> rfl

theorem overwriteValue_height (s : Skiplist) (p : Nat) (v : ValueStruct) :
    (s.overwriteValue p v).height = s.height := by
  unfold Skiplist.overwriteValue
  exact setNodeValue_height _ _ _

theorem publishLevel_height (key : List Nat) (v : ValueStruct) (xOff i : Nat) :
    ∀ fuel s prev next,
      (∀ s2 p2 n2, Skiplist.publishLevel key v xOff i fuel s prev next = .cont s2 p2 n2 →
        s2.height = s.height) ∧
      (∀ s2, Skiplist.publishLevel key v xOff i fuel s prev next = .done s2 →
        s2.height = s.height) := by
  intro fuel
  induction fuel with
  | zero =>
    intro s prev next
    exact ⟨fun _ _ _ h => (nomatch h), fun _ h => (nomatch h)⟩
  | succ fuel ih =>
    intro s prev next
    constructor
    · intro s2 p2 n2 h
      unfold Skiplist.publishLevel at h
      rcases hres : s.resolvePrev key i prev next with e | pn
      · rw [hres] at h
        cases h
      · rw [hres] at h
        simp only at h
        split at h
        · cases h
          rw [setNodeTower_height, setNodeTower_height]
        · split at h
          · split at h
            · cases h
            · cases h
          · have := (ih _ _ _).1 s2 p2 n2 h
            rw [this, setNodeTower_height]
    · intro s2 h
      unfold Skiplist.publishLevel at h
      rcases hres : s.resolvePrev key i prev next with e | pn
      · rw [hres] at h
        cases h
      · rw [hres] at h
        simp only at h
        split at h
        · cases h
        · split at h
          · split at h
            · cases h
            · cases h
              rw [overwriteValue_height, setNodeTower_height]
          · have := (ih _ _ _).2 s2 h
            rw [this, setNodeTower_height]

theorem publishLoop_height (key : List Nat) (v : ValueStruct) (xOff : Nat) :
    ∀ r i s prev next s2,
      Skiplist.publishLoop key v xOff i r s prev next = .ok s2 → s2.height = s.height := by
  intro r
  induction r with
  | zero =>
    intro i s prev next s2 h
    unfold Skiplist.publishLoop at h
    cases h
    rfl
  | succ r ih =>
    intro i s prev next s2 h
    unfold Skiplist.publishLoop at h
    split at h
    · cases h
    · cases h
      exact (publishLevel_height key v xOff i _ s prev next).2 s2 (by assumption)
    · have h1 := ih _ _ _ _ _ h
      rw [h1]
      exact (publishLevel_height key v xOff i _ s prev next).1 _ _ _ (by assumption)

theorem newNode_height (s : Skiplist) (key : List Nat) (v : ValueStruct) (h : Nat) :
    (s.newNode key v h).1.height = s.height := rfl

/-- `randomHeightAux` stays within `[h, maxHeight]` when started at
`h ≤ maxHeight`. -/
theorem randomHeightAux_bounds :
    ∀ draws h, 1 ≤ h → h ≤ maxHeight →
      h ≤ randomHeightAux draws h ∧ 1 ≤ randomHeightAux draws h ∧
        randomHeightAux draws h ≤ maxHeight := by
  intro draws
  induction draws with
  | nil => intro h h1 h2; exact ⟨le_refl _, h1, h2⟩
  | cons d rest ih =>
    intro h h1 h2
    unfold randomHeightAux
    split
    · rename_i hcond
      simp only [Bool.and_eq_true, decide_eq_true_eq] at hcond
      have := ih (h + 1) (by omega) (by omega)
      exact ⟨by omega, this.2.1, this.2.2⟩
    · exact ⟨le_refl _, h1, h2⟩

/-- C8: the skiplist height starts at 1, `randomHeight` always lies in
`[1, maxHeight]`, and a successful `Add` either leaves the height
unchanged or raises it exactly to the new node's height; hence the height
never decreases and stays within `[1, maxHeight]`. -/
theorem height_monotone :
    NewSkiplist.height = 1 ∧
    (∀ draws, 1 ≤ randomHeight draws ∧ randomHeight draws ≤ maxHeight) ∧
    (∀ (s : Skiplist) (e : Entry) (draws : List Nat) (s2 : Skiplist),
      s.Add e draws = .ok s2 →
      (s2.height = s.height ∨
        (s.height < s2.height ∧ s2.height = randomHeight draws)) ∧
      (1 ≤ s.height → s.height ≤ maxHeight →
        1 ≤ s2.height ∧ s2.height ≤ maxHeight)) := by
  refine ⟨rfl, fun draws => ?_, fun s e draws s2 hadd => ?_⟩
  · have := randomHeightAux_bounds draws 1 (le_refl _) (by decide)
    exact ⟨this.2.1, this.2.2⟩
  · unfold Skiplist.Add at hadd
    split at hadd
    · cases hadd
      rename_i p _
      have hh := overwriteValue_height s p e.vs
      constructor
      · left; exact hh
      · intro a b; rw [hh]; exact ⟨a, b⟩
    · unfold Skiplist.addInsert at hadd
      have hloop := publishLoop_height _ _ _ _ _ _ _ _ _ hadd
      by_cases hlt : (s.newNode e.Key e.vs (randomHeight draws)).1.getHeight <
          randomHeight draws
      · rw [if_pos hlt] at hloop
        have hG : (s.newNode e.Key e.vs (randomHeight draws)).1.getHeight = s.height := rfl
        rw [hG] at hlt
        constructor
        · right
          constructor
          · rw [hloop]; exact hlt
          · rw [hloop]
        · intro a _
          rw [hloop]
          have hb := randomHeightAux_bounds draws 1 (le_refl _) (by decide)
          exact ⟨hb.2.1, hb.2.2⟩
      · rw [if_neg hlt] at hloop
        rw [newNode_height] at hloop
        constructor
        · left; exact hloop
        · intro a b; rw [hloop]; exact ⟨a, b⟩

/-! ### Invariant extraction -/
theorem getNode_valid {s : Skiplist} {o : Nat} {nd : Node} (h : s.getNode o = some nd) :
    1 ≤ o ∧ o ≤ s.nodes.length ∧ nd ∈ s.nodes := by
  unfold Skiplist.getNode at h
  by_cases h0 : o = 0
  · rw [if_pos h0] at h; cases h
  · rw [if_neg h0] at h
    obtain ⟨hlen, hget⟩ := List.getElem?_eq_some.mp h
    refine ⟨by omega, by omega, ?_⟩
    rw [← hget]
    exact List.getElem_mem hlen

theorem keyAt_eq {s : Skiplist} {o : Nat} {nd : Node} (h : s.getNode o = some nd) :
    s.keyAt o = s.nodeKey nd := by
  unfold Skiplist.keyAt
  rw [h]

theorem getNode_zero (s : Skiplist) : s.getNode 0 = none := rfl

theorem chainFrom_nil_iff (s : Skiplist) (L o : Nat) :
    s.chainFrom L o [] ↔ o = 0 := Iff.rfl

theorem chainFrom_cons_iff (s : Skiplist) (L o a : Nat) (rest : List Nat) :
    s.chainFrom L o (a :: rest) ↔
      o = a ∧ ∃ nd, s.getNode a = some nd ∧ L < nd.height ∧
        s.chainFrom L (nd.tower.getD L 0) rest := Iff.rfl

theorem inv_parts {s : Skiplist} (h : s.inv = true) :
    s.headOffset = 1 ∧ 1 ≤ s.nodes.length ∧
    (∃ hd, s.getNode 1 = some hd ∧ hd.height = maxHeight ∧ hd.keySize = 0) ∧
    1 ≤ s.height ∧ s.height ≤ maxHeight ∧
    (∀ nd ∈ s.nodes, s.nodeOkB nd = true) ∧
    (∀ o, o ≤ s.nodes.length → s.linkOkB o = true) ∧
    (∃ c, s.chain 0 = some c ∧ ∀ o, 2 ≤ o → o ≤ s.nodes.length → o ∈ c) := by
  unfold Skiplist.inv at h
  simp only [Bool.and_eq_true, decide_eq_true_eq, List.all_eq_true] at h
  obtain ⟨⟨⟨⟨⟨⟨⟨⟨⟨h1, h2⟩, h3⟩, h4⟩, h5⟩, h6⟩, h7⟩, h8⟩, -⟩, -⟩ := h
  refine ⟨h1, h2, ?_, h4, h5, h6, ?_, ?_⟩
  · rcases hh : s.getNode 1 with _ | hd
    · rw [hh] at h3; simp at h3
    · rw [hh] at h3
      simp only [Bool.and_eq_true, decide_eq_true_eq] at h3
      exact ⟨hd, rfl, h3.1, h3.2⟩
  · intro o ho
    exact h7 o (by simp only [List.mem_range]; omega)
  · rcases hc : s.chain 0 with _ | c
    · rw [hc] at h8; simp at h8
    · rw [hc] at h8
      simp only [List.all_eq_true, List.mem_range, Bool.or_eq_true, decide_eq_true_eq] at h8
      refine ⟨c, rfl, fun o h2o hlen => ?_⟩
      rcases h8 o (by omega) with h9 | h9
      · omega
      · exact h9

theorem nodeOk_spec {s : Skiplist} {nd : Node} (h : s.nodeOkB nd = true) :
    1 ≤ nd.height ∧ nd.height ≤ maxHeight ∧ nd.tower.length = maxHeight ∧
    nd.keyOffset + nd.keySize ≤ s.arena.buf.length ∧
    ∀ L, nd.height ≤ L → nd.tower.getD L 0 = 0 := by
  unfold Skiplist.nodeOkB at h
  simp only [Bool.and_eq_true, decide_eq_true_eq, List.all_eq_true, List.mem_range] at h
  obtain ⟨⟨⟨⟨h1, h2⟩, h3⟩, h4⟩, h5⟩ := h
  refine ⟨h1, h2, h3, h4, fun L hL => ?_⟩
  by_cases hrange : L < maxHeight
  · exact h5 L hrange hL
  · have hlen : nd.tower.length ≤ L := by omega
    simp [List.getD_eq_getElem?_getD, List.getElem?_eq_none hlen]

theorem linkOkB_spec {s : Skiplist} {o : Nat} (h : s.linkOkB o = true)
    {nd : Node} (hnd : s.getNode o = some nd) (hh : nd.height ≤ maxHeight) :
    ∀ L, L < nd.height →
      nd.tower.getD L 0 = 0 ∨
      (nd.tower.getD L 0 ≠ s.headOffset ∧
        ∃ m, s.getNode (nd.tower.getD L 0) = some m ∧ L < m.height ∧
          (o = s.headOffset ∨ CompareKeys (s.nodeKey nd) (s.nodeKey m) < 0)) := by
  unfold Skiplist.linkOkB at h
  rw [hnd] at h
  simp only [List.all_eq_true, List.mem_range] at h
  intro L hL
  have h2 := h L (by omega)
  rw [if_pos hL] at h2
  simp only [Bool.or_eq_true, Bool.and_eq_true, decide_eq_true_eq] at h2
  rcases h2 with h0 | ⟨hne, hrest⟩
  · left; exact h0
  · right
    refine ⟨hne, ?_⟩
    rcases hm : s.getNode (nd.tower.getD L 0) with _ | m
    · rw [hm] at hrest; simp at hrest
    · rw [hm] at hrest
      simp only [Bool.and_eq_true, Bool.or_eq_true, decide_eq_true_eq] at hrest
      exact ⟨m, rfl, hrest.1, hrest.2⟩

theorem inv_linkFacts {s : Skiplist} (h : s.inv = true) : s.linkFacts := by
  intro o nd hnd L hL
  have hp := inv_parts h
  have hv := getNode_valid hnd
  have hok := nodeOk_spec (hp.2.2.2.2.2.1 nd hv.2.2)
  exact linkOkB_spec (hp.2.2.2.2.2.2.1 o hv.2.1) hnd hok.2.1 L hL

/-- Extraction of the two height-related invariant components: tower
slots at or above the list height are nil, and every non-head node of
height above `L` sits on the level-`L` chain. -/
theorem inv_height_parts {s : Skiplist} (h : s.inv = true) :
    (∀ nd ∈ s.nodes, ∀ L, s.height ≤ L → nd.tower.getD L 0 = 0) ∧
    (∀ L, L < maxHeight →
      ∃ cL, s.chain L = some cL ∧
        ∀ o nd, s.getNode o = some nd → o ≠ s.headOffset → L < nd.height → o ∈ cL) := by
  have hparts := inv_parts h
  unfold Skiplist.inv at h
  simp only [Bool.and_eq_true, decide_eq_true_eq, List.all_eq_true] at h
  obtain ⟨⟨-, h9⟩, h10⟩ := h
  constructor
  · intro nd hnd L hL
    by_cases hrange : L < maxHeight
    · have := h9 nd hnd L (by simp only [List.mem_range]; omega)
      simp only [decide_eq_true_eq] at this
      exact this hL
    · have hok := nodeOk_spec (hparts.2.2.2.2.2.1 nd hnd)
      have hlen : nd.tower.length ≤ L := by
        rw [hok.2.2.1]
        omega
      simp [List.getD_eq_getElem?_getD, List.getElem?_eq_none hlen]
  · intro L hL
    have h11 := h10 L (by simp only [List.mem_range]; omega)
    rcases hc : s.chain L with _ | cL
    · rw [hc] at h11; simp at h11
    · rw [hc] at h11
      simp only [List.all_eq_true, List.mem_range, Bool.or_eq_true, decide_eq_true_eq] at h11
      refine ⟨cL, rfl, fun o nd hnd hohead hLh => ?_⟩
      have hv := getNode_valid hnd
      have h12 := h11 o (by omega)
      rcases h12 with h12 | h12
      · rw [hparts.1] at hohead
        omega
      · rw [hnd] at h12
        simp only [Bool.or_eq_true, decide_eq_true_eq] at h12
        rcases h12 with h12 | h12
        · omega
        · exact h12

/-! ### Chain lemmas -/
theorem chainFrom_unique {s : Skiplist} {L : Nat} :
    ∀ {c₁ : List Nat} {o : Nat} {c₂ : List Nat},
      s.chainFrom L o c₁ → s.chainFrom L o c₂ → c₁ = c₂ := by
  intro c₁
  induction c₁ with
  | nil =>
    intro o c₂ h1 h2
    rw [chainFrom_nil_iff] at h1
    subst h1
    cases c₂ with
    | nil => rfl
    | cons b rest =>
      rw [chainFrom_cons_iff] at h2
      obtain ⟨hb, nd, hnd, -, -⟩ := h2
      rw [← hb, getNode_zero] at hnd
      cases hnd
  | cons a rest ih =>
    intro o c₂ h1 h2
    rw [chainFrom_cons_iff] at h1
    obtain ⟨rfl, nd, hnd, hh, hrest⟩ := h1
    cases c₂ with
    | nil =>
      rw [chainFrom_nil_iff] at h2
      rw [h2, getNode_zero] at hnd
      cases hnd
    | cons b rest₂ =>
      rw [chainFrom_cons_iff] at h2
      obtain ⟨hb, nd₂, hnd₂, hh₂, hrest₂⟩ := h2
      subst hb
      rw [hnd] at hnd₂
      cases hnd₂
      rw [ih hrest hrest₂]

theorem chainFrom_decompose {s : Skiplist} {L : Nat} :
    ∀ {c : List Nat} {o a : Nat}, s.chainFrom L o c → a ∈ c →
      ∃ p suf nd, c = p ++ a :: suf ∧ s.getNode a = some nd ∧ L < nd.height ∧
        s.chainFrom L (nd.tower.getD L 0) suf := by
  intro c
  induction c with
  | nil => intro o a _ hmem; cases hmem
  | cons b rest ih =>
    intro o a hchain hmem
    rw [chainFrom_cons_iff] at hchain
    obtain ⟨rfl, nd, hnd, hh, hrest⟩ := hchain
    rcases List.mem_cons.mp hmem with rfl | hmem2
    · exact ⟨[], rest, nd, rfl, hnd, hh, hrest⟩
    · obtain ⟨p, suf, nd₂, hc, hnd₂, hh₂, hsuf⟩ := ih hrest hmem2
      exact ⟨o :: p, suf, nd₂, by rw [hc]; rfl, hnd₂, hh₂, hsuf⟩

theorem chainAux_eq_some (s : Skiplist) (L : Nat) :
    ∀ fuel o c, s.chainAux L fuel o = some c ↔ (s.chainFrom L o c ∧ c.length ≤ fuel) := by
  intro fuel
  induction fuel with
  | zero =>
    intro o c
    unfold Skiplist.chainAux
    by_cases h0 : o = 0
    · subst h0
      simp only [if_pos rfl]
      constructor
      · rintro h
        cases h
        exact ⟨rfl, by simp⟩
      · rintro ⟨hc, hlen⟩
        cases c with
        | nil => rfl
        | cons a rest =>
          rw [chainFrom_cons_iff] at hc
          obtain ⟨hb, nd, hnd, -, -⟩ := hc
          rw [← hb, getNode_zero] at hnd
          cases hnd
    · rw [if_neg h0]
      constructor
      · rintro h; cases h
      · rintro ⟨hc, hlen⟩
        cases c with
        | nil => exact absurd (chainFrom_nil_iff s L o |>.mp hc) h0
        | cons a rest => simp at hlen
  | succ fuel ih =>
    intro o c
    unfold Skiplist.chainAux
    by_cases h0 : o = 0
    · subst h0
      simp only [if_pos rfl]
      constructor
      · rintro h
        cases h
        exact ⟨rfl, by simp⟩
      · rintro ⟨hc, hlen⟩
        cases c with
        | nil => rfl
        | cons a rest =>
          rw [chainFrom_cons_iff] at hc
          obtain ⟨hb, nd, hnd, -, -⟩ := hc
          rw [← hb, getNode_zero] at hnd
          cases hnd
    · rw [if_neg h0]
      rcases hnd : s.getNode o with _ | nd
      · simp only [hnd]
        constructor
        · rintro h; cases h
        · rintro ⟨hc, hlen⟩
          cases c with
          | nil => exact absurd (chainFrom_nil_iff s L o |>.mp hc) h0
          | cons a rest =>
            rw [chainFrom_cons_iff] at hc
            obtain ⟨rfl, nd', hnd', -, -⟩ := hc
            rw [hnd] at hnd'
            cases hnd'
      · simp only [hnd]
        by_cases hh : L < nd.height
        · rw [if_pos hh]
          constructor
          · intro h
            rcases hmap : s.chainAux L fuel (nd.tower.getD L 0) with _ | c'
            · rw [hmap] at h; cases h
            · rw [hmap] at h
              cases h
              have h2 := (ih _ _).mp hmap
              refine ⟨?_, by simp only [List.length_cons]; omega⟩
              rw [chainFrom_cons_iff]
              exact ⟨rfl, nd, hnd, hh, h2.1⟩
          · rintro ⟨hc, hlen⟩
            cases c with
            | nil => exact absurd (chainFrom_nil_iff s L o |>.mp hc) h0
            | cons a rest =>
              rw [chainFrom_cons_iff] at hc
              obtain ⟨rfl, nd', hnd', hh', hrest⟩ := hc
              rw [hnd] at hnd'
              cases hnd'
              have h3 : s.chainAux L fuel (nd.tower.getD L 0) = some rest :=
                (ih _ _).mpr ⟨hrest, by simp only [List.length_cons] at hlen; omega⟩
              rw [h3]
              rfl
        · rw [if_neg hh]
          constructor
          · rintro h; cases h
          · rintro ⟨hc, hlen⟩
            cases c with
            | nil => exact absurd (chainFrom_nil_iff s L o |>.mp hc) h0
            | cons a rest =>
              rw [chainFrom_cons_iff] at hc
              obtain ⟨rfl, nd', hnd', hh', -⟩ := hc
              rw [hnd] at hnd'
              cases hnd'
              exact absurd hh' hh

/-- Members of a chain that does not start at the head are reachable
non-head nodes, and consecutive members carry strictly increasing keys. -/
theorem chainFrom_facts {s : Skiplist} (hl : s.linkFacts) (hh0 : s.headOffset ≠ 0)
    (L : Nat) :
    ∀ (c : List Nat) (o : Nat), s.chainFrom L o c → o ≠ s.headOffset →
      (∀ a ∈ c, s.isNode a) ∧
      c.Chain' (fun a b => CompareKeys (s.keyAt a) (s.keyAt b) < 0) := by
  intro c
  induction c with
  | nil =>
    intro o _ _
    exact ⟨fun a ha => absurd ha (List.not_mem_nil a), List.chain'_nil⟩
  | cons a rest ih =>
    intro o hchain hohead
    rw [chainFrom_cons_iff] at hchain
    obtain ⟨rfl, nd, hnd, hhgt, hrest⟩ := hchain
    have hv := getNode_valid hnd
    have hlink := hl o nd hnd L hhgt
    have hnext : nd.tower.getD L 0 ≠ s.headOffset := by
      rcases hlink with h0 | ⟨hne, -⟩
      · rw [h0]; exact fun hc => hh0 hc.symm
      · exact hne
    have ihr := ih (nd.tower.getD L 0) hrest hnext
    refine ⟨?_, ?_⟩
    · intro b hb
      rcases List.mem_cons.mp hb with rfl | hb2
      · exact ⟨hv.1, hv.2.1, hohead⟩
      · exact ihr.1 b hb2
    · cases rest with
      | nil => simp
      | cons b rest₂ =>
        refine List.chain'_cons.mpr ⟨?_, ihr.2⟩
        have hb : nd.tower.getD L 0 = b := by
          rw [chainFrom_cons_iff] at hrest
          exact hrest.1
        rcases hlink with h0 | ⟨-, m, hm, -, hcase⟩
        · rw [hb] at h0
          rw [chainFrom_cons_iff] at hrest
          obtain ⟨-, nd₂, hnd₂, -, -⟩ := hrest
          rw [h0, getNode_zero] at hnd₂
          cases hnd₂
        · rcases hcase with hcase | hcase
          · exact absurd hcase hohead
          · rw [hb] at hm
            rw [keyAt_eq hnd, keyAt_eq hm]
            exact hcase

theorem not_nearCond_lt {key k : List Nat} {allowEqual : Bool}
    (h : CompareKeys k key < 0) : ¬ nearCond key k false allowEqual := by
  cases allowEqual <;> unfold nearCond <;> omega

theorem not_nearCond_gt {key k : List Nat} {allowEqual : Bool}
    (h : 0 < CompareKeys k key) : ¬ nearCond key k true allowEqual := by
  cases allowEqual <;> unfold nearCond <;> omega

theorem nearCond_of_lt {key k : List Nat} {allowEqual : Bool}
    (h : CompareKeys k key < 0) : nearCond key k true allowEqual := by
  cases allowEqual <;> unfold nearCond <;> omega

theorem nearCond_of_gt {key k : List Nat} {allowEqual : Bool}
    (h : 0 < CompareKeys k key) : nearCond key k false allowEqual := by
  cases allowEqual <;> unfold nearCond <;> omega

theorem nearCond_ge_of_false {key k : List Nat} {allowEqual : Bool}
    (h : nearCond key k false allowEqual) : 0 ≤ CompareKeys k key := by
  cases allowEqual <;> unfold nearCond at h <;> omega

theorem nearCond_le_of_true {key k : List Nat} {allowEqual : Bool}
    (h : nearCond key k true allowEqual) : CompareKeys k key ≤ 0 := by
  cases allowEqual <;> unfold nearCond at h <;> omega

theorem CompareKeys_ne_of_lt {a b : List Nat} (h : CompareKeys a b < 0) : a ≠ b := by
  intro he
  rw [he, CompareKeys_self] at h
  omega

/-- Chains of strictly increasing keys are pairwise increasing. -/
theorem keyChain_pairwise {s : Skiplist} {c : List Nat}
    (h : c.Chain' (fun a b => CompareKeys (s.keyAt a) (s.keyAt b) < 0)) :
    c.Pairwise (fun a b => CompareKeys (s.keyAt a) (s.keyAt b) < 0) := by
  haveI : IsTrans Nat (fun a b => CompareKeys (s.keyAt a) (s.keyAt b) < 0) :=
    ⟨fun a b c hab hbc => CompareKeys_lt_trans hab hbc⟩
  exact List.chain'_iff_pairwise.mp h

theorem getNextOffset_eq {s : Skiplist} {x : Nat} {nd : Node} (hnd : s.getNode x = some nd)
    (L : Nat) : s.getNextOffset x L = nd.tower.getD L 0 := by
  unfold Skiplist.getNextOffset
  rw [hnd]

theorem getNextOffset_ne_head {s : Skiplist} (hlF : s.linkFacts) (hho0 : s.headOffset ≠ 0)
    {x : Nat} {nd : Node} (hnd : s.getNode x = some nd) {L : Nat} (hL : L < nd.height) :
    s.getNextOffset x L ≠ s.headOffset := by
  have h := hlF x nd hnd L hL
  rw [getNextOffset_eq hnd]
  rcases h with h0 | ⟨hne, -⟩
  · rw [h0]; exact fun hc => hho0 hc.symm
  · exact hne

/-- The facts `linkFacts` yields about a non-nil `next` pointer. -/
theorem next_facts {s : Skiplist} (hlF : s.linkFacts) {x L : Nat} {nd nextNode : Node}
    (hnd : s.getNode x = some nd) (hL : L < nd.height)
    (hnext : s.getNode (s.getNextOffset x L) = some nextNode) :
    s.isNode (s.getNextOffset x L) ∧ L < nextNode.height ∧
      (x = s.headOffset ∨ CompareKeys (s.keyAt x) (s.keyAt (s.getNextOffset x L)) < 0) := by
  have h := hlF x nd hnd L hL
  rw [getNextOffset_eq hnd] at hnext ⊢
  rcases h with h0 | ⟨hne, m, hm, hmh, hcase⟩
  · rw [h0, getNode_zero] at hnext; cases hnext
  · rw [hm] at hnext
    cases hnext
    have hv := getNode_valid hm
    refine ⟨⟨hv.1, hv.2.1, hne⟩, hmh, ?_⟩
    rcases hcase with h | h
    · left; exact h
    · right
      rw [keyAt_eq hnd, keyAt_eq hm]
      exact h

/-- At level 0 a non-nil `next` is the first element of the suffix chain. -/
theorem suffix_cons_of_next {s : Skiplist} {x : Nat} {suffix : List Nat} {nextNode : Node}
    (hs : s.chainFrom 0 (s.getNextOffset x 0) suffix)
    (hnext : s.getNode (s.getNextOffset x 0) = some nextNode) :
    ∃ suf', suffix = s.getNextOffset x 0 :: suf' ∧
      s.chainFrom 0 (s.getNextOffset (s.getNextOffset x 0) 0) suf' := by
  cases suffix with
  | nil =>
    rw [chainFrom_nil_iff] at hs
    rw [hs, getNode_zero] at hnext
    cases hnext
  | cons a rest =>
    rw [chainFrom_cons_iff] at hs
    obtain ⟨ha, nd2, hnd2, hh2, hrest⟩ := hs
    subst ha
    refine ⟨rest, rfl, ?_⟩
    rw [getNextOffset_eq hnd2]
    exact hrest

/-- The loop-invariant proof for `findNearAux`: from a position `x` (the
head, or a node keyed below the target) at a level below `x`'s height,
carrying the level-0 chain suffix after `x` and the settled prefix, the
traversal returns within `level + |suffix|` steps a result satisfying
`findNearSpec`. -/
theorem findNearAux_correct {s : Skiplist} (hInv : s.inv = true)
    (key : List Nat) (less allowEqual : Bool) (c0 : List Nat)
    (hc0 : s.chainFrom 0 (s.getNextOffset s.headOffset 0) c0)
    (hcomplete : ∀ o, s.isNode o → o ∈ c0) :
    ∀ fuel level x suffix pre,
      c0 = pre ++ suffix →
      s.chainFrom 0 (s.getNextOffset x 0) suffix →
      (x = s.headOffset ∨ (s.isNode x ∧ CompareKeys (s.keyAt x) key < 0)) →
      (∀ o ∈ pre, CompareKeys (s.keyAt o) (s.keyAt x) ≤ 0) →
      (x = s.headOffset → pre = []) →
      (∃ nd, s.getNode x = some nd ∧ level < nd.height) →
      level + suffix.length < fuel →
      ∃ r, s.findNearAux key less allowEqual fuel x level = some r ∧
        s.findNearSpec key less allowEqual r := by
  have hlF := inv_linkFacts hInv
  have hparts := inv_parts hInv
  have hho1 : s.headOffset = 1 := hparts.1
  have hho0 : s.headOffset ≠ 0 := by omega
  obtain ⟨hd, hhd1, hhdH, hhdK⟩ := hparts.2.2.1
  have hndhead : s.getNode s.headOffset = some hd := by rw [hho1]; exact hhd1
  have hstart0 : s.getNextOffset s.headOffset 0 ≠ s.headOffset :=
    getNextOffset_ne_head hlF hho0 hndhead (by rw [hhdH]; decide)
  have hc0facts := chainFrom_facts hlF hho0 0 c0 _ hc0 hstart0
  have hc0pw := keyChain_pairwise hc0facts.2
  have hbf : (!false) = true := rfl
  have hbt : ¬ ((!true) = true) := by decide
  have hft : ¬ (false = true) := by decide
  intro fuel
  induction fuel with
  | zero =>
    intro level x suffix pre _ _ _ _ _ _ hbound
    omega
  | succ fuel ih =>
    intro level x suffix pre hsplit hsufchain hx hpre hpre0 hxnode hbound
    obtain ⟨nd, hnd, hlvl⟩ := hxnode
    have hnd1 : 1 ≤ nd.height :=
      (nodeOk_spec (hparts.2.2.2.2.2.1 nd (getNode_valid hnd).2.2)).1
    have hsufne : s.getNextOffset x 0 ≠ s.headOffset :=
      getNextOffset_ne_head hlF hho0 hnd (by omega)
    have hsuffacts := chainFrom_facts hlF hho0 0 suffix _ hsufchain hsufne
    have hsufpw := keyChain_pairwise hsuffacts.2
    have hpreLt : x ≠ s.headOffset → ∀ o ∈ pre, CompareKeys (s.keyAt o) key < 0 := by
      intro hxh o ho
      rcases hx with h | ⟨-, hxk⟩
      · exact absurd h hxh
      · exact CompareKeys_le_lt_trans (hpre o ho) hxk
    unfold Skiplist.findNearAux
    rcases hnext : s.getNode (s.getNextOffset x level) with _ | nextNode
    · -- next == nil: descend or finish
      simp only [hnext]
      by_cases hlvl0 : 0 < level
      · rw [if_pos hlvl0]
        exact ih (level - 1) x suffix pre hsplit hsufchain hx hpre hpre0
          ⟨nd, hnd, by omega⟩ (by omega)
      · rw [if_neg hlvl0]
        have hz : level = 0 := by omega
        subst hz
        have hsufnil : suffix = [] := by
          cases suffix with
          | nil => rfl
          | cons a rest =>
            rw [chainFrom_cons_iff] at hsufchain
            obtain ⟨ha, nd2, hnd2, -, -⟩ := hsufchain
            rw [← ha] at hnd2
            rw [hnd2] at hnext
            cases hnext
        subst hsufnil
        cases less with
        | false =>
          rw [if_pos hbf]
          refine ⟨(0, false), rfl, Or.inl ⟨rfl, rfl, fun o ho hcond => ?_⟩⟩
          have hmem := hcomplete o ho
          rw [hsplit, List.append_nil] at hmem
          have hxh : x ≠ s.headOffset := by
            intro hxe
            rw [hpre0 hxe] at hmem
            cases hmem
          exact not_nearCond_lt (hpreLt hxh o hmem) hcond
        | true =>
          rw [if_neg hbt]
          by_cases hxh : x = s.headOffset
          · rw [if_pos hxh]
            refine ⟨(0, false), rfl, Or.inl ⟨rfl, rfl, fun o ho hcond => ?_⟩⟩
            have hmem := hcomplete o ho
            rw [hsplit, hpre0 hxh, List.nil_append] at hmem
            cases hmem
          · rw [if_neg hxh]
            rcases hx with h | ⟨hxn, hxk⟩
            · exact absurd h hxh
            refine ⟨(x, false), rfl, Or.inr ⟨hxn, nearCond_of_lt hxk, ?_, ?_⟩⟩
            · intro o ho hcond
              rw [if_pos rfl]
              have hmem := hcomplete o ho
              rw [hsplit, List.append_nil] at hmem
              exact hpre o hmem
            · exact ⟨(fun hc => nomatch hc), (fun hk => absurd hk (CompareKeys_ne_of_lt hxk))⟩
    · -- next != nil
      simp only [hnext]
      obtain ⟨hnIsNode, hnH, hnKeyCmp⟩ := next_facts hlF hnd hlvl hnext
      have hkeyN : s.keyAt (s.getNextOffset x level) = s.nodeKey nextNode := keyAt_eq hnext
      by_cases hcmp1 : 0 < CompareKeys key (s.nodeKey nextNode)
      · -- x.key < next.key < key: move right
        rw [if_pos hcmp1]
        have hnlt : CompareKeys (s.keyAt (s.getNextOffset x level)) key < 0 := by
          rw [hkeyN]
          exact (CompareKeys_pos_iff key _).mp hcmp1
        have hmemc0 : s.getNextOffset x level ∈ c0 := hcomplete _ hnIsNode
        have hxN : x ≠ s.headOffset →
            CompareKeys (s.keyAt x) (s.keyAt (s.getNextOffset x level)) < 0 := by
          intro hxh
          rcases hnKeyCmp with h | h
          · exact absurd h hxh
          · exact h
        have hmemsuf : s.getNextOffset x level ∈ suffix := by
          rw [hsplit] at hmemc0
          rcases List.mem_append.mp hmemc0 with hin | hin
          · by_cases hxh : x = s.headOffset
            · rw [hpre0 hxh] at hin
              cases hin
            · have h1 := hpre _ hin
              have h2 := hxN hxh
              have := CompareKeys_le_lt_trans h1 h2
              rw [CompareKeys_self] at this
              omega
          · exact hin
        obtain ⟨p', suf', nd₂, hdec, hnd₂, hh₂, hsuf'⟩ :=
          chainFrom_decompose hsufchain hmemsuf
        rw [hnext] at hnd₂
        cases hnd₂
        have hsufchain' : s.chainFrom 0
            (s.getNextOffset (s.getNextOffset x level) 0) suf' := by
          rw [getNextOffset_eq hnext]
          exact hsuf'
        have hsplit' : c0 = (pre ++ p' ++ [s.getNextOffset x level]) ++ suf' := by
          rw [hsplit, hdec]
          simp
        have hpw := hsufpw
        rw [hdec] at hpw
        obtain ⟨-, -, hcross⟩ := List.pairwise_append.mp hpw
        have hpre' : ∀ o ∈ pre ++ p' ++ [s.getNextOffset x level],
            CompareKeys (s.keyAt o) (s.keyAt (s.getNextOffset x level)) ≤ 0 := by
          intro o ho
          rcases List.mem_append.mp ho with ho2 | ho2
          · rcases List.mem_append.mp ho2 with ho3 | ho3
            · by_cases hxh : x = s.headOffset
              · rw [hpre0 hxh] at ho3
                cases ho3
              · have := CompareKeys_le_lt_trans (hpre o ho3) (hxN hxh)
                omega
            · have := hcross o ho3 (s.getNextOffset x level) (List.mem_cons_self _ _)
              omega
          · rcases List.mem_cons.mp ho2 with rfl | hc
            · rw [CompareKeys_self]
            · cases hc
        have hlen : suffix.length = p'.length + suf'.length + 1 := by
          rw [hdec]
          simp
          omega
        exact ih level (s.getNextOffset x level) suf'
          (pre ++ p' ++ [s.getNextOffset x level]) hsplit' hsufchain'
          (Or.inr ⟨hnIsNode, hnlt⟩) hpre' (fun h => absurd h hnIsNode.2.2)
          ⟨nextNode, hnext, hnH⟩ (by omega)
      · rw [if_neg hcmp1]
        by_cases hcmp2 : CompareKeys key (s.nodeKey nextNode) = 0
        · -- exact key found at next
          rw [if_pos hcmp2]
          have hkeq : s.keyAt (s.getNextOffset x level) = key := by
            rw [hkeyN]
            exact ((CompareKeys_eq_zero_iff key _).mp hcmp2).symm
          cases allowEqual with
          | true =>
            rw [if_pos (rfl : (true : Bool) = true)]
            refine ⟨(s.getNextOffset x level, true), rfl,
              Or.inr ⟨hnIsNode, ?_, ?_, ⟨(fun _ => hkeq), (fun _ => rfl)⟩⟩⟩
            · rw [hkeq]
              cases less <;> unfold nearCond <;> rw [CompareKeys_self]
            · intro o ho hcond
              rw [hkeq]
              cases less with
              | true =>
                rw [if_pos rfl]
                exact nearCond_le_of_true hcond
              | false =>
                rw [if_neg (by decide)]
                have h1 := nearCond_ge_of_false hcond
                have h2 := CompareKeys_swap (s.keyAt o) key
                omega
          | false =>
            rw [if_neg hft]
            cases less with
            | false =>
              rw [if_pos hbf]
              obtain ⟨P, SUF, ndm, hdecc, hndm, -, hSUF⟩ :=
                chainFrom_decompose hc0 (hcomplete _ hnIsNode)
              rw [hnext] at hndm
              cases hndm
              have hpw := hc0pw
              rw [hdecc] at hpw
              obtain ⟨-, hpwR, hcross⟩ := List.pairwise_append.mp hpw
              cases SUF with
              | nil =>
                have ht0 : s.getNextOffset (s.getNextOffset x level) 0 = 0 := by
                  rw [getNextOffset_eq hnext]
                  exact (chainFrom_nil_iff s 0 _).mp hSUF
                rw [ht0]
                refine ⟨(0, false), rfl, Or.inl ⟨rfl, rfl, fun o ho hcond => ?_⟩⟩
                have hmem := hcomplete o ho
                rw [hdecc] at hmem
                unfold nearCond at hcond
                rcases List.mem_append.mp hmem with hin | hin
                · have hlt := hcross o hin _ (List.mem_cons_self _ _)
                  rw [hkeq] at hlt
                  omega
                · rcases List.mem_cons.mp hin with rfl | hc
                  · rw [hkeq, CompareKeys_self] at hcond
                    omega
                  · cases hc
              | cons b SUF' =>
                rw [chainFrom_cons_iff] at hSUF
                obtain ⟨hbeq, m, hm, -, -⟩ := hSUF
                have htb : s.getNextOffset (s.getNextOffset x level) 0 = b := by
                  rw [getNextOffset_eq hnext]
                  exact hbeq
                rw [htb]
                have hmemb : b ∈ c0 := by
                  rw [hdecc]
                  simp
                have hNb : CompareKeys (s.keyAt (s.getNextOffset x level)) (s.keyAt b) < 0 :=
                  (List.pairwise_cons.mp hpwR).1 b (List.mem_cons_self _ _)
                have hbgt : 0 < CompareKeys (s.keyAt b) key := by
                  rw [hkeq] at hNb
                  exact (CompareKeys_pos_iff _ _).mpr hNb
                refine ⟨(b, false), rfl,
                  Or.inr ⟨hc0facts.1 b hmemb, nearCond_of_gt hbgt, ?_, ?_⟩⟩
                · intro o ho hcond
                  rw [if_neg hft]
                  show CompareKeys (s.keyAt b) (s.keyAt o) ≤ 0
                  unfold nearCond at hcond
                  have hmem := hcomplete o ho
                  rw [hdecc] at hmem
                  rcases List.mem_append.mp hmem with hin | hin
                  · have hlt := hcross o hin _ (List.mem_cons_self _ _)
                    rw [hkeq] at hlt
                    omega
                  · rcases List.mem_cons.mp hin with rfl | hc
                    · rw [hkeq, CompareKeys_self] at hcond
                      omega
                    · rcases List.mem_cons.mp hc with rfl | hc2
                      · rw [CompareKeys_self]
                      · have := (List.pairwise_cons.mp
                          (List.pairwise_cons.mp hpwR).2).1 o hc2
                        omega
                · constructor
                  · intro hc; cases hc
                  · intro hbk
                    rw [hbk, CompareKeys_self] at hbgt
                    omega
            | true =>
              rw [if_neg hbt]
              by_cases hlvl0 : 0 < level
              · rw [if_pos hlvl0]
                exact ih (level - 1) x suffix pre hsplit hsufchain hx hpre hpre0
                  ⟨nd, hnd, by omega⟩ (by omega)
              · rw [if_neg hlvl0]
                have hz : level = 0 := by omega
                subst hz
                obtain ⟨suf', hsufeq, hsuf'chain⟩ := suffix_cons_of_next hsufchain hnext
                have hpw := hsufpw
                rw [hsufeq] at hpw
                have hsufGe : ∀ o ∈ suffix, 0 ≤ CompareKeys (s.keyAt o) key := by
                  intro o ho
                  rw [hsufeq] at ho
                  rcases List.mem_cons.mp ho with rfl | hin
                  · rw [hkeq]
                    rw [CompareKeys_self]
                  · have := (List.pairwise_cons.mp hpw).1 o hin
                    rw [hkeq] at this
                    have := (CompareKeys_pos_iff _ _).mpr this
                    omega
                by_cases hxh : x = s.headOffset
                · rw [if_pos hxh]
                  refine ⟨(0, false), rfl, Or.inl ⟨rfl, rfl, fun o ho hcond => ?_⟩⟩
                  have hmem := hcomplete o ho
                  rw [hsplit, hpre0 hxh, List.nil_append] at hmem
                  have h1 := hsufGe o hmem
                  have h2 : CompareKeys (s.keyAt o) key < 0 := hcond
                  omega
                · rw [if_neg hxh]
                  rcases hx with h | ⟨hxn, hxk⟩
                  · exact absurd h hxh
                  refine ⟨(x, false), rfl, Or.inr ⟨hxn, hxk, ?_, ?_⟩⟩
                  · intro o ho hcond
                    rw [if_pos rfl]
                    have hmem := hcomplete o ho
                    rw [hsplit] at hmem
                    rcases List.mem_append.mp hmem with hin | hin
                    · exact hpre o hin
                    · have h1 := hsufGe o hin
                      have h2 : CompareKeys (s.keyAt o) key < 0 := hcond
                      omega
                  · exact ⟨(fun hc => nomatch hc),
                      (fun hk => absurd hk (CompareKeys_ne_of_lt hxk))⟩
        · -- x.key < key < next.key
          rw [if_neg hcmp2]
          have hcmp3 : CompareKeys key (s.nodeKey nextNode) < 0 := by omega
          have hNgt : 0 < CompareKeys (s.keyAt (s.getNextOffset x level)) key := by
            rw [hkeyN]
            exact (CompareKeys_pos_iff _ _).mpr hcmp3
          by_cases hlvl0 : 0 < level
          · rw [if_pos hlvl0]
            exact ih (level - 1) x suffix pre hsplit hsufchain hx hpre hpre0
              ⟨nd, hnd, by omega⟩ (by omega)
          · rw [if_neg hlvl0]
            have hz : level = 0 := by omega
            subst hz
            obtain ⟨suf', hsufeq, hsuf'chain⟩ := suffix_cons_of_next hsufchain hnext
            have hpw := hsufpw
            rw [hsufeq] at hpw
            have hsufGt : ∀ o ∈ suffix, 0 < CompareKeys (s.keyAt o) key := by
              intro o ho
              rw [hsufeq] at ho
              rcases List.mem_cons.mp ho with rfl | hin
              · exact hNgt
              · have h1 := (List.pairwise_cons.mp hpw).1 o hin
                have h2 := CompareKeys_swap (s.keyAt (s.getNextOffset x 0)) (s.keyAt o)
                have h3 := CompareKeys_swap (s.keyAt (s.getNextOffset x 0)) key
                have h4 := CompareKeys_swap (s.keyAt o) key
                have h5 : CompareKeys key (s.keyAt o) < 0 :=
                  CompareKeys_lt_trans (by omega) h1
                omega
            cases less with
            | false =>
              rw [if_pos hbf]
              refine ⟨(s.getNextOffset x 0, false), rfl,
                Or.inr ⟨hnIsNode, nearCond_of_gt hNgt, ?_, ?_⟩⟩
              · intro o ho hcond
                rw [if_neg hft]
                show CompareKeys (s.keyAt (s.getNextOffset x 0)) (s.keyAt o) ≤ 0
                have hge := nearCond_ge_of_false hcond
                have hmem := hcomplete o ho
                rw [hsplit] at hmem
                rcases List.mem_append.mp hmem with hin | hin
                · by_cases hxh : x = s.headOffset
                  · rw [hpre0 hxh] at hin
                    cases hin
                  · have := hpreLt hxh o hin
                    omega
                · rw [hsufeq] at hin
                  rcases List.mem_cons.mp hin with rfl | hin2
                  · rw [CompareKeys_self]
                  · have := (List.pairwise_cons.mp hpw).1 o hin2
                    omega
              · constructor
                · intro hc; cases hc
                · intro hk
                  rw [hk, CompareKeys_self] at hNgt
                  omega
            | true =>
              rw [if_neg hbt]
              by_cases hxh : x = s.headOffset
              · rw [if_pos hxh]
                refine ⟨(0, false), rfl, Or.inl ⟨rfl, rfl, fun o ho hcond => ?_⟩⟩
                have hmem := hcomplete o ho
                rw [hsplit, hpre0 hxh, List.nil_append] at hmem
                have h1 := hsufGt o hmem
                have h2 := nearCond_le_of_true hcond
                omega
              · rw [if_neg hxh]
                rcases hx with h | ⟨hxn, hxk⟩
                · exact absurd h hxh
                refine ⟨(x, false), rfl, Or.inr ⟨hxn, nearCond_of_lt hxk, ?_, ?_⟩⟩
                · intro o ho hcond
                  rw [if_pos rfl]
                  have hmem := hcomplete o ho
                  rw [hsplit] at hmem
                  rcases List.mem_append.mp hmem with hin | hin
                  · exact hpre o hin
                  · have h1 := hsufGt o hin
                    have h2 := nearCond_le_of_true hcond
                    omega
                · exact ⟨(fun hc => nomatch hc),
                    (fun hk => absurd hk (CompareKeys_ne_of_lt hxk))⟩

/-- C1: on every state satisfying the structure invariant and for every
target key, `findNear(key, less, allowEqual)` over the reachable nodes
returns: with `less=false, allowEqual=true` the least node with key ≥
target; with `less=false, allowEqual=false` the least node with key >
target; with `less=true, allowEqual=true` the greatest node with key ≤
target; with `less=true, allowEqual=false` the greatest node with key <
target.  The boolean result is true iff an exact match is returned, the
head sentinel is never returned, and when no node qualifies the node
result is null. -/
theorem findNear_correct (s : Skiplist) (hInv : s.inv = true) (key : List Nat)
    (less allowEqual : Bool) :
    s.findNearSpec key less allowEqual (s.findNear key less allowEqual) := by
  have hparts := inv_parts hInv
  obtain ⟨c, hc, hcomp⟩ := hparts.2.2.2.2.2.2.2
  unfold Skiplist.chain at hc
  have hchain := (chainAux_eq_some s 0 (s.nodes.length + 1) _ c).mp hc
  have hcomplete : ∀ o, s.isNode o → o ∈ c := by
    intro o ho
    obtain ⟨h1, h2, h3⟩ := ho
    exact hcomp o (by omega) h2
  obtain ⟨hd, hhd1, hhdH, -⟩ := hparts.2.2.1
  have hndhead : s.getNode s.headOffset = some hd := by rw [hparts.1]; exact hhd1
  have hmh : maxHeight = 20 := rfl
  have hh1 := hparts.2.2.2.1
  have hh2 := hparts.2.2.2.2.1
  obtain ⟨r, hr, hspec⟩ := findNearAux_correct hInv key less allowEqual c hchain.1
    hcomplete s.findNearFuel (s.getHeight - 1) s.headOffset c []
    (List.nil_append c).symm hchain.1 (Or.inl rfl)
    (fun o ho => absurd ho (List.not_mem_nil o)) (fun _ => rfl)
    ⟨hd, hndhead, by rw [hhdH]; unfold Skiplist.getHeight; omega⟩
    (by
      have hlen := hchain.2
      unfold Skiplist.findNearFuel Skiplist.getHeight
      omega)
  unfold Skiplist.findNear
  rw [hr]
  exact hspec

/-- Witness for `findNear_correct` at a concrete state and key. -/
theorem findNear_correct_witness :
    NewSkiplist.findNearSpec [5, 6] false true (NewSkiplist.findNear [5, 6] false true) :=
  findNear_correct NewSkiplist (by decide) [5, 6] false true

/-! ### findSpliceForLevel correctness -/
/-- Generalization of `suffix_cons_of_next` to an arbitrary level. -/
theorem chainFrom_cons_of_next {s : Skiplist} {L x : Nat} {suffix : List Nat}
    {nextNode : Node}
    (hs : s.chainFrom L (s.getNextOffset x L) suffix)
    (hnext : s.getNode (s.getNextOffset x L) = some nextNode) :
    ∃ suf', suffix = s.getNextOffset x L :: suf' ∧
      s.chainFrom L (nextNode.tower.getD L 0) suf' := by
  cases suffix with
  | nil =>
    rw [chainFrom_nil_iff] at hs
    rw [hs, getNode_zero] at hnext
    cases hnext
  | cons a rest =>
    rw [chainFrom_cons_iff] at hs
    obtain ⟨ha, nd2, hnd2, hh2, hrest⟩ := hs
    subst ha
    rw [hnd2] at hnext
    cases hnext
    exact ⟨rest, rfl, hrest⟩

/-- A chain not hanging off the head fits within the node store. -/
theorem chainFrom_length_le {s : Skiplist} (hlF : s.linkFacts) (hho0 : s.headOffset ≠ 0)
    {L : Nat} {c : List Nat} {o : Nat}
    (hchain : s.chainFrom L o c) (ho : o ≠ s.headOffset) :
    c.length ≤ s.nodes.length := by
  have hf := chainFrom_facts hlF hho0 L c o hchain ho
  have hpw := keyChain_pairwise hf.2
  have hnodup : c.Nodup := by
    refine hpw.imp ?_
    intro a b hab heq
    rw [heq, CompareKeys_self] at hab
    omega
  have hsub : c ⊆ List.range' 1 s.nodes.length := by
    intro a ha
    obtain ⟨h1, h2, -⟩ := hf.1 a ha
    rw [List.mem_range'_1]
    omega
  have := (List.subperm_of_subset hnodup hsub).length_le
  simpa using this

/-- Correctness of the `findSpliceForLevel` walk: either it signals an
exact match (`prev = next` at a node keyed exactly `key`), or it returns
an adjacent pair `(prev, next)` at the level with `prev` keyed below `key`
(or the head) and `next` nil or keyed above `key`. -/
theorem findSpliceAux_correct {s : Skiplist} (hlF : s.linkFacts) (hho0 : s.headOffset ≠ 0)
    (key : List Nat) (L : Nat) :
    ∀ fuel before suffix nd,
      s.getNode before = some nd → L < nd.height →
      s.chainFrom L (s.getNextOffset before L) suffix →
      suffix.length < fuel →
      (before = s.headOffset ∨
        (s.isNode before ∧ CompareKeys (s.keyAt before) key < 0)) →
      ∃ p n, s.findSpliceAux key L fuel before = some (p, n) ∧
        ((p = n ∧ p ∈ suffix ∧ s.isNode p ∧ ∃ m, s.getNode p = some m ∧ L < m.height ∧
            s.nodeKey m = key) ∨
         (p ≠ n ∧ ∃ pm, s.getNode p = some pm ∧ L < pm.height ∧
           (p = s.headOffset ∨ (s.isNode p ∧ CompareKeys (s.keyAt p) key < 0)) ∧
           n = pm.tower.getD L 0 ∧
           (n = 0 ∨ (s.isNode n ∧ ∃ nm, s.getNode n = some nm ∧ L < nm.height ∧
             0 < CompareKeys (s.keyAt n) key)))) := by
  intro fuel
  induction fuel with
  | zero =>
    intro before suffix nd _ _ _ hbound _
    omega
  | succ fuel ih =>
    intro before suffix nd hnd hL hsuffix hbound hpos
    unfold Skiplist.findSpliceAux
    rcases hnext : s.getNode (s.getNextOffset before L) with _ | nextNode
    · simp only [hnext]
      have hn0 : s.getNextOffset before L = 0 := by
        have h := hlF before nd hnd L hL
        rw [getNextOffset_eq hnd] at hnext ⊢
        rcases h with h0 | ⟨-, m, hm, -, -⟩
        · exact h0
        · rw [hm] at hnext
          cases hnext
      have hb1 : 1 ≤ before := (getNode_valid hnd).1
      exact ⟨before, s.getNextOffset before L, rfl,
        Or.inr ⟨by omega, nd, hnd, hL, hpos, getNextOffset_eq hnd L, Or.inl hn0⟩⟩
    · simp only [hnext]
      obtain ⟨hnIsNode, hnH, hnKeyCmp⟩ := next_facts hlF hnd hL hnext
      have hkeyN := keyAt_eq hnext
      obtain ⟨suf', hsufeq, hsuf'⟩ := chainFrom_cons_of_next hsuffix hnext
      by_cases hcmp0 : CompareKeys key (s.nodeKey nextNode) = 0
      · rw [if_pos hcmp0]
        exact ⟨_, _, rfl, Or.inl ⟨rfl,
          by rw [hsufeq]; exact List.mem_cons_self _ _, hnIsNode, nextNode, hnext, hnH,
          ((CompareKeys_eq_zero_iff key _).mp hcmp0).symm⟩⟩
      · rw [if_neg hcmp0]
        by_cases hcmplt : CompareKeys key (s.nodeKey nextNode) < 0
        · rw [if_pos hcmplt]
          have hgt : 0 < CompareKeys (s.keyAt (s.getNextOffset before L)) key := by
            rw [hkeyN]
            exact (CompareKeys_pos_iff _ _).mpr hcmplt
          have hne : before ≠ s.getNextOffset before L := by
            intro heq
            rcases hnKeyCmp with hh | hh
            · exact hnIsNode.2.2 (by rw [← heq, hh])
            · rw [← heq, CompareKeys_self] at hh
              omega
          exact ⟨before, _, rfl, Or.inr ⟨hne, nd, hnd, hL, hpos, getNextOffset_eq hnd L,
            Or.inr ⟨hnIsNode, nextNode, hnext, hnH, hgt⟩⟩⟩
        · rw [if_neg hcmplt]
          have hlt : CompareKeys (s.keyAt (s.getNextOffset before L)) key < 0 := by
            rw [hkeyN]
            have hpc : 0 < CompareKeys key (s.nodeKey nextNode) := by omega
            exact (CompareKeys_pos_iff _ _).mp hpc
          have hchain' : s.chainFrom L
              (s.getNextOffset (s.getNextOffset before L) L) suf' := by
            rw [getNextOffset_eq hnext]
            exact hsuf'
          obtain ⟨p, n, hrun2, hspec2⟩ := ih (s.getNextOffset before L) suf' nextNode
            hnext hnH hchain'
            (by rw [hsufeq] at hbound; simp only [List.length_cons] at hbound; omega)
            (Or.inr ⟨hnIsNode, hlt⟩)
          refine ⟨p, n, hrun2, ?_⟩
          rcases hspec2 with ⟨h1, hmem, h3⟩ | h2
          · exact Or.inl ⟨h1, by rw [hsufeq]; exact List.mem_cons_of_mem _ hmem, h3⟩
          · exact Or.inr h2

/-- `findSpliceForLevel` on a state satisfying the invariant: the fuel of
the model is sufficient and the walk's specification holds. -/
theorem findSpliceForLevel_correct {s : Skiplist} (hInv : s.inv = true)
    (key : List Nat) (L : Nat) (before : Nat) {nd : Node}
    (hnd : s.getNode before = some nd) (hL : L < nd.height) (hLm : L < maxHeight)
    (hpos : before = s.headOffset ∨
      (s.isNode before ∧ CompareKeys (s.keyAt before) key < 0)) :
    ∃ p n, s.findSpliceForLevel key before L = (p, n) ∧
      ((p = n ∧ s.isNode p ∧ ∃ m, s.getNode p = some m ∧ L < m.height ∧
          s.nodeKey m = key) ∨
       (p ≠ n ∧ ∃ pm, s.getNode p = some pm ∧ L < pm.height ∧
         (p = s.headOffset ∨ (s.isNode p ∧ CompareKeys (s.keyAt p) key < 0)) ∧
         n = pm.tower.getD L 0 ∧
         (n = 0 ∨ (s.isNode n ∧ ∃ nm, s.getNode n = some nm ∧ L < nm.height ∧
           0 < CompareKeys (s.keyAt n) key)))) := by
  have hlF := inv_linkFacts hInv
  have hparts := inv_parts hInv
  have hho0 : s.headOffset ≠ 0 := by
    rw [hparts.1]
    omega
  obtain ⟨cL, hcL, hcomp⟩ := (inv_height_parts hInv).2 L hLm
  unfold Skiplist.chain at hcL
  have hchainL := (chainAux_eq_some s L (s.nodes.length + 1) _ cL).mp hcL
  have hstartL : s.getNextOffset s.headOffset L ≠ s.headOffset := by
    obtain ⟨hd, hhd, hhH, -⟩ := hparts.2.2.1
    exact getNextOffset_ne_head hlF hho0 (by rw [hparts.1]; exact hhd)
      (by rw [hhH]; omega)
  have hlenL : cL.length ≤ s.nodes.length :=
    chainFrom_length_le hlF hho0 hchainL.1 hstartL
  obtain ⟨suffix, hsuffix, hsuflen⟩ :
      ∃ suffix, s.chainFrom L (s.getNextOffset before L) suffix ∧
        suffix.length ≤ s.nodes.length := by
    by_cases hbh : before = s.headOffset
    · subst hbh
      exact ⟨cL, hchainL.1, hlenL⟩
    · have hv := getNode_valid hnd
      have hmem : before ∈ cL := hcomp before nd hnd hbh hL
      obtain ⟨p, suf, nd₂, hdec, hnd₂, -, hsuf⟩ := chainFrom_decompose hchainL.1 hmem
      rw [hnd] at hnd₂
      cases hnd₂
      refine ⟨suf, by rw [getNextOffset_eq hnd]; exact hsuf, ?_⟩
      have : cL.length = p.length + suf.length + 1 := by
        rw [hdec]
        simp
        omega
      omega
  obtain ⟨p, n, hrun, hspec⟩ := findSpliceAux_correct hlF hho0 key L
    (s.nodes.length + 1) before suffix nd hnd hL hsuffix (by omega) hpos
  refine ⟨p, n, ?_, ?_⟩
  · unfold Skiplist.findSpliceForLevel
    rw [hrun]
    rfl
  · rcases hspec with ⟨h1, -, h3⟩ | h2
    · exact Or.inl ⟨h1, h3⟩
    · exact Or.inr h2

/-- `findSpliceForLevel` from the head in a state with a bounded level-`L`
chain (used mid-publish, where the full invariant does not yet hold);
the equality position, if any, lies on that chain. -/
theorem findSpliceFromHead_correct {s : Skiplist} (hlF : s.linkFacts)
    (hho0 : s.headOffset ≠ 0) (key : List Nat) (L : Nat) {hd : Node}
    (hhd : s.getNode s.headOffset = some hd) (hL : L < hd.height)
    {cL : List Nat}
    (hcL : s.chainFrom L (s.getNextOffset s.headOffset L) cL)
    (hclen : cL.length ≤ s.nodes.length) :
    ∃ p n, s.findSpliceForLevel key s.headOffset L = (p, n) ∧
      ((p = n ∧ p ∈ cL ∧ s.isNode p ∧ ∃ m, s.getNode p = some m ∧ L < m.height ∧
          s.nodeKey m = key) ∨
       (p ≠ n ∧ ∃ pm, s.getNode p = some pm ∧ L < pm.height ∧
         (p = s.headOffset ∨ (s.isNode p ∧ CompareKeys (s.keyAt p) key < 0)) ∧
         n = pm.tower.getD L 0 ∧
         (n = 0 ∨ (s.isNode n ∧ ∃ nm, s.getNode n = some nm ∧ L < nm.height ∧
           0 < CompareKeys (s.keyAt n) key)))) := by
  obtain ⟨p, n, hrun, hspec⟩ := findSpliceAux_correct hlF hho0 key L
    (s.nodes.length + 1) s.headOffset cL hd hhd hL hcL (by omega) (Or.inl rfl)
  refine ⟨p, n, ?_, hspec⟩
  unfold Skiplist.findSpliceForLevel
  rw [hrun]
  rfl

/-! ### State-update lemmas for the `Add` analysis -/
theorem getNode_setNodeTower (s : Skiplist) (o l t o' : Nat) :
    (s.setNodeTower o l t).getNode o' =
      if o' = o then
        (s.getNode o).map (fun nd => { nd with tower := nd.tower.set l t })
      else s.getNode o' := by
  unfold Skiplist.setNodeTower
  rcases h : s.getNode o with _ | nd
  · simp only [h]
    by_cases he : o' = o
    · subst he
      rw [if_pos rfl, h]
      rfl
    · rw [if_neg he]
  · simp only [h, Option.map_some']
    have hv := getNode_valid h
    unfold Skiplist.getNode at h ⊢
    rw [if_neg (by omega : ¬ o = 0)] at h
    by_cases he : o' = o
    · subst he
      rw [if_pos rfl, if_neg (by omega : ¬ o' = 0)]
      exact List.getElem?_set_eq_of_lt _ (by omega)
    · rw [if_neg he]
      by_cases h0' : o' = 0
      · rw [if_pos h0', if_pos h0']
      · rw [if_neg h0', if_neg h0']
        exact List.getElem?_set_ne (by omega)

theorem setNodeTower_fields (s : Skiplist) (o l t : Nat) :
    (s.setNodeTower o l t).height = s.height ∧
    (s.setNodeTower o l t).headOffset = s.headOffset ∧
    (s.setNodeTower o l t).arena = s.arena ∧
    (s.setNodeTower o l t).nodes.length = s.nodes.length := by
  unfold Skiplist.setNodeTower
  rcases s.getNode o with _ | nd
  · exact ⟨rfl, rfl, rfl, rfl⟩
  · exact ⟨rfl, rfl, rfl, by simp⟩

theorem getNode_append_old {s : Skiplist} {o : Nat} {nd : Node}
    (h : s.getNode o = some nd) (nds : List Node) (a : Arena) :
    ({ s with arena := a, nodes := s.nodes ++ nds } : Skiplist).getNode o = some nd := by
  unfold Skiplist.getNode at h ⊢
  by_cases h0 : o = 0
  · rw [if_pos h0] at h
    cases h
  · rw [if_neg h0] at h ⊢
    obtain ⟨hlt, hget⟩ := List.getElem?_eq_some.mp h
    have hlt2 : o - 1 < (s.nodes ++ nds).length := by
      simp only [List.length_append]
      omega
    rw [List.getElem?_eq_getElem hlt2]
    rw [List.getElem_append_left hlt]
    rw [hget]

theorem getNode_append_new (s : Skiplist) (x : Node) (a : Arena) :
    ({ s with arena := a, nodes := s.nodes ++ [x] } : Skiplist).getNode
      (s.nodes.length + 1) = some x := by
  unfold Skiplist.getNode
  rw [if_neg (by omega)]
  have : s.nodes.length + 1 - 1 = s.nodes.length := by omega
  rw [this]
  simp

/-- Reads within the old region are unchanged by appending to the arena. -/
theorem getKey_append (buf ext : List Nat) (off size : Nat)
    (h : off + size ≤ buf.length) :
    ((buf ++ ext).drop off).take size = (buf.drop off).take size := by
  rw [List.drop_append_of_le_length (by omega)]
  rw [List.take_append_of_le_length (by rw [List.length_drop]; omega)]

/-! ### Generic transfer helpers for the `Add` analysis -/
theorem getD_set_self {l : List Nat} {i : Nat} (a : Nat) (h : i < l.length) :
    (l.set i a).getD i 0 = a := by
  simp [List.getD_eq_getElem?_getD, List.getElem?_set_eq_of_lt a h]

theorem getD_set_ne {l : List Nat} {i j : Nat} (a : Nat) (h : i ≠ j) :
    (l.set i a).getD j 0 = l.getD j 0 := by
  simp [List.getD_eq_getElem?_getD, List.getElem?_set_ne h]

theorem getD_replicate (n L : Nat) : (List.replicate n (0 : Nat)).getD L 0 = 0 := by
  simp [List.getD_eq_getElem?_getD]

theorem getNode_of_mem {s : Skiplist} {nd : Node} (h : nd ∈ s.nodes) :
    ∃ o, s.getNode o = some nd ∧ 1 ≤ o ∧ o ≤ s.nodes.length := by
  obtain ⟨i, hi, hget⟩ := List.getElem_of_mem h
  refine ⟨i + 1, ?_, by omega, by omega⟩
  unfold Skiplist.getNode
  rw [if_neg (by omega)]
  have he : i + 1 - 1 = i := rfl
  rw [he, List.getElem?_eq_getElem hi, hget]

theorem linkFacts_of_parts {s : Skiplist}
    (hok : ∀ nd ∈ s.nodes, s.nodeOkB nd = true)
    (hlk : ∀ o, o ≤ s.nodes.length → s.linkOkB o = true) : s.linkFacts := by
  intro o nd hnd L hL
  have hv := getNode_valid hnd
  have hspec := nodeOk_spec (hok nd hv.2.2)
  exact linkOkB_spec (hlk o hv.2.1) hnd hspec.2.1 L hL

theorem linkOkB_none {s : Skiplist} {o : Nat} (h : s.getNode o = none) :
    s.linkOkB o = true := by
  unfold Skiplist.linkOkB
  rw [h]

theorem linkOkB_intro {s : Skiplist} {o : Nat} {nd : Node}
    (hnd : s.getNode o = some nd)
    (h : ∀ L, L < nd.height → L < maxHeight →
      nd.tower.getD L 0 = 0 ∨
      (nd.tower.getD L 0 ≠ s.headOffset ∧
        ∃ m, s.getNode (nd.tower.getD L 0) = some m ∧ L < m.height ∧
          (o = s.headOffset ∨ CompareKeys (s.nodeKey nd) (s.nodeKey m) < 0))) :
    s.linkOkB o = true := by
  unfold Skiplist.linkOkB
  rw [hnd]
  simp only [List.all_eq_true, List.mem_range]
  intro L hLm
  by_cases hL : L < nd.height
  · rw [if_pos hL]
    rcases h L hL hLm with h0 | ⟨hne, m, hm, hmh, hcase⟩
    · rw [h0]
      rfl
    · simp only [hm, Bool.or_eq_true, Bool.and_eq_true, decide_eq_true_eq]
      exact Or.inr ⟨hne, hmh, hcase⟩
  · rw [if_neg hL]

theorem nodeOkB_intro {s : Skiplist} {nd : Node}
    (h1 : 1 ≤ nd.height) (h2 : nd.height ≤ maxHeight)
    (h3 : nd.tower.length = maxHeight)
    (h4 : nd.keyOffset + nd.keySize ≤ s.arena.buf.length)
    (h5 : ∀ L, L < maxHeight → nd.height ≤ L → nd.tower.getD L 0 = 0) :
    s.nodeOkB nd = true := by
  unfold Skiplist.nodeOkB
  simp only [Bool.and_eq_true, decide_eq_true_eq, List.all_eq_true, List.mem_range]
  exact ⟨⟨⟨⟨h1, h2⟩, h3⟩, h4⟩, fun L hL hh => h5 L hL hh⟩

/-- A chain transfers to any state whose node store agrees on its members. -/
theorem chainFrom_stable {s s' : Skiplist} {L : Nat} :
    ∀ {c : List Nat} {o : Nat}, (∀ a ∈ c, s'.getNode a = s.getNode a) →
      s.chainFrom L o c → s'.chainFrom L o c := by
  intro c
  induction c with
  | nil => intro o _ h; exact h
  | cons a rest ih =>
    intro o hsame h
    rw [chainFrom_cons_iff] at h ⊢
    obtain ⟨ha, nd, hnd, hh, hrest⟩ := h
    exact ⟨ha, nd, by rw [hsame a (List.mem_cons_self a rest)]; exact hnd, hh,
      ih (fun b hb => hsame b (List.mem_cons_of_mem a hb)) hrest⟩

/-- A chain transfers to any state whose records keep height and tower. -/
theorem chainFrom_transfer {s s' : Skiplist} {L : Nat}
    (hvar : ∀ o nd, s.getNode o = some nd → ∃ nd', s'.getNode o = some nd' ∧
      nd'.height = nd.height ∧ nd'.tower = nd.tower) :
    ∀ {c : List Nat} {o : Nat}, s.chainFrom L o c → s'.chainFrom L o c := by
  intro c
  induction c with
  | nil => intro o h; exact h
  | cons a rest ih =>
    intro o h
    rw [chainFrom_cons_iff] at h ⊢
    obtain ⟨ha, nd, hnd, hh, hrest⟩ := h
    obtain ⟨nd', hnd', hh', ht'⟩ := hvar a nd hnd
    exact ⟨ha, nd', hnd', by omega, by rw [ht']; exact ih hrest⟩

theorem pairwise_mem_total {R : Nat → Nat → Prop} :
    ∀ {c : List Nat}, c.Pairwise R → ∀ {a b}, a ∈ c → b ∈ c → a ≠ b → R a b ∨ R b a := by
  intro c
  induction c with
  | nil => intro _ a b ha; cases ha
  | cons x rest ih =>
    intro hpw a b ha hb hne
    rw [List.pairwise_cons] at hpw
    rcases List.mem_cons.mp ha with rfl | ha2
    · rcases List.mem_cons.mp hb with rfl | hb2
      · exact absurd rfl hne
      · exact Or.inl (hpw.1 b hb2)
    · rcases List.mem_cons.mp hb with rfl | hb2
      · exact Or.inr (hpw.1 a ha2)
      · exact ih hpw.2 ha2 hb2 hne

theorem getNode_setNodeValue (s : Skiplist) (o w o' : Nat) :
    (s.setNodeValue o w).getNode o' =
      if o' = o then (s.getNode o).map (fun nd => { nd with value := w })
      else s.getNode o' := by
  unfold Skiplist.setNodeValue
  rcases h : s.getNode o with _ | nd
  · simp only [h]
    by_cases he : o' = o
    · subst he
      rw [if_pos rfl, h]
      rfl
    · rw [if_neg he]
  · simp only [h, Option.map_some']
    have hv := getNode_valid h
    unfold Skiplist.getNode at h ⊢
    rw [if_neg (by omega : ¬ o = 0)] at h
    by_cases he : o' = o
    · subst he
      rw [if_pos rfl, if_neg (by omega : ¬ o' = 0)]
      exact List.getElem?_set_eq_of_lt _ (by omega)
    · rw [if_neg he]
      by_cases h0' : o' = 0
      · rw [if_pos h0', if_pos h0']
      · rw [if_neg h0', if_neg h0']
        exact List.getElem?_set_ne (by omega)

theorem setNodeValue_fields (s : Skiplist) (o w : Nat) :
    (s.setNodeValue o w).height = s.height ∧
    (s.setNodeValue o w).headOffset = s.headOffset ∧
    (s.setNodeValue o w).arena = s.arena ∧
    (s.setNodeValue o w).nodes.length = s.nodes.length := by
  unfold Skiplist.setNodeValue
  rcases s.getNode o with _ | nd
  · exact ⟨rfl, rfl, rfl, rfl⟩
  · exact ⟨rfl, rfl, rfl, by simp⟩

/-- Converse of `inv_parts`/`inv_height_parts`: rebuild the executable
invariant from its components. -/
theorem inv_intro {s : Skiplist}
    (h1 : s.headOffset = 1) (h2 : 1 ≤ s.nodes.length)
    (h3 : ∃ hd, s.getNode 1 = some hd ∧ hd.height = maxHeight ∧ hd.keySize = 0)
    (h4 : 1 ≤ s.height) (h5 : s.height ≤ maxHeight)
    (h6 : ∀ nd ∈ s.nodes, s.nodeOkB nd = true)
    (h7 : ∀ o, o ≤ s.nodes.length → s.linkOkB o = true)
    (h8 : ∃ c, s.chain 0 = some c ∧ ∀ o, 2 ≤ o → o ≤ s.nodes.length → o ∈ c)
    (h9 : ∀ nd ∈ s.nodes, ∀ L, s.height ≤ L → nd.tower.getD L 0 = 0)
    (h10 : ∀ L, L < maxHeight → ∃ cL, s.chain L = some cL ∧
      ∀ o nd, s.getNode o = some nd → 2 ≤ o → L < nd.height → o ∈ cL) :
    s.inv = true := by
  obtain ⟨hd, hhd, hhdh, hhdk⟩ := h3
  obtain ⟨c, hc, hcall⟩ := h8
  unfold Skiplist.inv
  simp only [hhd, hc, Bool.and_eq_true, decide_eq_true_eq, List.all_eq_true,
    List.mem_range, Bool.or_eq_true]
  refine ⟨⟨⟨⟨⟨⟨⟨⟨⟨h1, h2⟩, hhdh, hhdk⟩, h4⟩, h5⟩, h6⟩, ?_⟩, ?_⟩, ?_⟩, ?_⟩
  · intro o ho
    exact h7 o (by omega)
  · intro o ho
    by_cases h2o : o ≤ 1
    · exact Or.inl h2o
    · exact Or.inr (hcall o (by omega) (by omega))
  · intro nd hnd L hLm
    exact fun hh => h9 nd hnd L hh
  · intro L hL
    obtain ⟨cL, hcL, hcomp⟩ := h10 L hL
    simp only [hcL, List.all_eq_true, List.mem_range, Bool.or_eq_true, decide_eq_true_eq]
    intro o ho
    by_cases h2o : o ≤ 1
    · exact Or.inl h2o
    · refine Or.inr ?_
      rcases hG : s.getNode o with _ | nd
      · simp only
      · simp only [Bool.or_eq_true, decide_eq_true_eq]
        by_cases hh : nd.height ≤ L
        · exact Or.inl hh
        · exact Or.inr (hcomp o nd hG (by omega) (by omega))

/-- Invariance of `inv` under state changes that keep every structural
field of every node (all but the packed value word) and every key read,
and only extend the arena. -/
theorem inv_transfer {s s' : Skiplist}
    (hho : s'.headOffset = s.headOffset)
    (hht : s'.height = s.height)
    (hlen : s'.nodes.length = s.nodes.length)
    (hbuf : s.arena.buf.length ≤ s'.arena.buf.length)
    (hgk : ∀ off sz, off + sz ≤ s.arena.buf.length →
      s'.arena.getKey off sz = s.arena.getKey off sz)
    (hnone : ∀ o, s.getNode o = none → s'.getNode o = none)
    (hvar : ∀ o nd, s.getNode o = some nd → ∃ nd', s'.getNode o = some nd' ∧
      nd'.keyOffset = nd.keyOffset ∧ nd'.keySize = nd.keySize ∧
      nd'.height = nd.height ∧ nd'.tower = nd.tower)
    (hinv : s.inv = true) : s'.inv = true := by
  obtain ⟨p1, p2, ⟨hd, hhd, hhdh, hhdk⟩, p4, p5, p6, p7, ⟨c0, hc0, hc0all⟩⟩ := inv_parts hinv
  have hhp := inv_height_parts hinv
  have hrev : ∀ o nd', s'.getNode o = some nd' → ∃ nd, s.getNode o = some nd ∧
      nd'.keyOffset = nd.keyOffset ∧ nd'.keySize = nd.keySize ∧
      nd'.height = nd.height ∧ nd'.tower = nd.tower := by
    intro o nd' h'
    rcases hG : s.getNode o with _ | nd
    · rw [hnone o hG] at h'
      cases h'
    · obtain ⟨nd'', hnd'', hfacts⟩ := hvar o nd hG
      have he : nd' = nd'' := Option.some.inj (h'.symm.trans hnd'')
      subst he
      exact ⟨nd, rfl, hfacts⟩
  have hkey : ∀ {nd nd' : Node}, nd'.keyOffset = nd.keyOffset → nd'.keySize = nd.keySize →
      nd ∈ s.nodes → s'.nodeKey nd' = s.nodeKey nd := by
    intro nd nd' hko hks hm
    have hok := nodeOk_spec (p6 nd hm)
    unfold Skiplist.nodeKey
    rw [hko, hks]
    exact hgk nd.keyOffset nd.keySize hok.2.2.2.1
  have hvar2 : ∀ o nd, s.getNode o = some nd → ∃ nd', s'.getNode o = some nd' ∧
      nd'.height = nd.height ∧ nd'.tower = nd.tower := by
    intro o nd h
    obtain ⟨nd', h', -, -, hh, ht⟩ := hvar o nd h
    exact ⟨nd', h', hh, ht⟩
  have hnext_eq : ∀ o L, s'.getNextOffset o L = s.getNextOffset o L := by
    intro o L
    unfold Skiplist.getNextOffset
    rcases hG : s.getNode o with _ | nd
    · have h0 := hnone o hG
      simp only [h0, hG]
    · obtain ⟨nd', h', -, -, -, ht⟩ := hvar o nd hG
      simp only [h', hG]
      rw [ht]
  have hchain : ∀ L cL, s.chain L = some cL → s'.chain L = some cL := by
    intro L cL h
    unfold Skiplist.chain at h ⊢
    have hiff := (chainAux_eq_some s L (s.nodes.length + 1) _ cL).mp h
    rw [hho, hnext_eq, hlen]
    exact (chainAux_eq_some s' L (s.nodes.length + 1) _ cL).mpr
      ⟨chainFrom_transfer hvar2 hiff.1, hiff.2⟩
  refine inv_intro (by rw [hho, p1]) (by omega) ?_ (by omega) (by omega) ?_ ?_ ?_ ?_ ?_
  · obtain ⟨hd', hhd', -, hks, hh, -⟩ := hvar 1 hd hhd
    exact ⟨hd', hhd', by omega, by omega⟩
  · intro nd' hnd'
    obtain ⟨o, ho', -, holen⟩ := getNode_of_mem hnd'
    obtain ⟨nd, hnd, hko, hks, hh, ht⟩ := hrev o nd' ho'
    have hm := (getNode_valid hnd).2.2
    have hok := nodeOk_spec (p6 nd hm)
    exact nodeOkB_intro (by omega) (by omega) (by rw [ht]; exact hok.2.2.1)
      (by rw [hko, hks]; omega) (fun L hLm hh2 => by
        rw [ht]
        exact hok.2.2.2.2 L (by omega))
  · intro o holen
    rcases hG' : s'.getNode o with _ | nd'
    · exact linkOkB_none hG'
    · obtain ⟨nd, hnd, hko, hks, hh, ht⟩ := hrev o nd' hG'
      have hm := (getNode_valid hnd).2.2
      have hlk := linkOkB_spec (p7 o (by omega : o ≤ s.nodes.length)) hnd
        (nodeOk_spec (p6 nd hm)).2.1
      refine linkOkB_intro hG' ?_
      intro L hL hLm
      rcases hlk L (by omega) with h0 | ⟨hne, m, hm2, hmh, hcase⟩
      · rw [ht]
        exact Or.inl h0
      · obtain ⟨m', hm', hmko, hmks, hmh', -⟩ := hvar _ m hm2
        refine Or.inr ⟨by rw [ht, hho]; exact hne, m', by rw [ht]; exact hm', by omega, ?_⟩
        rcases hcase with hc | hc
        · exact Or.inl (by rw [hho]; exact hc)
        · refine Or.inr ?_
          rw [hkey hko hks hm, hkey hmko hmks (getNode_valid hm2).2.2]
          exact hc
  · exact ⟨c0, hchain 0 c0 hc0, fun o h2 hlen2 => hc0all o h2 (by omega)⟩
  · intro nd' hnd' L hh
    obtain ⟨o, ho', -, -⟩ := getNode_of_mem hnd'
    obtain ⟨nd, hnd, -, -, -, ht⟩ := hrev o nd' ho'
    rw [ht]
    exact hhp.1 nd (getNode_valid hnd).2.2 L (by omega)
  · intro L hL
    obtain ⟨cL, hcL, hcomp⟩ := hhp.2 L hL
    refine ⟨cL, hchain L cL hcL, ?_⟩
    intro o nd' ho' h2 hh
    obtain ⟨nd, hnd, -, -, hhh, -⟩ := hrev o nd' ho'
    exact hcomp o nd hnd (by omega) (by omega)

/-- `overwriteValue` changes only the value word at `p` and the arena
tail. -/
theorem overwriteValue_facts (s : Skiplist) (p : Nat) (v : ValueStruct) :
    (s.overwriteValue p v).headOffset = s.headOffset ∧
    (s.overwriteValue p v).height = s.height ∧
    (s.overwriteValue p v).nodes.length = s.nodes.length ∧
    (s.overwriteValue p v).arena.buf = s.arena.buf ++ v.encodeBytes ∧
    ∀ o, (s.overwriteValue p v).getNode o =
      if o = p then
        (s.getNode p).map (fun nd =>
          { nd with value := encodeValue s.arena.buf.length v.EncodedSize })
      else s.getNode o := by
  have he : s.overwriteValue p v =
      ({ s with arena := ⟨s.arena.buf ++ v.encodeBytes⟩ } : Skiplist).setNodeValue p
        (encodeValue s.arena.buf.length v.EncodedSize) := rfl
  rw [he]
  have hf := setNodeValue_fields ({ s with arena := ⟨s.arena.buf ++ v.encodeBytes⟩ })
    p (encodeValue s.arena.buf.length v.EncodedSize)
  refine ⟨hf.2.1, hf.1, ?_, by rw [hf.2.2.1], ?_⟩
  · rw [hf.2.2.2]
  · intro o
    exact getNode_setNodeValue _ p _ o

/-- Overwriting a value word preserves the invariant. -/
theorem overwriteValue_inv {s : Skiplist} (hinv : s.inv = true) (p : Nat)
    (v : ValueStruct) : (s.overwriteValue p v).inv = true := by
  obtain ⟨hho, hht, hlen, hbuf, hget⟩ := overwriteValue_facts s p v
  refine inv_transfer hho hht hlen ?_ ?_ ?_ ?_ hinv
  · rw [hbuf]
    simp
  · intro off sz hsz
    unfold Arena.getKey
    rw [hbuf]
    exact getKey_append _ _ _ _ hsz
  · intro o h0
    rw [hget o]
    by_cases heq : o = p
    · subst heq
      rw [if_pos rfl, h0]
      rfl
    · rw [if_neg heq]
      exact h0
  · intro o nd h
    rw [hget o]
    by_cases heq : o = p
    · subst heq
      rw [if_pos rfl, h]
      exact ⟨_, rfl, rfl, rfl, rfl, rfl⟩
    · rw [if_neg heq]
      exact ⟨nd, h, rfl, rfl, rfl, rfl⟩

theorem chainFrom_zero {s : Skiplist} {L : Nat} {c : List Nat}
    (h : s.chainFrom L 0 c) : c = [] := by
  cases c with
  | nil => rfl
  | cons a rest =>
    rw [chainFrom_cons_iff] at h
    obtain ⟨ha, nd, hnd, -, -⟩ := h
    rw [← ha, getNode_zero] at hnd
    cases hnd

/-- If a level-0 splice position straddles `key` (prev strictly below or
head, next strictly above or nil), no reachable node carries `key`. -/
theorem splice_fresh {s : Skiplist} (hInv : s.inv = true) {key : List Nat} {p : Nat}
    {pm : Node}
    (hp : s.getNode p = some pm)
    (hpos : p = s.headOffset ∨ (p ≠ s.headOffset ∧ CompareKeys (s.keyAt p) key < 0))
    (hup : pm.tower.getD 0 0 = 0 ∨
      0 < CompareKeys (s.keyAt (pm.tower.getD 0 0)) key) :
    ∀ o m, s.getNode o = some m → o ≠ s.headOffset → s.nodeKey m ≠ key := by
  intro o m hm hohead hkeyeq
  have hparts := inv_parts hInv
  have hlF := inv_linkFacts hInv
  have hho0 : s.headOffset ≠ 0 := by
    rw [hparts.1]
    omega
  obtain ⟨c0, hc0, hcall⟩ := hparts.2.2.2.2.2.2.2
  have hov := getNode_valid hm
  have ho2 : 2 ≤ o := by
    have hx := hohead
    rw [hparts.1] at hx
    omega
  have homem : o ∈ c0 := hcall o ho2 hov.2.1
  unfold Skiplist.chain at hc0
  have hchain := ((chainAux_eq_some s 0 _ _ c0).mp hc0).1
  obtain ⟨hd, hhd, hhdh, -⟩ := hparts.2.2.1
  have hhd' : s.getNode s.headOffset = some hd := by
    rw [hparts.1]
    exact hhd
  have hstart_ne : s.getNextOffset s.headOffset 0 ≠ s.headOffset :=
    getNextOffset_ne_head hlF hho0 hhd' (by rw [hhdh]; unfold maxHeight; omega)
  have hfacts := chainFrom_facts hlF hho0 0 c0 _ hchain hstart_ne
  have hpw := keyChain_pairwise hfacts.2
  have hko : s.keyAt o = key := by
    rw [keyAt_eq hm]
    exact hkeyeq
  rcases hpos with hph | ⟨hpne, hplt⟩
  · subst hph
    have hpm : pm = hd := Option.some.inj (hp.symm.trans hhd')
    subst hpm
    have hstart : s.getNextOffset s.headOffset 0 = pm.tower.getD 0 0 :=
      getNextOffset_eq hp 0
    cases c0 with
    | nil => cases homem
    | cons a rest =>
      rw [chainFrom_cons_iff] at hchain
      obtain ⟨hsa, nd, hnda, -, -⟩ := hchain
      rw [hstart] at hsa
      rcases hup with h0 | hgt
      · rw [h0] at hsa
        rw [← hsa, getNode_zero] at hnda
        cases hnda
      · rw [List.pairwise_cons] at hpw
        have hkeylt : CompareKeys key (s.keyAt a) < 0 := by
          rw [← hsa]
          exact (CompareKeys_pos_iff _ _).mp hgt
        rcases List.mem_cons.mp homem with rfl | hmem2
        · rw [hko] at hkeylt
          rw [CompareKeys_self] at hkeylt
          omega
        · have := CompareKeys_lt_trans hkeylt (hpw.1 o hmem2)
          rw [hko, CompareKeys_self] at this
          omega
  · have hpv := getNode_valid hp
    have hp2 : 2 ≤ p := by
      have hx := hpne
      rw [hparts.1] at hx
      omega
    have hpmem : p ∈ c0 := hcall p hp2 hpv.2.1
    obtain ⟨P, S, nd₂, hdec, hnd₂, -, hS⟩ := chainFrom_decompose hchain hpmem
    have hpm : nd₂ = pm := Option.some.inj (hnd₂.symm.trans hp)
    subst hpm
    rw [hdec] at hpw homem
    obtain ⟨hpwP, hpwPS, hcross⟩ := List.pairwise_append.mp hpw
    rcases List.mem_append.mp homem with hoP | hoPS
    · have hlt := hcross o hoP p (List.mem_cons_self p S)
      have h2 := CompareKeys_lt_trans hlt hplt
      rw [hko, CompareKeys_self] at h2
      omega
    · rcases List.mem_cons.mp hoPS with rfl | hoS
      · rw [hko] at hplt
        rw [CompareKeys_self] at hplt
        omega
      · cases S with
        | nil => cases hoS
        | cons a S' =>
          rw [chainFrom_cons_iff] at hS
          obtain ⟨hsa, nda, hnda, -, -⟩ := hS
          rcases hup with h0 | hgt
          · rw [h0] at hsa
            rw [← hsa, getNode_zero] at hnda
            cases hnda
          · have hkeylt : CompareKeys key (s.keyAt a) < 0 := by
              rw [← hsa]
              exact (CompareKeys_pos_iff _ _).mp hgt
            rw [List.pairwise_cons] at hpwPS
            have hpwS := hpwPS.2
            rw [List.pairwise_cons] at hpwS
            rcases List.mem_cons.mp hoS with rfl | hoS'
            · rw [hko] at hkeylt
              rw [CompareKeys_self] at hkeylt
              omega
            · have := CompareKeys_lt_trans hkeylt (hpwS.1 o hoS')
              rw [hko, CompareKeys_self] at this
              omega

theorem spliceDescend_succ (s : Skiplist) (key : List Nat) (i : Nat)
    (prev next : List Nat) :
    s.spliceDescend key (i + 1) prev next =
      if (s.findSpliceForLevel key (prev.getD (i + 1) 0) i).1 =
          (s.findSpliceForLevel key (prev.getD (i + 1) 0) i).2 then
        .inr (s.findSpliceForLevel key (prev.getD (i + 1) 0) i).1
      else s.spliceDescend key i
        (prev.set i (s.findSpliceForLevel key (prev.getD (i + 1) 0) i).1)
        (next.set i (s.findSpliceForLevel key (prev.getD (i + 1) 0) i).2) := rfl

/-- The descent of `Add`: either some level reports an existing node keyed
exactly `key`, or the per-level splice facts hold below the entry level
while the arrays at and above it are untouched. -/
theorem spliceDescend_spec {s : Skiplist} (hInv : s.inv = true) (key : List Nat) :
    ∀ i prev next,
      i ≤ s.height →
      prev.length = maxHeight + 1 → next.length = maxHeight + 1 →
      (∃ nd, s.getNode (prev.getD i 0) = some nd ∧ i ≤ nd.height ∧
        (prev.getD i 0 = s.headOffset ∨
          (s.isNode (prev.getD i 0) ∧ CompareKeys (s.keyAt (prev.getD i 0)) key < 0))) →
      (match s.spliceDescend key i prev next with
      | .inr p => s.isNode p ∧ ∃ m, s.getNode p = some m ∧ s.nodeKey m = key
      | .inl pn =>
        pn.1.length = maxHeight + 1 ∧ pn.2.length = maxHeight + 1 ∧
        (∀ j, i ≤ j → pn.1.getD j 0 = prev.getD j 0 ∧ pn.2.getD j 0 = next.getD j 0) ∧
        (∀ j, j < i →
          ∃ pm, s.getNode (pn.1.getD j 0) = some pm ∧ j < pm.height ∧
            (pn.1.getD j 0 = s.headOffset ∨
              (s.isNode (pn.1.getD j 0) ∧
                CompareKeys (s.keyAt (pn.1.getD j 0)) key < 0)) ∧
            pm.tower.getD j 0 = pn.2.getD j 0 ∧
            (pn.2.getD j 0 = 0 ∨
              (s.isNode (pn.2.getD j 0) ∧
                ∃ nm, s.getNode (pn.2.getD j 0) = some nm ∧ j < nm.height ∧
                  0 < CompareKeys (s.keyAt (pn.2.getD j 0)) key)))) := by
  have hmx : maxHeight = 20 := rfl
  have hs20 : s.height ≤ 20 := by
    have := (inv_parts hInv).2.2.2.2.1
    omega
  intro i
  induction i with
  | zero =>
    intro prev next _ hpl hnl _
    unfold Skiplist.spliceDescend
    exact ⟨hpl, hnl, fun j _ => ⟨rfl, rfl⟩, fun j hj => absurd hj (by omega)⟩
  | succ i ih =>
    intro prev next hle hpl hnl hanchor
    obtain ⟨nd, hnd, hih, hpos⟩ := hanchor
    have hi20 : i < maxHeight := by omega
    obtain ⟨p, n, hrun, hspec⟩ := findSpliceForLevel_correct hInv key i (prev.getD (i+1) 0)
      hnd (by omega) hi20 hpos
    rw [spliceDescend_succ]
    simp only [hrun]
    by_cases hpn : p = n
    · rw [if_pos hpn]
      rcases hspec with ⟨-, hIsN, m, hmm, -, hkeym⟩ | ⟨hne2, -⟩
      · exact ⟨hIsN, m, hmm, hkeym⟩
      · exact absurd hpn hne2
    · rw [if_neg hpn]
      rcases hspec with ⟨heq, -⟩ | ⟨-, pm, hpm, hpmh, hppos, hnn, hnfacts⟩
      · exact absurd heq hpn
      · have hiplen : i < prev.length := by omega
        have hinlen : i < next.length := by omega
        have hpl' : (prev.set i p).length = maxHeight + 1 := by
          rw [List.length_set]
          exact hpl
        have hnl' : (next.set i n).length = maxHeight + 1 := by
          rw [List.length_set]
          exact hnl
        have hanchor' : ∃ nd', s.getNode ((prev.set i p).getD i 0) = some nd' ∧
            i ≤ nd'.height ∧
            ((prev.set i p).getD i 0 = s.headOffset ∨
              (s.isNode ((prev.set i p).getD i 0) ∧
                CompareKeys (s.keyAt ((prev.set i p).getD i 0)) key < 0)) := by
          refine ⟨pm, ?_, by omega, ?_⟩
          · rw [getD_set_self p hiplen]
            exact hpm
          · rw [getD_set_self p hiplen]
            exact hppos
        have hres := ih (prev.set i p) (next.set i n) (by omega) hpl' hnl' hanchor'
        rcases hd : s.spliceDescend key i (prev.set i p) (next.set i n) with pn' | p'
        · rw [hd] at hres
          obtain ⟨hl1, hl2, hpres, hfacts⟩ := hres
          refine ⟨hl1, hl2, ?_, ?_⟩
          · intro j hj
            have h1 := hpres j (by omega)
            rw [getD_set_ne p (by omega : i ≠ j), getD_set_ne n (by omega : i ≠ j)] at h1
            exact h1
          · intro j hj
            by_cases hji : j < i
            · exact hfacts j hji
            · have hj_eq : j = i := by omega
              subst hj_eq
              have h1 := hpres j (le_refl j)
              rw [getD_set_self p hiplen, getD_set_self n hinlen] at h1
              rw [h1.1, h1.2]
              exact ⟨pm, hpm, hpmh, hppos, hnn.symm, hnfacts⟩
        · rw [hd] at hres
          exact hres

theorem chainSeg_nil_iff (s : Skiplist) (L o f : Nat) :
    s.chainSeg L o [] f ↔ o = f := Iff.rfl

theorem chainSeg_cons_iff (s : Skiplist) (L o a f : Nat) (rest : List Nat) :
    s.chainSeg L o (a :: rest) f ↔
      o = a ∧ ∃ nd, s.getNode a = some nd ∧ L < nd.height ∧
        s.chainSeg L (nd.tower.getD L 0) rest f := Iff.rfl

theorem chainFrom_split {s : Skiplist} {L : Nat} :
    ∀ {P S : List Nat} {o : Nat}, s.chainFrom L o (P ++ S) →
      ∃ f, s.chainSeg L o P f ∧ s.chainFrom L f S := by
  intro P
  induction P with
  | nil =>
    intro S o h
    exact ⟨o, rfl, h⟩
  | cons a rest ih =>
    intro S o h
    rw [List.cons_append, chainFrom_cons_iff] at h
    obtain ⟨ha, nd, hnd, hh, hrest⟩ := h
    obtain ⟨f, hseg, hchain⟩ := ih hrest
    exact ⟨f, ⟨ha, nd, hnd, hh, hseg⟩, hchain⟩

theorem chainFrom_join {s : Skiplist} {L : Nat} :
    ∀ {P S : List Nat} {o f : Nat}, s.chainSeg L o P f → s.chainFrom L f S →
      s.chainFrom L o (P ++ S) := by
  intro P
  induction P with
  | nil =>
    intro S o f hseg hchain
    rw [chainSeg_nil_iff] at hseg
    rw [List.nil_append, hseg]
    exact hchain
  | cons a rest ih =>
    intro S o f hseg hchain
    rw [chainSeg_cons_iff] at hseg
    obtain ⟨ha, nd, hnd, hh, hseg2⟩ := hseg
    rw [List.cons_append, chainFrom_cons_iff]
    exact ⟨ha, nd, hnd, hh, ih hseg2 hchain⟩

theorem chainSeg_stable {s s'' : Skiplist} {L : Nat} :
    ∀ {P : List Nat} {o f : Nat}, (∀ a ∈ P, s''.getNode a = s.getNode a) →
      s.chainSeg L o P f → s''.chainSeg L o P f := by
  intro P
  induction P with
  | nil =>
    intro o f _ h
    exact h
  | cons a rest ih =>
    intro o f hsame h
    rw [chainSeg_cons_iff] at h ⊢
    obtain ⟨ha, nd, hnd, hh, hseg⟩ := h
    exact ⟨ha, nd, by rw [hsame a (List.mem_cons_self a rest)]; exact hnd, hh,
      ih (fun b hb => hsame b (List.mem_cons_of_mem a hb)) hseg⟩

/-- Chain transfer that only needs agreement at the chain's own level. -/
theorem chainFrom_transfer_level {s s' : Skiplist} {L : Nat}
    (hvar : ∀ o nd, s.getNode o = some nd → ∃ nd', s'.getNode o = some nd' ∧
      nd'.height = nd.height ∧ nd'.tower.getD L 0 = nd.tower.getD L 0) :
    ∀ {c : List Nat} {o : Nat}, s.chainFrom L o c → s'.chainFrom L o c := by
  intro c
  induction c with
  | nil =>
    intro o h
    exact h
  | cons a rest ih =>
    intro o h
    rw [chainFrom_cons_iff] at h ⊢
    obtain ⟨ha, nd, hnd, hh, hrest⟩ := h
    obtain ⟨nd', hnd', hh', ht'⟩ := hvar a nd hnd
    exact ⟨ha, nd', hnd', by omega, by rw [ht']; exact ih hrest⟩

theorem nodeOkB_congr {s s' : Skiplist} (ha : s'.arena = s.arena) (nd : Node) :
    s'.nodeOkB nd = s.nodeOkB nd := by
  unfold Skiplist.nodeOkB
  rw [ha]

theorem keyChain_nodup {s : Skiplist} {c : List Nat}
    (h : c.Pairwise (fun a b => CompareKeys (s.keyAt a) (s.keyAt b) < 0)) : c.Nodup := by
  refine h.imp ?_
  intro a b hab heq
  rw [heq, CompareKeys_self] at hab
  omega

theorem keyAt_none {s : Skiplist} {o : Nat} (h : s.getNode o = none) : s.keyAt o = [] := by
  unfold Skiplist.keyAt
  rw [h]

theorem publishLevel_succ (key : List Nat) (v : ValueStruct) (xOff i fuel : Nat)
    (s : Skiplist) (prev next : List Nat) :
    Skiplist.publishLevel key v xOff i (fuel + 1) s prev next =
      match s.resolvePrev key i prev next with
      | .inl e => .err e
      | .inr pn =>
        if (s.setNodeTower xOff i (pn.2.getD i 0)).getNextOffset (pn.1.getD i 0) i =
            pn.2.getD i 0 then
          .cont ((s.setNodeTower xOff i (pn.2.getD i 0)).setNodeTower (pn.1.getD i 0) i xOff)
            pn.1 pn.2
        else if ((s.setNodeTower xOff i (pn.2.getD i 0)).findSpliceForLevel key
            (pn.1.getD i 0) i).1 =
            ((s.setNodeTower xOff i (pn.2.getD i 0)).findSpliceForLevel key
              (pn.1.getD i 0) i).2 then
          if i ≠ 0 then .err .assertEqualAboveBase
          else .done ((s.setNodeTower xOff i (pn.2.getD i 0)).overwriteValue
            ((s.setNodeTower xOff i (pn.2.getD i 0)).findSpliceForLevel key
              (pn.1.getD i 0) i).1 v)
        else
          Skiplist.publishLevel key v xOff i fuel (s.setNodeTower xOff i (pn.2.getD i 0))
            (pn.1.set i ((s.setNodeTower xOff i (pn.2.getD i 0)).findSpliceForLevel key
              (pn.1.getD i 0) i).1)
            (pn.2.set i ((s.setNodeTower xOff i (pn.2.getD i 0)).findSpliceForLevel key
              (pn.1.getD i 0) i).2) := rfl

/-- One successful CAS publish at level `i` (store `n₂` into the new
node's tower, then swing `prev`'s level-`i` pointer to `xOff`) advances
the mid-publish invariant to level `i + 1`. -/
theorem pubInv_step {key : List Nat} {xOff h i : Nat} {s : Skiplist}
    {prev next prev₂ next₂ : List Nat} {p₂ n₂ : Nat} {pm₂ : Node}
    (hp : PubInv key xOff h i s prev next)
    (hi : i < h)
    (hgp : prev₂.getD i 0 = p₂) (hgn : next₂.getD i 0 = n₂)
    (hl₂ : prev₂.length = maxHeight + 1) (hnl₂ : next₂.length = maxHeight + 1)
    (hpres : ∀ j, j ≠ i → prev₂.getD j 0 = prev.getD j 0 ∧ next₂.getD j 0 = next.getD j 0)
    (hpm₂ : s.getNode p₂ = some pm₂) (hpm₂h : i < pm₂.height)
    (hp₂x : p₂ ≠ xOff)
    (hp₂pos : p₂ = 1 ∨ (s.isNode p₂ ∧ CompareKeys (s.keyAt p₂) key < 0))
    (hslot₂ : pm₂.tower.getD i 0 = n₂)
    (hnf₂ : n₂ = 0 ∨ (n₂ ≠ 1 ∧ n₂ ≠ xOff ∧
      ∃ nm, s.getNode n₂ = some nm ∧ i < nm.height ∧
        0 < CompareKeys (s.keyAt n₂) key)) :
    PubInv key xOff h (i + 1) ((s.setNodeTower xOff i n₂).setNodeTower p₂ i xOff)
      prev₂ next₂ := by
  obtain ⟨hd0, hhd0, hhd0h, hhd0k⟩ := hp.head_node
  obtain ⟨x, hx, hxh, hxkey, hxslots⟩ := hp.x_node
  have hlF := linkFacts_of_parts hp.nodes_ok hp.links_ok
  have hho0 : s.headOffset ≠ 0 := by
    rw [hp.head_off]
    omega
  have hmx : maxHeight = 20 := rfl
  have hhle := hp.h_le
  have hghi := hp.hgt_hi
  have hxge2 := hp.x_ge2
  have hi20 : i < maxHeight := by omega
  have hxmem : x ∈ s.nodes := (getNode_valid hx).2.2
  have hpmmem : pm₂ ∈ s.nodes := (getNode_valid hpm₂).2.2
  have hxok := nodeOk_spec (hp.nodes_ok x hxmem)
  have hpmok := nodeOk_spec (hp.nodes_ok pm₂ hpmmem)
  have hxtl : x.tower.length = maxHeight := hxok.2.2.1
  have hpmtl : pm₂.tower.length = maxHeight := hpmok.2.2.1
  have hp₂v := getNode_valid hpm₂
  have h1x : (1 : Nat) ≠ xOff := by omega
  have hgetA : ∀ o, (s.setNodeTower xOff i n₂).getNode o =
      if o = xOff then some { x with tower := x.tower.set i n₂ } else s.getNode o := by
    intro o
    rw [getNode_setNodeTower]
    by_cases h1 : o = xOff
    · rw [if_pos h1, if_pos h1, hx]
      rfl
    · rw [if_neg h1, if_neg h1]
  have hget : ∀ o, ((s.setNodeTower xOff i n₂).setNodeTower p₂ i xOff).getNode o =
      if o = p₂ then some { pm₂ with tower := pm₂.tower.set i xOff }
      else if o = xOff then some { x with tower := x.tower.set i n₂ }
      else s.getNode o := by
    intro o
    rw [getNode_setNodeTower]
    by_cases h1 : o = p₂
    · rw [if_pos h1, if_pos h1, hgetA p₂, if_neg hp₂x, hpm₂]
      rfl
    · rw [if_neg h1, if_neg h1, hgetA o]
  have hfA := setNodeTower_fields s xOff i n₂
  have hfB := setNodeTower_fields (s.setNodeTower xOff i n₂) p₂ i xOff
  have hho2 : ((s.setNodeTower xOff i n₂).setNodeTower p₂ i xOff).headOffset =
      s.headOffset := by
    rw [hfB.2.1, hfA.2.1]
  have hht2 : ((s.setNodeTower xOff i n₂).setNodeTower p₂ i xOff).height = s.height := by
    rw [hfB.1, hfA.1]
  have harena2 : ((s.setNodeTower xOff i n₂).setNodeTower p₂ i xOff).arena = s.arena := by
    rw [hfB.2.2.1, hfA.2.2.1]
  have hlen2 : ((s.setNodeTower xOff i n₂).setNodeTower p₂ i xOff).nodes.length =
      s.nodes.length := by
    rw [hfB.2.2.2, hfA.2.2.2]
  have hnk : ∀ nd : Node,
      ((s.setNodeTower xOff i n₂).setNodeTower p₂ i xOff).nodeKey nd = s.nodeKey nd := by
    intro nd
    unfold Skiplist.nodeKey
    rw [harena2]
  have hisN : ∀ o, (((s.setNodeTower xOff i n₂).setNodeTower p₂ i xOff).isNode o ↔
      s.isNode o) := by
    intro o
    unfold Skiplist.isNode
    rw [hlen2, hho2]
  have hvar2 : ∀ v m, s.getNode v = some m →
      ∃ m', ((s.setNodeTower xOff i n₂).setNodeTower p₂ i xOff).getNode v = some m' ∧
        m'.height = m.height ∧
        (∀ L, L ≠ i → m'.tower.getD L 0 = m.tower.getD L 0) ∧
        ((s.setNodeTower xOff i n₂).setNodeTower p₂ i xOff).nodeKey m' = s.nodeKey m := by
    intro v m hm
    rw [hget v]
    by_cases h1 : v = p₂
    · subst h1
      have hmeq : m = pm₂ := Option.some.inj (hm.symm.trans hpm₂)
      subst hmeq
      rw [if_pos rfl]
      exact ⟨_, rfl, rfl, fun L hL => getD_set_ne xOff (Ne.symm hL), hnk _⟩
    · rw [if_neg h1]
      by_cases h2 : v = xOff
      · subst h2
        have hmeq : m = x := Option.some.inj (hm.symm.trans hx)
        subst hmeq
        rw [if_pos rfl]
        exact ⟨_, rfl, rfl, fun L hL => getD_set_ne n₂ (Ne.symm hL), hnk _⟩
      · rw [if_neg h2]
        exact ⟨m, hm, rfl, fun L _ => rfl, hnk m⟩
  have hkeyAt : ∀ o, ((s.setNodeTower xOff i n₂).setNodeTower p₂ i xOff).keyAt o =
      s.keyAt o := by
    intro o
    rcases hG : s.getNode o with _ | m
    · have ho1 : o ≠ p₂ := fun hc => by rw [hc, hpm₂] at hG; cases hG
      have ho2 : o ≠ xOff := fun hc => by rw [hc, hx] at hG; cases hG
      have hnone : ((s.setNodeTower xOff i n₂).setNodeTower p₂ i xOff).getNode o = none := by
        rw [hget o, if_neg ho1, if_neg ho2]
        exact hG
      rw [keyAt_none hnone, keyAt_none hG]
    · obtain ⟨m', hm', -, -, hk'⟩ := hvar2 o m hG
      rw [keyAt_eq hm', keyAt_eq hG]
      exact hk'
  refine ⟨?_, ?_, ?_, ?_, ?_, ?_, ?_, ?_, ?_, ?_, ?_, ?_, ?_, ?_, ?_, ?_⟩
  · rw [hho2]
    exact hp.head_off
  · by_cases h1 : (1 : Nat) = p₂
    · have hpmhd : pm₂ = hd0 := by
        rw [← h1] at hpm₂
        exact Option.some.inj (hpm₂.symm.trans hhd0)
      refine ⟨{ pm₂ with tower := pm₂.tower.set i xOff }, ?_, ?_, ?_⟩
      · rw [hget 1, if_pos h1]
      · show pm₂.height = maxHeight
        rw [hpmhd, hhd0h]
      · show pm₂.keySize = 0
        rw [hpmhd, hhd0k]
    · refine ⟨hd0, ?_, hhd0h, hhd0k⟩
      rw [hget 1, if_neg h1, if_neg h1x]
      exact hhd0
  · rw [hlen2]
    exact hp.x_off
  · exact hp.x_ge2
  · refine ⟨{ x with tower := x.tower.set i n₂ }, ?_, hxh, ?_, ?_⟩
    · rw [hget xOff, if_neg (Ne.symm hp₂x), if_pos rfl]
    · exact (hnk _).trans hxkey
    · intro L hL
      show (x.tower.set i n₂).getD L 0 = 0
      rw [getD_set_ne n₂ (by omega : i ≠ L)]
      exact hxslots L (by omega)
  · rw [hht2]
    exact hp.h_le
  · exact hp.h_pos
  · rw [hht2]
    exact hp.hgt_hi
  · intro nd'' hmem''
    rw [nodeOkB_congr harena2]
    obtain ⟨o, ho'', -, -⟩ := getNode_of_mem hmem''
    rw [hget o] at ho''
    by_cases h1 : o = p₂
    · rw [if_pos h1] at ho''
      cases ho''
      refine nodeOkB_intro ?_ ?_ ?_ ?_ ?_
      · show 1 ≤ pm₂.height
        exact hpmok.1
      · show pm₂.height ≤ maxHeight
        exact hpmok.2.1
      · show (pm₂.tower.set i xOff).length = maxHeight
        rw [List.length_set]
        exact hpmtl
      · show pm₂.keyOffset + pm₂.keySize ≤ s.arena.buf.length
        exact hpmok.2.2.2.1
      · intro L hLm hh2
        have hh3 : pm₂.height ≤ L := hh2
        show (pm₂.tower.set i xOff).getD L 0 = 0
        rw [getD_set_ne xOff (by omega : i ≠ L)]
        exact hpmok.2.2.2.2 L hh3
    · rw [if_neg h1] at ho''
      by_cases h2 : o = xOff
      · rw [if_pos h2] at ho''
        cases ho''
        refine nodeOkB_intro ?_ ?_ ?_ ?_ ?_
        · show 1 ≤ x.height
          exact hxok.1
        · show x.height ≤ maxHeight
          exact hxok.2.1
        · show (x.tower.set i n₂).length = maxHeight
          rw [List.length_set]
          exact hxtl
        · show x.keyOffset + x.keySize ≤ s.arena.buf.length
          exact hxok.2.2.2.1
        · intro L hLm hh2
          have hh3 : x.height ≤ L := hh2
          show (x.tower.set i n₂).getD L 0 = 0
          rw [getD_set_ne n₂ (by omega : i ≠ L)]
          exact hxok.2.2.2.2 L hh3
      · rw [if_neg h2] at ho''
        exact hp.nodes_ok nd'' (getNode_valid ho'').2.2
  · intro o holen
    rw [hlen2] at holen
    by_cases h1 : o = p₂
    · subst h1
      refine linkOkB_intro (show _ = some { pm₂ with tower := pm₂.tower.set i xOff } from by
        rw [hget o, if_pos rfl]) ?_
      intro L hL hLm
      have hL' : L < pm₂.height := hL
      by_cases hLi : L = i
      · subst hLi
        rw [show ({ pm₂ with tower := pm₂.tower.set L xOff } : Node).tower.getD L 0 = xOff
          from getD_set_self xOff (by omega)]
        refine Or.inr ⟨?_, { x with tower := x.tower.set L n₂ }, ?_, ?_, ?_⟩
        · rw [hho2, hp.head_off]
          omega
        · rw [hget xOff, if_neg (Ne.symm hp₂x), if_pos rfl]
        · show L < x.height
          omega
        · rcases hp₂pos with hp1 | ⟨hIsN, hlt⟩
          · refine Or.inl ?_
            rw [hho2, hp.head_off]
            exact hp1
          · refine Or.inr ?_
            rw [hnk _, hnk _]
            show CompareKeys (s.nodeKey pm₂) (s.nodeKey x) < 0
            rw [hxkey, ← keyAt_eq hpm₂]
            exact hlt
      · rw [show ({ pm₂ with tower := pm₂.tower.set i xOff } : Node).tower.getD L 0 =
          pm₂.tower.getD L 0 from getD_set_ne xOff (Ne.symm hLi)]
        have hold := linkOkB_spec (hp.links_ok o (by omega)) hpm₂ hpmok.2.1 L hL'
        rcases hold with h0 | ⟨hne, m, hm, hmh, hcase⟩
        · exact Or.inl h0
        · obtain ⟨m', hm', hh', -, hk'⟩ := hvar2 _ m hm
          refine Or.inr ⟨by rw [hho2]; exact hne, m', hm', by omega, ?_⟩
          rcases hcase with hc | hc
          · exact Or.inl (by rw [hho2]; exact hc)
          · refine Or.inr ?_
            rw [hnk _, hk']
            exact hc
    · by_cases h2 : o = xOff
      · subst h2
        refine linkOkB_intro (show _ = some { x with tower := x.tower.set i n₂ } from by
          rw [hget o, if_neg h1, if_pos rfl]) ?_
        intro L hL hLm
        have hL' : L < x.height := hL
        by_cases hLi : L = i
        · subst hLi
          rw [show ({ x with tower := x.tower.set L n₂ } : Node).tower.getD L 0 = n₂
            from getD_set_self n₂ (by omega)]
          rcases hnf₂ with h0 | ⟨hn1, hnx, nm, hnm, hnmh, hgt⟩
          · exact Or.inl h0
          · have hn₂p₂ : n₂ ≠ p₂ := by
              intro hc
              rcases hp₂pos with hp1 | ⟨hIsN, hlt⟩
              · exact hn1 (hc.trans hp1)
              · rw [hc] at hgt
                omega
            refine Or.inr ⟨?_, nm, ?_, hnmh, Or.inr ?_⟩
            · rw [hho2, hp.head_off]
              exact hn1
            · rw [hget n₂, if_neg hn₂p₂, if_neg hnx]
              exact hnm
            · rw [hnk _, hnk _]
              show CompareKeys (s.nodeKey x) (s.nodeKey nm) < 0
              rw [hxkey, ← keyAt_eq hnm]
              exact (CompareKeys_pos_iff _ _).mp hgt
        · rw [show ({ x with tower := x.tower.set i n₂ } : Node).tower.getD L 0 =
            x.tower.getD L 0 from getD_set_ne n₂ (Ne.symm hLi)]
          have hxoff_le : o ≤ s.nodes.length := le_of_eq hp.x_off
          have hold := linkOkB_spec (hp.links_ok o hxoff_le) hx hxok.2.1 L hL'
          rcases hold with h0 | ⟨hne, m, hm, hmh, hcase⟩
          · exact Or.inl h0
          · obtain ⟨m', hm', hh', -, hk'⟩ := hvar2 _ m hm
            refine Or.inr ⟨by rw [hho2]; exact hne, m', hm', by omega, ?_⟩
            rcases hcase with hc | hc
            · exact Or.inl (by rw [hho2]; exact hc)
            · refine Or.inr ?_
              rw [hnk _, hk']
              exact hc
      · rcases hGo : s.getNode o with _ | m
        · refine linkOkB_none ?_
          rw [hget o, if_neg h1, if_neg h2]
          exact hGo
        · have hm'' : ((s.setNodeTower xOff i n₂).setNodeTower p₂ i xOff).getNode o =
              some m := by
            rw [hget o, if_neg h1, if_neg h2]
            exact hGo
          refine linkOkB_intro hm'' ?_
          intro L hL hLm
          have hmok := nodeOk_spec (hp.nodes_ok m (getNode_valid hGo).2.2)
          have hold := linkOkB_spec (hp.links_ok o (by omega)) hGo hmok.2.1 L hL
          rcases hold with h0 | ⟨hne, mm, hmm, hmmh, hcase⟩
          · exact Or.inl h0
          · obtain ⟨mm', hmm', hhh', -, hkk'⟩ := hvar2 _ mm hmm
            refine Or.inr ⟨by rw [hho2]; exact hne, mm', hmm', by omega, ?_⟩
            rcases hcase with hc | hc
            · exact Or.inl (by rw [hho2]; exact hc)
            · refine Or.inr ?_
              rw [hnk _, hkk']
              exact hc
  · intro nd'' hmem'' L hLh
    rw [hht2] at hLh
    obtain ⟨o, ho'', -, -⟩ := getNode_of_mem hmem''
    rw [hget o] at ho''
    have hih : i < s.height := by omega
    by_cases h1 : o = p₂
    · rw [if_pos h1] at ho''
      cases ho''
      show (pm₂.tower.set i xOff).getD L 0 = 0
      rw [getD_set_ne xOff (by omega : i ≠ L)]
      exact hp.high_zero pm₂ hpmmem L hLh
    · rw [if_neg h1] at ho''
      by_cases h2 : o = xOff
      · rw [if_pos h2] at ho''
        cases ho''
        show (x.tower.set i n₂).getD L 0 = 0
        rw [getD_set_ne n₂ (by omega : i ≠ L)]
        exact hxslots L (by omega)
      · rw [if_neg h2] at ho''
        exact hp.high_zero nd'' (getNode_valid ho'').2.2 L hLh
  · intro o m'' hm'' ho1 hox
    rw [hget o] at hm''
    by_cases h1 : o = p₂
    · rw [if_pos h1] at hm''
      cases hm''
      rw [hnk _]
      show s.nodeKey pm₂ ≠ key
      exact hp.fresh p₂ pm₂ hpm₂ (h1 ▸ ho1) (h1 ▸ hox)
    · rw [if_neg h1] at hm''
      by_cases h2 : o = xOff
      · exact absurd h2 hox
      · rw [if_neg h2] at hm''
        rw [hnk _]
        exact hp.fresh o m'' hm'' ho1 hox
  · intro L hL
    obtain ⟨cL, hcL, hcomp, hxout⟩ := hp.chains L hL
    unfold Skiplist.chain at hcL
    obtain ⟨hchainL, hlenL⟩ := (chainAux_eq_some s L _ _ cL).mp hcL
    have hhd' : s.getNode s.headOffset = some hd0 := by
      rw [hp.head_off]
      exact hhd0
    have hstart_ne : s.getNextOffset s.headOffset L ≠ s.headOffset :=
      getNextOffset_ne_head hlF hho0 hhd' (by omega)
    have hclen : cL.length ≤ s.nodes.length :=
      chainFrom_length_le hlF hho0 hchainL hstart_ne
    have hcfacts := chainFrom_facts hlF hho0 L cL _ hchainL hstart_ne
    have hnodup : cL.Nodup := keyChain_nodup (keyChain_pairwise hcfacts.2)
    by_cases hLi : L = i
    · subst hLi
      rcases hp₂pos with hp₂1 | ⟨hIsN₂, hlt₂⟩
      · subst hp₂1
        have hstart : s.getNextOffset s.headOffset L = n₂ := by
          rw [getNextOffset_eq (show s.getNode s.headOffset = some pm₂ from by
            rw [hp.head_off]; exact hpm₂)]
          exact hslot₂
        have hmem_ne : ∀ a ∈ cL,
            ((s.setNodeTower xOff L n₂).setNodeTower 1 L xOff).getNode a = s.getNode a := by
          intro a ha
          have hia := hcfacts.1 a ha
          have ha1 : a ≠ 1 := by
            have hq := hia.2.2
            rw [hp.head_off] at hq
            exact hq
          have hax : a ≠ xOff := fun hc => (hxout le_rfl) (hc ▸ ha)
          rw [hget a, if_neg ha1, if_neg hax]
        refine ⟨xOff :: cL, ?_, ?_, ?_⟩
        · unfold Skiplist.chain
          rw [hlen2]
          refine (chainAux_eq_some _ L _ _ _).mpr ⟨?_, by
            simp only [List.length_cons]; omega⟩
          have hstart2 : ((s.setNodeTower xOff L n₂).setNodeTower 1 L xOff).getNextOffset
              ((s.setNodeTower xOff L n₂).setNodeTower 1 L xOff).headOffset L = xOff := by
            rw [hho2, hp.head_off]
            rw [getNextOffset_eq (show _ = some { pm₂ with tower := pm₂.tower.set L xOff }
              from by rw [hget 1, if_pos rfl])]
            show (pm₂.tower.set L xOff).getD L 0 = xOff
            exact getD_set_self xOff (by omega)
          rw [hstart2, chainFrom_cons_iff]
          refine ⟨rfl, { x with tower := x.tower.set L n₂ }, ?_, ?_, ?_⟩
          · rw [hget xOff, if_neg (Ne.symm hp₂x), if_pos rfl]
          · show L < x.height
            omega
          · show ((s.setNodeTower xOff L n₂).setNodeTower 1 L xOff).chainFrom L
              ((x.tower.set L n₂).getD L 0) cL
            rw [getD_set_self n₂ (by omega)]
            exact chainFrom_stable hmem_ne (hstart ▸ hchainL)
        · intro o nd'' ho'' h2 hhgt
          rw [hget o] at ho''
          by_cases h1 : o = 1
          · omega
          · rw [if_neg h1] at ho''
            by_cases h2x : o = xOff
            · refine Or.inr ?_
              rw [h2x]
              exact List.mem_cons_self xOff cL
            · rw [if_neg h2x] at ho''
              rcases hcomp o nd'' ho'' h2 hhgt with ⟨hc, -⟩ | hmem
              · exact absurd hc h2x
              · exact Or.inr (List.mem_cons_of_mem xOff hmem)
        · intro hcontra
          exact absurd hcontra (by omega)
      · have hp₂ne1 : p₂ ≠ 1 := by
          have hq := hIsN₂.2.2
          rw [hp.head_off] at hq
          exact hq
        have hp₂2 : 2 ≤ p₂ := by
          have hq := hIsN₂.1
          omega
        have hp₂mem : p₂ ∈ cL := by
          rcases hcomp p₂ pm₂ hpm₂ hp₂2 hpm₂h with ⟨hc, -⟩ | hm
          · exact absurd hc hp₂x
          · exact hm
        obtain ⟨P, S, nd₂, hdec, hnd₂, -, hS⟩ := chainFrom_decompose hchainL hp₂mem
        have hnd₂eq : nd₂ = pm₂ := Option.some.inj (hnd₂.symm.trans hpm₂)
        rw [hnd₂eq] at hS
        rw [hslot₂] at hS
        rw [hdec] at hnodup
        obtain ⟨hndP, hndT, hdisj⟩ := List.nodup_append.mp hnodup
        have hp₂nS : p₂ ∉ S := (List.nodup_cons.mp hndT).1
        have hmemP : ∀ a ∈ P, a ∈ cL := by
          intro a ha
          rw [hdec]
          exact List.mem_append.mpr (Or.inl ha)
        have hmemS : ∀ b ∈ S, b ∈ cL := by
          intro b hb
          rw [hdec]
          exact List.mem_append.mpr (Or.inr (List.mem_cons_of_mem p₂ hb))
        have hP_ne : ∀ a ∈ P,
            ((s.setNodeTower xOff L n₂).setNodeTower p₂ L xOff).getNode a = s.getNode a := by
          intro a ha
          have hia := hcfacts.1 a (hmemP a ha)
          have hap : a ≠ p₂ := fun hc => hdisj ha (hc ▸ List.mem_cons_self p₂ S)
          have hax : a ≠ xOff := fun hc => (hxout le_rfl) (hc ▸ hmemP a ha)
          rw [hget a, if_neg hap, if_neg hax]
        have hS_ne : ∀ b ∈ S,
            ((s.setNodeTower xOff L n₂).setNodeTower p₂ L xOff).getNode b = s.getNode b := by
          intro b hb
          have hbp : b ≠ p₂ := fun hc => hp₂nS (hc ▸ hb)
          have hbx : b ≠ xOff := fun hc => (hxout le_rfl) (hc ▸ hmemS b hb)
          rw [hget b, if_neg hbp, if_neg hbx]
        obtain ⟨f, hseg, hfrom⟩ := chainFrom_split (by rw [← hdec]; exact hchainL)
        have hfp : f = p₂ := ((chainFrom_cons_iff s L f p₂ S).mp hfrom).1
        rw [hfp] at hseg
        refine ⟨P ++ p₂ :: xOff :: S, ?_, ?_, ?_⟩
        · unfold Skiplist.chain
          rw [hlen2]
          have hlen3 : P.length + S.length + 1 ≤ s.nodes.length := by
            rw [hdec] at hclen
            simp only [List.length_append, List.length_cons] at hclen
            omega
          refine (chainAux_eq_some _ L _ _ _).mpr ⟨?_, by
            simp only [List.length_append, List.length_cons]; omega⟩
          have hstart2 : ((s.setNodeTower xOff L n₂).setNodeTower p₂ L xOff).getNextOffset
              ((s.setNodeTower xOff L n₂).setNodeTower p₂ L xOff).headOffset L =
              s.getNextOffset s.headOffset L := by
            rw [hho2]
            rw [getNextOffset_eq (show _ = some hd0 from by
              rw [hp.head_off, hget 1, if_neg (Ne.symm hp₂ne1), if_neg h1x]; exact hhd0)]
            rw [getNextOffset_eq hhd']
          rw [hstart2]
          refine chainFrom_join (chainSeg_stable hP_ne hseg) ?_
          rw [chainFrom_cons_iff]
          refine ⟨rfl, { pm₂ with tower := pm₂.tower.set L xOff }, ?_, ?_, ?_⟩
          · rw [hget p₂, if_pos rfl]
          · show L < pm₂.height
            exact hpm₂h
          · show ((s.setNodeTower xOff L n₂).setNodeTower p₂ L xOff).chainFrom L
              ((pm₂.tower.set L xOff).getD L 0) (xOff :: S)
            rw [getD_set_self xOff (by omega)]
            rw [chainFrom_cons_iff]
            refine ⟨rfl, { x with tower := x.tower.set L n₂ }, ?_, ?_, ?_⟩
            · rw [hget xOff, if_neg (Ne.symm hp₂x), if_pos rfl]
            · show L < x.height
              omega
            · show ((s.setNodeTower xOff L n₂).setNodeTower p₂ L xOff).chainFrom L
                ((x.tower.set L n₂).getD L 0) S
              rw [getD_set_self n₂ (by omega)]
              exact chainFrom_stable hS_ne hS
        · intro o nd'' ho'' h2 hhgt
          rw [hget o] at ho''
          by_cases h1 : o = p₂
          · refine Or.inr ?_
            rw [h1]
            exact List.mem_append.mpr (Or.inr (List.mem_cons_self p₂ _))
          · rw [if_neg h1] at ho''
            by_cases h2x : o = xOff
            · refine Or.inr ?_
              rw [h2x]
              exact List.mem_append.mpr (Or.inr (List.mem_cons_of_mem p₂
                (List.mem_cons_self xOff S)))
            · rw [if_neg h2x] at ho''
              rcases hcomp o nd'' ho'' h2 hhgt with ⟨hc, -⟩ | hmem
              · exact absurd hc h2x
              · refine Or.inr ?_
                rw [hdec] at hmem
                rcases List.mem_append.mp hmem with hl | hr
                · exact List.mem_append.mpr (Or.inl hl)
                · rcases List.mem_cons.mp hr with rfl | hrS
                  · exact List.mem_append.mpr (Or.inr (List.mem_cons_self _ _))
                  · exact List.mem_append.mpr (Or.inr (List.mem_cons_of_mem p₂
                      (List.mem_cons_of_mem xOff hrS)))
        · intro hcontra
          exact absurd hcontra (by omega)
    · have hvarL : ∀ o nd, s.getNode o = some nd →
          ∃ nd', ((s.setNodeTower xOff i n₂).setNodeTower p₂ i xOff).getNode o = some nd' ∧
            nd'.height = nd.height ∧ nd'.tower.getD L 0 = nd.tower.getD L 0 := by
        intro o nd hnd
        obtain ⟨nd', hq1, hq2, hq3, -⟩ := hvar2 o nd hnd
        exact ⟨nd', hq1, hq2, hq3 L hLi⟩
      refine ⟨cL, ?_, ?_, ?_⟩
      · unfold Skiplist.chain
        rw [hlen2]
        have hstart2 : ((s.setNodeTower xOff i n₂).setNodeTower p₂ i xOff).getNextOffset
            ((s.setNodeTower xOff i n₂).setNodeTower p₂ i xOff).headOffset L =
            s.getNextOffset s.headOffset L := by
          rw [hho2]
          obtain ⟨hd', hhd2, -, ht2⟩ := hvarL s.headOffset hd0 hhd'
          rw [getNextOffset_eq hhd2, getNextOffset_eq hhd', ht2]
        rw [hstart2]
        exact (chainAux_eq_some _ L _ _ _).mpr
          ⟨chainFrom_transfer_level hvarL hchainL, by omega⟩
      · intro o nd'' ho'' h2 hhgt
        rw [hget o] at ho''
        by_cases h1 : o = p₂
        · rw [if_pos h1] at ho''
          cases ho''
          have hhgt2 : L < pm₂.height := hhgt
          rcases hcomp p₂ pm₂ hpm₂ (h1 ▸ h2) hhgt2 with ⟨hc, -⟩ | hmem
          · exact absurd hc hp₂x
          · refine Or.inr ?_
            rw [h1]
            exact hmem
        · rw [if_neg h1] at ho''
          by_cases h2x : o = xOff
          · rw [if_pos h2x] at ho''
            cases ho''
            have hhgt2 : L < x.height := hhgt
            rcases hcomp xOff x hx hp.x_ge2 hhgt2 with ⟨-, hiL⟩ | hmem
            · exact Or.inl ⟨h2x, by omega⟩
            · refine Or.inr ?_
              rw [h2x]
              exact hmem
          · rw [if_neg h2x] at ho''
            rcases hcomp o nd'' ho'' h2 hhgt with ⟨hc, -⟩ | hmem
            · exact absurd hc h2x
            · exact Or.inr hmem
      · intro hiL
        exact hxout (by omega)
  · exact hl₂
  · exact hnl₂
  · intro j hj1 hj2
    have hji : j ≠ i := by omega
    obtain ⟨hpj, hnj⟩ := hpres j hji
    rcases hp.splices j (by omega) hj2 with ⟨h0, h2j⟩ | ⟨pmJ, hpmJ, hhJ, hxJ, hposJ, hslotJ, hnfJ⟩
    · exact Or.inl ⟨by rw [hpj]; exact h0, h2j⟩
    · obtain ⟨pmJ', hpmJ', hhJ', htJ', -⟩ := hvar2 _ pmJ hpmJ
      refine Or.inr ⟨pmJ', ?_, by omega, ?_, ?_, ?_, ?_⟩
      · rw [hpj]
        exact hpmJ'
      · rw [hpj]
        exact hxJ
      · rcases hposJ with hc | ⟨hIsn, hlt⟩
        · refine Or.inl ?_
          rw [hpj]
          exact hc
        · refine Or.inr ⟨?_, ?_⟩
          · rw [hpj]
            exact (hisN _).mpr hIsn
          · rw [hpj, hkeyAt _]
            exact hlt
      · rw [hnj, htJ' j hji]
        exact hslotJ
      · rcases hnfJ with h0 | ⟨hn1, hnx, nmJ, hnmJ, hnmJh, hgtJ⟩
        · refine Or.inl ?_
          rw [hnj]
          exact h0
        · obtain ⟨nmJ', hnmJ', hnmJh', -, -⟩ := hvar2 _ nmJ hnmJ
          refine Or.inr ⟨by rw [hnj]; exact hn1, by rw [hnj]; exact hnx, nmJ', ?_,
            by omega, ?_⟩
          · rw [hnj]
            exact hnmJ'
          · rw [hnj, hkeyAt _]
            exact hgtJ

/-- In the sequential model one `publishLevel` iteration always takes the
successful-CAS branch and yields `.cont`. -/
theorem publishLevel_step {key : List Nat} (v : ValueStruct) {xOff h i : Nat}
    {s : Skiplist} {prev next : List Nat}
    (hp : PubInv key xOff h i s prev next) (hi : i < h) (fuel : Nat) :
    ∃ prev₂ next₂ p₂ n₂ pm₂,
      prev₂.getD i 0 = p₂ ∧ next₂.getD i 0 = n₂ ∧
      prev₂.length = maxHeight + 1 ∧ next₂.length = maxHeight + 1 ∧
      (∀ j, j ≠ i → prev₂.getD j 0 = prev.getD j 0 ∧ next₂.getD j 0 = next.getD j 0) ∧
      s.getNode p₂ = some pm₂ ∧ i < pm₂.height ∧ p₂ ≠ xOff ∧
      (p₂ = 1 ∨ (s.isNode p₂ ∧ CompareKeys (s.keyAt p₂) key < 0)) ∧
      pm₂.tower.getD i 0 = n₂ ∧
      (n₂ = 0 ∨ (n₂ ≠ 1 ∧ n₂ ≠ xOff ∧
        ∃ nm, s.getNode n₂ = some nm ∧ i < nm.height ∧
          0 < CompareKeys (s.keyAt n₂) key)) ∧
      Skiplist.publishLevel key v xOff i (fuel + 1) s prev next =
        .cont ((s.setNodeTower xOff i n₂).setNodeTower p₂ i xOff) prev₂ next₂ := by
  obtain ⟨hd0, hhd0, hhd0h, hhd0k⟩ := hp.head_node
  obtain ⟨x, hx, hxh, hxkey, hxslots⟩ := hp.x_node
  have hlF := linkFacts_of_parts hp.nodes_ok hp.links_ok
  have hho0 : s.headOffset ≠ 0 := by
    rw [hp.head_off]
    omega
  have hmx : maxHeight = 20 := rfl
  have hhle := hp.h_le
  have hghi := hp.hgt_hi
  have hxge2 := hp.x_ge2
  have hi20 : i < maxHeight := by omega
  rcases hp.splices i le_rfl hi with ⟨hp0, hi2⟩ |
    ⟨pm₂, hpm₂, hpm₂h, hp₂x, hp₂pos, hslot₂, hnf₂⟩
  · obtain ⟨cL, hcL, hcomp, hxout⟩ := hp.chains i hi20
    unfold Skiplist.chain at hcL
    obtain ⟨hchain, hclen'⟩ := (chainAux_eq_some s i _ _ cL).mp hcL
    have hhd' : s.getNode s.headOffset = some hd0 := by
      rw [hp.head_off]
      exact hhd0
    have hstart_ne : s.getNextOffset s.headOffset i ≠ s.headOffset :=
      getNextOffset_ne_head hlF hho0 hhd' (by omega)
    have hclen : cL.length ≤ s.nodes.length :=
      chainFrom_length_le hlF hho0 hchain hstart_ne
    obtain ⟨p', n', hrun, hspec⟩ := findSpliceFromHead_correct hlF hho0 key i hhd'
      (by omega) hchain hclen
    rcases hspec with ⟨-, hmem, hIsN, m, hmm, -, hkeym⟩ |
      ⟨hne', pm', hpm', hpmh', hppos', hnn', hnf'⟩
    · exfalso
      have hxne : p' ≠ xOff := fun hc => (hxout le_rfl) (hc ▸ hmem)
      have h1ne : p' ≠ 1 := by
        have hq := hIsN.2.2
        rw [hp.head_off] at hq
        exact hq
      exact hp.fresh p' m hmm h1ne hxne hkeym
    · have hp'x : p' ≠ xOff := by
        rcases hppos' with hh' | ⟨hIsN', hlt'⟩
        · rw [hh', hp.head_off]
          omega
        · intro hc
          rw [hc, keyAt_eq hx, hxkey, CompareKeys_self] at hlt'
          omega
      have hppos2 : p' = 1 ∨ (s.isNode p' ∧ CompareKeys (s.keyAt p') key < 0) := by
        rcases hppos' with hh' | hh'
        · exact Or.inl (by rw [hh', hp.head_off])
        · exact Or.inr hh'
      have hnf2 : n' = 0 ∨ (n' ≠ 1 ∧ n' ≠ xOff ∧
          ∃ nm, s.getNode n' = some nm ∧ i < nm.height ∧
            0 < CompareKeys (s.keyAt n') key) := by
        rcases hnf' with h0 | ⟨hIsn', nm, hnm, hnmh, hgt'⟩
        · exact Or.inl h0
        · refine Or.inr ⟨?_, ?_, nm, hnm, hnmh, hgt'⟩
          · have hq := hIsn'.2.2
            rw [hp.head_off] at hq
            exact hq
          · intro hc
            rw [hc, keyAt_eq hx, hxkey, CompareKeys_self] at hgt'
            omega
      have hresolve : s.resolvePrev key i prev next =
          .inr (prev.set i p', next.set i n') := by
        unfold Skiplist.resolvePrev
        rw [if_pos (by rw [hp0]; exact getNode_zero s), if_neg (by omega : ¬ i ≤ 1)]
        simp only [hrun]
        rw [if_neg hne']
      have hiplen : i < prev.length := by
        rw [hp.prev_len]
        omega
      have hinlen : i < next.length := by
        rw [hp.next_len]
        omega
      refine ⟨prev.set i p', next.set i n', p', n', pm', getD_set_self p' hiplen,
        getD_set_self n' hinlen, by rw [List.length_set]; exact hp.prev_len,
        by rw [List.length_set]; exact hp.next_len,
        fun j hj => ⟨getD_set_ne p' (Ne.symm hj), getD_set_ne n' (Ne.symm hj)⟩,
        hpm', hpmh', hp'x, hppos2, hnn'.symm, hnf2, ?_⟩
      rw [publishLevel_succ]
      simp only [hresolve]
      have hcond : (s.setNodeTower xOff i ((next.set i n').getD i 0)).getNextOffset
          ((prev.set i p').getD i 0) i = (next.set i n').getD i 0 := by
        rw [getD_set_self p' hiplen, getD_set_self n' hinlen]
        have hgn1 : (s.setNodeTower xOff i n').getNode p' = some pm' := by
          rw [getNode_setNodeTower, if_neg hp'x]
          exact hpm'
        rw [getNextOffset_eq hgn1, ← hnn']
      rw [if_pos hcond]
      rw [getD_set_self p' hiplen, getD_set_self n' hinlen]
  · have hresolve : s.resolvePrev key i prev next = .inr (prev, next) := by
      unfold Skiplist.resolvePrev
      rw [if_neg (by rw [hpm₂]; simp)]
    refine ⟨prev, next, prev.getD i 0, next.getD i 0, pm₂, rfl, rfl, hp.prev_len,
      hp.next_len, fun j _ => ⟨rfl, rfl⟩, hpm₂, hpm₂h, hp₂x, hp₂pos, hslot₂, hnf₂, ?_⟩
    rw [publishLevel_succ]
    simp only [hresolve]
    have hcond : (s.setNodeTower xOff i (next.getD i 0)).getNextOffset
        (prev.getD i 0) i = next.getD i 0 := by
      have hgn1 : (s.setNodeTower xOff i (next.getD i 0)).getNode (prev.getD i 0) =
          some pm₂ := by
        rw [getNode_setNodeTower, if_neg hp₂x]
        exact hpm₂
      rw [getNextOffset_eq hgn1]
      exact hslot₂
    rw [if_pos hcond]

/-- The publish loop, run from level `i` with `h - i` levels remaining,
terminates successfully and carries the mid-publish invariant to `h`. -/
theorem publishLoop_ok {key : List Nat} (v : ValueStruct) {xOff h : Nat} :
    ∀ r i s prev next, i + r = h →
      PubInv key xOff h i s prev next →
      ∃ s' prev' next', Skiplist.publishLoop key v xOff i r s prev next = .ok s' ∧
        PubInv key xOff h h s' prev' next' := by
  intro r
  induction r with
  | zero =>
    intro i s prev next hsum hp
    have hieq : i = h := by omega
    subst hieq
    exact ⟨s, prev, next, rfl, hp⟩
  | succ r ih =>
    intro i s prev next hsum hp
    have hi : i < h := by omega
    obtain ⟨prev₂, next₂, p₂, n₂, pm₂, hgp, hgn, hl₂, hnl₂, hpres, hpm₂, hpm₂h, hp₂x,
      hp₂pos, hslot₂, hnf₂, hrun⟩ := publishLevel_step v hp hi s.nodes.length
    have hp' := pubInv_step hp hi hgp hgn hl₂ hnl₂ hpres hpm₂ hpm₂h hp₂x hp₂pos
      hslot₂ hnf₂
    unfold Skiplist.publishLoop
    rw [hrun]
    exact ih (i + 1) _ prev₂ next₂ (by omega) hp'

/-- At the end of the publish loop the full invariant holds again. -/
theorem pubInv_final {key : List Nat} {xOff h : Nat} {s : Skiplist}
    {prev next : List Nat} (hp : PubInv key xOff h h s prev next) : s.inv = true := by
  obtain ⟨hd0, hhd0, hhd0h, hhd0k⟩ := hp.head_node
  obtain ⟨x, hx, hxh, hxkey, hxslots⟩ := hp.x_node
  have hmx : maxHeight = 20 := rfl
  refine inv_intro hp.head_off (by have h1 := hp.x_ge2; have h2 := hp.x_off; omega)
    ⟨hd0, hhd0, hhd0h, hhd0k⟩ (by have h1 := hp.h_pos; have h2 := hp.h_le; omega)
    hp.hgt_hi hp.nodes_ok hp.links_ok ?_ hp.high_zero ?_
  · obtain ⟨c0, hc0, hcomp, -⟩ := hp.chains 0 (by omega)
    refine ⟨c0, hc0, ?_⟩
    intro o h2 hlen
    have hnd : ∃ nd, s.getNode o = some nd := by
      unfold Skiplist.getNode
      rw [if_neg (by omega : ¬ o = 0)]
      rcases hx2 : s.nodes[o-1]? with _ | nd
      · rw [List.getElem?_eq_none_iff] at hx2
        omega
      · exact ⟨nd, rfl⟩
    obtain ⟨nd, hnd⟩ := hnd
    have hhgt : 0 < nd.height := by
      have hok := nodeOk_spec (hp.nodes_ok nd (getNode_valid hnd).2.2)
      omega
    rcases hcomp o nd hnd h2 hhgt with ⟨-, habs⟩ | hmem
    · have := hp.h_pos
      omega
    · exact hmem
  · intro L hL
    obtain ⟨cL, hcL, hcomp, -⟩ := hp.chains L hL
    refine ⟨cL, hcL, ?_⟩
    intro o nd hnd h2 hh
    rcases hcomp o nd hnd h2 hh with ⟨hxo, hhL⟩ | hmem
    · have hndx : nd = x := by
        rw [hxo] at hnd
        exact Option.some.inj (hnd.symm.trans hx)
      rw [hndx, hxh] at hh
      omega
    · exact hmem

theorem nodeOkB_mono {s s' : Skiplist} (hbuf : s.arena.buf.length ≤ s'.arena.buf.length)
    (nd : Node) (h : s.nodeOkB nd = true) : s'.nodeOkB nd = true := by
  have hsp := nodeOk_spec h
  exact nodeOkB_intro hsp.1 hsp.2.1 hsp.2.2.1 (by omega) (fun L hLm hh => hsp.2.2.2.2 L hh)

/-- What `newNode` does to the state: append one record, extend the
arena by the key and the encoded value, leave existing reads unchanged. -/
theorem newNode_facts (s : Skiplist) (key : List Nat) (v : ValueStruct) (hgt : Nat)
    (hkl : key.length < 2 ^ 16) :
    (s.newNode key v hgt).2 = s.nodes.length + 1 ∧
    (s.newNode key v hgt).1.headOffset = s.headOffset ∧
    (s.newNode key v hgt).1.height = s.height ∧
    (s.newNode key v hgt).1.nodes.length = s.nodes.length + 1 ∧
    (∀ o, o ≤ s.nodes.length → (s.newNode key v hgt).1.getNode o = s.getNode o) ∧
    (∃ x, (s.newNode key v hgt).1.getNode (s.nodes.length + 1) = some x ∧
      x.height = hgt ∧ x.tower = List.replicate maxHeight 0 ∧
      x.keyOffset + x.keySize ≤ (s.newNode key v hgt).1.arena.buf.length ∧
      (s.newNode key v hgt).1.nodeKey x = key) ∧
    s.arena.buf.length ≤ (s.newNode key v hgt).1.arena.buf.length ∧
    ∀ off sz, off + sz ≤ s.arena.buf.length →
      (s.newNode key v hgt).1.arena.getKey off sz = s.arena.getKey off sz := by
  have he : s.newNode key v hgt =
      (({ s with
          arena := ⟨s.arena.buf ++ key ++ v.encodeBytes⟩,
          nodes := s.nodes ++
            [{ value := encodeValue (s.arena.buf ++ key).length v.EncodedSize,
               keyOffset := s.arena.buf.length,
               keySize := key.length % 2 ^ 16,
               height := hgt,
               tower := List.replicate maxHeight 0 }] } : Skiplist),
        s.nodes.length + 1) := rfl
  rw [he]
  refine ⟨rfl, rfl, rfl, by simp, ?_, ?_, ?_, ?_⟩
  · intro o ho
    by_cases h0 : o = 0
    · subst h0
      rfl
    · unfold Skiplist.getNode
      rw [if_neg h0, if_neg h0]
      exact List.getElem?_append_left (by omega)
  · refine ⟨_, getNode_append_new s _ _, rfl, rfl, ?_, ?_⟩
    · show s.arena.buf.length + key.length % 2 ^ 16 ≤
        (s.arena.buf ++ key ++ v.encodeBytes).length
      rw [Nat.mod_eq_of_lt hkl]
      simp only [List.length_append]
      omega
    · unfold Skiplist.nodeKey Arena.getKey
      show ((s.arena.buf ++ key ++ v.encodeBytes).drop s.arena.buf.length).take
        (key.length % 2 ^ 16) = key
      rw [Nat.mod_eq_of_lt hkl, List.append_assoc, List.drop_left, List.take_left]
  · simp only [List.length_append]
    omega
  · intro off sz h
    unfold Arena.getKey
    show ((s.arena.buf ++ key ++ v.encodeBytes).drop off).take sz =
      (s.arena.buf.drop off).take sz
    rw [List.append_assoc]
    exact getKey_append _ _ _ _ h

/-- After allocating the new node and bumping the list height, the
mid-publish invariant holds at level 0. -/
theorem pubInv_init {s : Skiplist} (hInv : s.inv = true) (key : List Nat)
    (v : ValueStruct) (hgt H2 : Nat) (prev next : List Nat)
    (hkl : key.length < 2 ^ 16)
    (hh1 : 1 ≤ hgt) (hh2 : hgt ≤ H2) (hH2a : s.height ≤ H2) (hH2b : H2 ≤ maxHeight)
    (hpl : prev.length = maxHeight + 1) (hnl : next.length = maxHeight + 1)
    (hfresh : ∀ o m, s.getNode o = some m → o ≠ s.headOffset → s.nodeKey m ≠ key)
    (hsplice : ∀ j, j < s.height →
      ∃ pm, s.getNode (prev.getD j 0) = some pm ∧ j < pm.height ∧
        (prev.getD j 0 = s.headOffset ∨
          (s.isNode (prev.getD j 0) ∧ CompareKeys (s.keyAt (prev.getD j 0)) key < 0)) ∧
        pm.tower.getD j 0 = next.getD j 0 ∧
        (next.getD j 0 = 0 ∨
          (s.isNode (next.getD j 0) ∧
            ∃ nm, s.getNode (next.getD j 0) = some nm ∧ j < nm.height ∧
              0 < CompareKeys (s.keyAt (next.getD j 0)) key)))
    (htop : prev.getD s.height 0 = s.headOffset)
    (hzero : ∀ j, s.height < j → prev.getD j 0 = 0)
    (hnzero : ∀ j, s.height ≤ j → next.getD j 0 = 0) :
    PubInv key (s.nodes.length + 1) hgt 0
      { (s.newNode key v hgt).1 with height := H2 } prev next := by
  obtain ⟨hp1, hp2, ⟨hd, hhd, hhdh, hhdk⟩, hp4, hp5, hp6, hp7, -⟩ := inv_parts hInv
  have hhp := inv_height_parts hInv
  have hlF := inv_linkFacts hInv
  have hmx : maxHeight = 20 := rfl
  have hho0 : s.headOffset ≠ 0 := by omega
  obtain ⟨-, hnh, hnhgt, hnlen, hold, ⟨x, hxget, hxh, hxt, hxb, hxkey⟩, hbuf, hgk⟩ :=
    newNode_facts s key v hgt hkl
  have hget2 : ∀ o, o ≤ s.nodes.length →
      ({ (s.newNode key v hgt).1 with height := H2 } : Skiplist).getNode o =
        s.getNode o := fun o ho => hold o ho
  have hxget2 : ({ (s.newNode key v hgt).1 with height := H2 } : Skiplist).getNode
      (s.nodes.length + 1) = some x := hxget
  have hlen2 : ({ (s.newNode key v hgt).1 with height := H2 } : Skiplist).nodes.length =
      s.nodes.length + 1 := hnlen
  have hho2 : ({ (s.newNode key v hgt).1 with height := H2 } : Skiplist).headOffset =
      s.headOffset := hnh
  have hbuf2 : s.arena.buf.length ≤
      ({ (s.newNode key v hgt).1 with height := H2 } : Skiplist).arena.buf.length := hbuf
  have hxb2 : x.keyOffset + x.keySize ≤
      ({ (s.newNode key v hgt).1 with height := H2 } : Skiplist).arena.buf.length := hxb
  have hxkey2 : ({ (s.newNode key v hgt).1 with height := H2 } : Skiplist).nodeKey x =
      key := hxkey
  have hnkold : ∀ m : Node, m ∈ s.nodes →
      ({ (s.newNode key v hgt).1 with height := H2 } : Skiplist).nodeKey m =
        s.nodeKey m := by
    intro m hm
    have hok := nodeOk_spec (hp6 m hm)
    show (s.newNode key v hgt).1.nodeKey m = s.nodeKey m
    unfold Skiplist.nodeKey
    exact hgk m.keyOffset m.keySize hok.2.2.2.1
  have hkeyold : ∀ o m, s.getNode o = some m →
      ({ (s.newNode key v hgt).1 with height := H2 } : Skiplist).keyAt o = s.keyAt o := by
    intro o m hm
    have ho := (getNode_valid hm).2.1
    rw [keyAt_eq ((hget2 o ho).trans hm), keyAt_eq hm]
    exact hnkold m (getNode_valid hm).2.2
  have hisNold : ∀ o, s.isNode o →
      ({ (s.newNode key v hgt).1 with height := H2 } : Skiplist).isNode o := by
    intro o hio
    obtain ⟨ha, hb, hc⟩ := hio
    refine ⟨ha, ?_, ?_⟩
    · rw [hlen2]
      omega
    · rw [hho2]
      exact hc
  refine ⟨?_, ?_, ?_, ?_, ?_, ?_, ?_, ?_, ?_, ?_, ?_, ?_, ?_, ?_, ?_, ?_⟩
  · rw [hho2]
    exact hp1
  · refine ⟨hd, ?_, hhdh, hhdk⟩
    rw [hget2 1 hp2]
    exact hhd
  · rw [hlen2]
  · omega
  · refine ⟨x, hxget2, hxh, hxkey2, ?_⟩
    intro L hL
    rw [hxt]
    exact getD_replicate _ _
  · show hgt ≤ H2
    exact hh2
  · exact hh1
  · show H2 ≤ maxHeight
    exact hH2b
  · intro nd hnd
    obtain ⟨o, ho, h1o, holen⟩ := getNode_of_mem hnd
    rw [hlen2] at holen
    by_cases hc : o = s.nodes.length + 1
    · rw [hc, hxget2] at ho
      have hndx : nd = x := (Option.some.inj ho).symm
      subst hndx
      refine nodeOkB_intro (by omega) (by omega) ?_ hxb2 ?_
      · rw [hxt]
        simp
      · intro L hLm hh
        rw [hxt]
        exact getD_replicate _ _
    · have hole : o ≤ s.nodes.length := by omega
      rw [hget2 o hole] at ho
      exact nodeOkB_mono hbuf2 nd (hp6 nd (getNode_valid ho).2.2)
  · intro o holen
    rw [hlen2] at holen
    by_cases hc : o = s.nodes.length + 1
    · refine linkOkB_intro (by rw [hc]; exact hxget2) ?_
      intro L hL hLm
      refine Or.inl ?_
      rw [hxt]
      exact getD_replicate _ _
    · have hole : o ≤ s.nodes.length := by omega
      rcases hG : s.getNode o with _ | m
      · exact linkOkB_none ((hget2 o hole).trans hG)
      · have hmok := nodeOk_spec (hp6 m (getNode_valid hG).2.2)
        refine linkOkB_intro ((hget2 o hole).trans hG) ?_
        intro L hL hLm
        rcases linkOkB_spec (hp7 o hole) hG hmok.2.1 L hL with h0 | ⟨hne, mm, hmm, hmmh, hcs⟩
        · exact Or.inl h0
        · have hmmv := getNode_valid hmm
          refine Or.inr ⟨by rw [hho2]; exact hne,
            mm, (hget2 _ hmmv.2.1).trans hmm, hmmh, ?_⟩
          rcases hcs with hcc | hcc
          · exact Or.inl (by rw [hho2]; exact hcc)
          · refine Or.inr ?_
            rw [hnkold m (getNode_valid hG).2.2, hnkold mm hmmv.2.2]
            exact hcc
  · intro nd hnd L hLh
    have hLh2 : H2 ≤ L := hLh
    obtain ⟨o, ho, h1o, holen⟩ := getNode_of_mem hnd
    rw [hlen2] at holen
    by_cases hc : o = s.nodes.length + 1
    · rw [hc, hxget2] at ho
      have hndx : nd = x := (Option.some.inj ho).symm
      subst hndx
      rw [hxt]
      exact getD_replicate _ _
    · have hole : o ≤ s.nodes.length := by omega
      rw [hget2 o hole] at ho
      exact hhp.1 nd (getNode_valid ho).2.2 L (by omega)
  · intro o m hm ho1 hox
    have hov := getNode_valid hm
    rw [hlen2] at hov
    have hole : o ≤ s.nodes.length := by omega
    have hmo : s.getNode o = some m := (hget2 o hole).symm.trans hm
    rw [hnkold m (getNode_valid hmo).2.2]
    exact hfresh o m hmo (by omega)
  · intro L hL
    obtain ⟨cL, hcL, hcomp⟩ := hhp.2 L hL
    unfold Skiplist.chain at hcL
    obtain ⟨hchainL, hlenL⟩ := (chainAux_eq_some s L _ _ cL).mp hcL
    have hhd' : s.getNode s.headOffset = some hd := by
      rw [hp1]
      exact hhd
    have hstart_ne : s.getNextOffset s.headOffset L ≠ s.headOffset :=
      getNextOffset_ne_head hlF hho0 hhd' (by omega)
    have hcfacts := chainFrom_facts hlF hho0 L cL _ hchainL hstart_ne
    have hmems : ∀ a ∈ cL,
        ({ (s.newNode key v hgt).1 with height := H2 } : Skiplist).getNode a =
          s.getNode a := by
      intro a ha
      exact hget2 a (hcfacts.1 a ha).2.1
    refine ⟨cL, ?_, ?_, ?_⟩
    · unfold Skiplist.chain
      rw [hlen2]
      have hstart2 : ({ (s.newNode key v hgt).1 with height := H2 } : Skiplist).getNextOffset
          ({ (s.newNode key v hgt).1 with height := H2 } : Skiplist).headOffset L =
          s.getNextOffset s.headOffset L := by
        rw [hho2]
        unfold Skiplist.getNextOffset
        rw [hget2 s.headOffset (by omega)]
      rw [hstart2]
      exact (chainAux_eq_some _ L _ _ _).mpr
        ⟨chainFrom_stable hmems hchainL, by omega⟩
    · intro o nd ho2 h2 hhgt
      have hov := getNode_valid ho2
      rw [hlen2] at hov
      by_cases hc : o = s.nodes.length + 1
      · exact Or.inl ⟨hc, Nat.zero_le L⟩
      · have hole : o ≤ s.nodes.length := by omega
        have hmo : s.getNode o = some nd := (hget2 o hole).symm.trans ho2
        exact Or.inr (hcomp o nd hmo (by omega) hhgt)
    · intro hL0 hmem
      have := (hcfacts.1 _ hmem).2.1
      omega
  · exact hpl
  · exact hnl
  · intro j hj0 hjh
    by_cases hj1 : j < s.height
    · obtain ⟨pm, hpm, hpmh, hppos, hslot, hnf⟩ := hsplice j hj1
      have hpv := getNode_valid hpm
      refine Or.inr ⟨pm, (hget2 _ hpv.2.1).trans hpm, hpmh, by omega, ?_, hslot, ?_⟩
      · rcases hppos with hc | ⟨hIsn, hlt⟩
        · exact Or.inl (by rw [hc]; exact hp1)
        · refine Or.inr ⟨hisNold _ hIsn, ?_⟩
          rw [hkeyold _ pm hpm]
          exact hlt
      · rcases hnf with h0 | ⟨hIsn, nm, hnm, hnmh, hgt'⟩
        · exact Or.inl h0
        · have hnv := getNode_valid hnm
          refine Or.inr ⟨?_, by omega, nm, (hget2 _ hnv.2.1).trans hnm, hnmh, ?_⟩
          · have hq := hIsn.2.2
            omega
          · rw [hkeyold _ nm hnm]
            exact hgt'
    · by_cases hj2 : j = s.height
      · subst hj2
        have hpj : prev.getD s.height 0 = 1 := by
          rw [htop]
          exact hp1
        have hslot0 : hd.tower.getD s.height 0 = 0 :=
          hhp.1 hd (getNode_valid hhd).2.2 s.height le_rfl
        refine Or.inr ⟨hd, ?_, by omega, by omega, Or.inl hpj, ?_, ?_⟩
        · rw [hpj, hget2 1 hp2]
          exact hhd
        · rw [hslot0, hnzero s.height le_rfl]
        · exact Or.inl (hnzero s.height le_rfl)
      · exact Or.inl ⟨hzero j (by omega), by omega⟩

/-- The insert path of `Add` succeeds and restores the invariant, adding
exactly one node. -/
theorem addInsert_ok {s : Skiplist} (hInv : s.inv = true) (e : Entry) (draws : List Nat)
    {prev next : List Nat}
    (hkl : e.Key.length < 2 ^ 16)
    (hpl : prev.length = maxHeight + 1) (hnl : next.length = maxHeight + 1)
    (hfresh : ∀ o m, s.getNode o = some m → o ≠ s.headOffset → s.nodeKey m ≠ e.Key)
    (hsplice : ∀ j, j < s.height →
      ∃ pm, s.getNode (prev.getD j 0) = some pm ∧ j < pm.height ∧
        (prev.getD j 0 = s.headOffset ∨
          (s.isNode (prev.getD j 0) ∧ CompareKeys (s.keyAt (prev.getD j 0)) e.Key < 0)) ∧
        pm.tower.getD j 0 = next.getD j 0 ∧
        (next.getD j 0 = 0 ∨
          (s.isNode (next.getD j 0) ∧
            ∃ nm, s.getNode (next.getD j 0) = some nm ∧ j < nm.height ∧
              0 < CompareKeys (s.keyAt (next.getD j 0)) e.Key)))
    (htop : prev.getD s.height 0 = s.headOffset)
    (hzero : ∀ j, s.height < j → prev.getD j 0 = 0)
    (hnzero : ∀ j, s.height ≤ j → next.getD j 0 = 0) :
    ∃ s', s.addInsert e draws prev next = .ok s' ∧ s'.inv = true ∧
      s'.nodes.length = s.nodes.length + 1 := by
  have hmx : maxHeight = 20 := rfl
  have hp5 : s.height ≤ maxHeight := (inv_parts hInv).2.2.2.2.1
  have hgb := randomHeightAux_bounds draws 1 le_rfl (by decide)
  have hg1 : 1 ≤ randomHeight draws := hgb.2.1
  have hg2 : randomHeight draws ≤ maxHeight := hgb.2.2
  obtain ⟨-, hnh, hnhgt, hnlen, -, -, -, -⟩ :=
    newNode_facts s e.Key e.vs (randomHeight draws) hkl
  have hx2 : (s.newNode e.Key e.vs (randomHeight draws)).2 = s.nodes.length + 1 :=
    (newNode_facts s e.Key e.vs (randomHeight draws) hkl).1
  unfold Skiplist.addInsert
  by_cases hbump : (s.newNode e.Key e.vs (randomHeight draws)).1.getHeight <
      randomHeight draws
  · rw [if_pos hbump]
    have hsl : s.height < randomHeight draws := by
      have hq : (s.newNode e.Key e.vs (randomHeight draws)).1.height <
          randomHeight draws := hbump
      rw [hnhgt] at hq
      exact hq
    have hpub := pubInv_init hInv e.Key e.vs (randomHeight draws) (randomHeight draws)
      prev next hkl hg1 le_rfl (by omega) hg2 hpl hnl hfresh hsplice htop hzero hnzero
    obtain ⟨s', prev', next', hrun, hp'⟩ := publishLoop_ok e.vs (randomHeight draws) 0
      ({ (s.newNode e.Key e.vs (randomHeight draws)).1 with height := randomHeight draws })
      prev next (by omega) hpub
    refine ⟨s', ?_, pubInv_final hp', hp'.x_off.symm⟩
    rw [hx2]
    exact hrun
  · rw [if_neg hbump]
    have hsl : randomHeight draws ≤ s.height := by
      have hq : ¬ ((s.newNode e.Key e.vs (randomHeight draws)).1.height <
          randomHeight draws) := hbump
      rw [hnhgt] at hq
      omega
    have hpub := pubInv_init hInv e.Key e.vs (randomHeight draws) s.height
      prev next hkl hg1 hsl le_rfl (by omega) hpl hnl hfresh hsplice htop hzero hnzero
    obtain ⟨s', prev', next', hrun, hp'⟩ := publishLoop_ok e.vs (randomHeight draws) 0
      ((s.newNode e.Key e.vs (randomHeight draws)).1) prev next (by omega) hpub
    refine ⟨s', ?_, pubInv_final hp', hp'.x_off.symm⟩
    rw [hx2]
    exact hrun

/-- Sequential `Add` always succeeds and preserves the invariant; it
either overwrites an existing equal-keyed node's value in place or, when
no reachable node carries the key, appends exactly one fresh node. -/
theorem Add_ok (s : Skiplist) (e : Entry) (draws : List Nat)
    (hInv : s.inv = true) (hkl : e.Key.length < 2 ^ 16) :
    ∃ s', s.Add e draws = .ok s' ∧ s'.inv = true ∧
      ((∃ p m, s.getNode p = some m ∧ p ≠ s.headOffset ∧ s.nodeKey m = e.Key ∧
          s' = s.overwriteValue p e.vs) ∨
       ((∀ o m, s.getNode o = some m → o ≠ s.headOffset → s.nodeKey m ≠ e.Key) ∧
        s'.nodes.length = s.nodes.length + 1)) := by
  have hmx : maxHeight = 20 := rfl
  obtain ⟨hp1, hp2, ⟨hd, hhd, hhdh, hhdk⟩, hp4, hp5, -, -, -⟩ := inv_parts hInv
  unfold Skiplist.Add Skiplist.getHeight
  have hgtop : ((List.replicate (maxHeight + 1) 0).set s.height s.headOffset).getD
      s.height 0 = s.headOffset :=
    getD_set_self s.headOffset (by rw [List.length_replicate]; omega)
  have hpl : ((List.replicate (maxHeight + 1) 0).set s.height s.headOffset).length =
      maxHeight + 1 := by
    rw [List.length_set, List.length_replicate]
  have hnl : (List.replicate (maxHeight + 1) (0 : Nat)).length = maxHeight + 1 := by
    rw [List.length_replicate]
  have hganchor : ∃ nd, s.getNode (((List.replicate (maxHeight + 1) 0).set s.height
      s.headOffset).getD s.height 0) = some nd ∧ s.height ≤ nd.height ∧
      (((List.replicate (maxHeight + 1) 0).set s.height s.headOffset).getD s.height 0 =
          s.headOffset ∨
        (s.isNode (((List.replicate (maxHeight + 1) 0).set s.height s.headOffset).getD
            s.height 0) ∧
          CompareKeys (s.keyAt (((List.replicate (maxHeight + 1) 0).set s.height
            s.headOffset).getD s.height 0)) e.Key < 0)) := by
    refine ⟨hd, ?_, by omega, Or.inl hgtop⟩
    rw [hgtop, hp1]
    exact hhd
  have hspec := spliceDescend_spec hInv e.Key s.height _ _ le_rfl hpl hnl hganchor
  rcases hsd : s.spliceDescend e.Key s.height ((List.replicate (maxHeight + 1) 0).set
      s.height s.headOffset) (List.replicate (maxHeight + 1) 0) with pn | p
  · rw [hsd] at hspec
    obtain ⟨hl1, hl2, hpres, hfacts⟩ := hspec
    have hfresh : ∀ o m, s.getNode o = some m → o ≠ s.headOffset →
        s.nodeKey m ≠ e.Key := by
      obtain ⟨pm, hpm, hpmh, hppos, hslot, hnf⟩ := hfacts 0 (by omega)
      refine splice_fresh hInv hpm ?_ ?_
      · rcases hppos with hc | ⟨hIsn, hlt⟩
        · exact Or.inl hc
        · exact Or.inr ⟨hIsn.2.2, hlt⟩
      · rw [hslot]
        rcases hnf with h0 | ⟨-, nm, hnm, -, hgt'⟩
        · exact Or.inl h0
        · exact Or.inr hgt'
    have htop2 : pn.1.getD s.height 0 = s.headOffset := by
      rw [(hpres s.height le_rfl).1]
      exact hgtop
    have hzero2 : ∀ j, s.height < j → pn.1.getD j 0 = 0 := by
      intro j hj
      rw [(hpres j (by omega)).1,
        getD_set_ne s.headOffset (by omega : s.height ≠ j)]
      exact getD_replicate _ _
    have hnzero2 : ∀ j, s.height ≤ j → pn.2.getD j 0 = 0 := by
      intro j hj
      rw [(hpres j hj).2]
      exact getD_replicate _ _
    obtain ⟨s', hrun, hinv', hlen'⟩ := addInsert_ok hInv e draws hkl hl1 hl2 hfresh
      hfacts htop2 hzero2 hnzero2
    refine ⟨s', ?_, hinv', Or.inr ⟨hfresh, hlen'⟩⟩
    exact hrun
  · rw [hsd] at hspec
    obtain ⟨hIsN, m, hm, hkeym⟩ := hspec
    exact ⟨s.overwriteValue p e.vs, rfl, overwriteValue_inv hInv p e.vs,
      Or.inl ⟨p, m, hm, hIsN.2.2, hkeym, rfl⟩⟩

/-- Under the invariant, reachable non-head nodes carry pairwise distinct
internal keys (they all sit on the strictly sorted level-0 chain). -/
theorem inv_distinct_keys {s : Skiplist} (hInv : s.inv = true) :
    ∀ o₁ o₂ m₁ m₂, s.getNode o₁ = some m₁ → s.getNode o₂ = some m₂ →
      o₁ ≠ s.headOffset → o₂ ≠ s.headOffset → o₁ ≠ o₂ →
      s.nodeKey m₁ ≠ s.nodeKey m₂ := by
  intro o₁ o₂ m₁ m₂ h1 h2 hh1 hh2 hne heq
  have hmx : maxHeight = 20 := rfl
  obtain ⟨hp1, hp2, ⟨hd, hhd, hhdh, -⟩, -, -, -, -, ⟨c0, hc0, hcall⟩⟩ := inv_parts hInv
  have hlF := inv_linkFacts hInv
  have hho0 : s.headOffset ≠ 0 := by omega
  unfold Skiplist.chain at hc0
  have hchain := ((chainAux_eq_some s 0 _ _ c0).mp hc0).1
  have hhd' : s.getNode s.headOffset = some hd := by
    rw [hp1]
    exact hhd
  have hstart_ne : s.getNextOffset s.headOffset 0 ≠ s.headOffset :=
    getNextOffset_ne_head hlF hho0 hhd' (by omega)
  have hfacts := chainFrom_facts hlF hho0 0 c0 _ hchain hstart_ne
  have hpw := keyChain_pairwise hfacts.2
  have hv1 := getNode_valid h1
  have hv2 := getNode_valid h2
  have hm1 : o₁ ∈ c0 := hcall o₁ (by omega) hv1.2.1
  have hm2 : o₂ ∈ c0 := hcall o₂ (by omega) hv2.2.1
  rcases pairwise_mem_total hpw hm1 hm2 hne with hR | hR
  · rw [keyAt_eq h1, keyAt_eq h2, heq, CompareKeys_self] at hR
    omega
  · rw [keyAt_eq h1, keyAt_eq h2, heq, CompareKeys_self] at hR
    omega

/-- Witness for `height_monotone`: a concrete `Add` on the fresh list. -/
theorem height_monotone_witness :
    NewSkiplist.height = 1 ∧ 1 ≤ addW.height ∧ addW.height ≤ maxHeight := by
  have h : NewSkiplist.Add ⟨[107, 1], [118], 0, 0, 0⟩ [] = .ok addW := by rfl
  have hm := (height_monotone.2.2 NewSkiplist ⟨[107, 1], [118], 0, 0, 0⟩ [] addW h).2
    (by decide) (by decide)
  exact ⟨height_monotone.1, hm.1, hm.2⟩

/-- C2: for every `Add`, no two reachable nodes ever share an internal
key: the post state satisfies the invariant and its reachable non-head
nodes have pairwise distinct keys; an `Add` whose key equals an existing
reachable node's key links no new node — it allocates a freshly encoded
value cell in the arena and stores the new packed value word into the
existing node, leaving every tower link unchanged. -/
theorem add_no_duplicates (s : Skiplist) (e : Entry) (draws : List Nat)
    (hInv : s.inv = true) (hkl : e.Key.length < 2 ^ 16) :
    ∃ s', s.Add e draws = .ok s' ∧ s'.inv = true ∧
      (∀ o₁ o₂ m₁ m₂, s'.getNode o₁ = some m₁ → s'.getNode o₂ = some m₂ →
        o₁ ≠ s'.headOffset → o₂ ≠ s'.headOffset → o₁ ≠ o₂ →
        s'.nodeKey m₁ ≠ s'.nodeKey m₂) ∧
      ((∃ p m, s.getNode p = some m ∧ p ≠ s.headOffset ∧ s.nodeKey m = e.Key) →
        s'.nodes.length = s.nodes.length ∧
        (∀ o L, s'.getNextOffset o L = s.getNextOffset o L) ∧
        s'.arena.buf = s.arena.buf ++ e.vs.encodeBytes ∧
        ∃ p m, s.getNode p = some m ∧ p ≠ s.headOffset ∧ s.nodeKey m = e.Key ∧
          s'.getNode p = some { m with
            value := encodeValue s.arena.buf.length e.vs.EncodedSize }) := by
  obtain ⟨s', hrun, hinv', hbranch⟩ := Add_ok s e draws hInv hkl
  refine ⟨s', hrun, hinv', inv_distinct_keys hinv', ?_⟩
  rcases hbranch with ⟨p, m, hm, hpne, hkey, hs'⟩ | ⟨hfresh, -⟩
  · rintro -
    have hfacts := overwriteValue_facts s p e.vs
    refine ⟨by rw [hs']; exact hfacts.2.2.1, ?_, by rw [hs']; exact hfacts.2.2.2.1,
      p, m, hm, hpne, hkey, ?_⟩
    · intro o L
      rw [hs']
      unfold Skiplist.getNextOffset
      rw [hfacts.2.2.2.2 o]
      by_cases hc : o = p
      · subst hc
        rw [if_pos rfl]
        simp only [hm, Option.map_some']
      · rw [if_neg hc]
    · rw [hs', hfacts.2.2.2.2 p, if_pos rfl, hm]
      rfl
  · rintro ⟨p, m, hm, hpne, hkey⟩
    exact absurd hkey (hfresh p m hm hpne)

/-- Witness for `add_no_duplicates`: one `Add` on the fresh list. -/
theorem add_no_duplicates_witness :
    NewSkiplist.inv = true ∧ (⟨[107, 1], [118], 0, 0, 0⟩ : Entry).Key.length < 2 ^ 16 ∧
    ∃ s', NewSkiplist.Add ⟨[107, 1], [118], 0, 0, 0⟩ [] = .ok s' ∧ s'.inv = true ∧
      (∀ o₁ o₂ m₁ m₂, s'.getNode o₁ = some m₁ → s'.getNode o₂ = some m₂ →
        o₁ ≠ s'.headOffset → o₂ ≠ s'.headOffset → o₁ ≠ o₂ →
        s'.nodeKey m₁ ≠ s'.nodeKey m₂) ∧
      ((∃ p m, NewSkiplist.getNode p = some m ∧ p ≠ NewSkiplist.headOffset ∧
          NewSkiplist.nodeKey m = (⟨[107, 1], [118], 0, 0, 0⟩ : Entry).Key) →
        s'.nodes.length = NewSkiplist.nodes.length ∧
        (∀ o L, s'.getNextOffset o L = NewSkiplist.getNextOffset o L) ∧
        s'.arena.buf = NewSkiplist.arena.buf ++
          (Entry.vs ⟨[107, 1], [118], 0, 0, 0⟩).encodeBytes ∧
        ∃ p m, NewSkiplist.getNode p = some m ∧ p ≠ NewSkiplist.headOffset ∧
          NewSkiplist.nodeKey m = (⟨[107, 1], [118], 0, 0, 0⟩ : Entry).Key ∧
          s'.getNode p = some { m with
            value := encodeValue NewSkiplist.arena.buf.length
              (Entry.vs ⟨[107, 1], [118], 0, 0, 0⟩).EncodedSize }) :=
  ⟨by decide, by decide,
    add_no_duplicates NewSkiplist ⟨[107, 1], [118], 0, 0, 0⟩ [] (by decide) (by decide)⟩

/-- C3: `Add` preserves the per-level link invariant: afterwards every
reachable node's live tower slot is nil or points to a valid node of
strictly greater internal key (no key constraint out of the head), and
scanning any level from the head yields strictly increasing keys. -/
theorem add_preserves_links (s : Skiplist) (e : Entry) (draws : List Nat)
    (hInv : s.inv = true) (hkl : e.Key.length < 2 ^ 16) :
    ∃ s', s.Add e draws = .ok s' ∧ s'.inv = true ∧
      (∀ o nd, s'.getNode o = some nd → ∀ L, L < nd.height →
        nd.tower.getD L 0 = 0 ∨
        ∃ m, s'.getNode (nd.tower.getD L 0) = some m ∧ L < m.height ∧
          (o = s'.headOffset ∨ CompareKeys (s'.nodeKey nd) (s'.nodeKey m) < 0)) ∧
      ∀ L, L < maxHeight → ∃ cL, s'.chain L = some cL ∧
        cL.Chain' (fun a b => CompareKeys (s'.keyAt a) (s'.keyAt b) < 0) := by
  obtain ⟨s', hrun, hinv', -⟩ := Add_ok s e draws hInv hkl
  have hlF := inv_linkFacts hinv'
  have hparts := inv_parts hinv'
  have hho0 : s'.headOffset ≠ 0 := by
    rw [hparts.1]
    omega
  refine ⟨s', hrun, hinv', ?_, ?_⟩
  · intro o nd hnd L hL
    rcases hlF o nd hnd L hL with h0 | ⟨-, m, hm, hmh, hcase⟩
    · exact Or.inl h0
    · exact Or.inr ⟨m, hm, hmh, hcase⟩
  · intro L hL
    obtain ⟨cL, hcL, -⟩ := (inv_height_parts hinv').2 L hL
    refine ⟨cL, hcL, ?_⟩
    unfold Skiplist.chain at hcL
    have hchain := ((chainAux_eq_some s' L _ _ cL).mp hcL).1
    obtain ⟨hd, hhd, hhdh, -⟩ := hparts.2.2.1
    have hhd' : s'.getNode s'.headOffset = some hd := by
      rw [hparts.1]
      exact hhd
    have hmx : maxHeight = 20 := rfl
    have hstart_ne : s'.getNextOffset s'.headOffset L ≠ s'.headOffset :=
      getNextOffset_ne_head hlF hho0 hhd' (by omega)
    exact (chainFrom_facts hlF hho0 L cL _ hchain hstart_ne).2

/-- Witness for `add_preserves_links`: one `Add` on the fresh list. -/
theorem add_preserves_links_witness :
    NewSkiplist.inv = true ∧ (⟨[108, 2], [119], 0, 0, 0⟩ : Entry).Key.length < 2 ^ 16 ∧
    ∃ s', NewSkiplist.Add ⟨[108, 2], [119], 0, 0, 0⟩ [] = .ok s' ∧ s'.inv = true ∧
      (∀ o nd, s'.getNode o = some nd → ∀ L, L < nd.height →
        nd.tower.getD L 0 = 0 ∨
        ∃ m, s'.getNode (nd.tower.getD L 0) = some m ∧ L < m.height ∧
          (o = s'.headOffset ∨ CompareKeys (s'.nodeKey nd) (s'.nodeKey m) < 0)) ∧
      ∀ L, L < maxHeight → ∃ cL, s'.chain L = some cL ∧
        cL.Chain' (fun a b => CompareKeys (s'.keyAt a) (s'.keyAt b) < 0) :=
  ⟨by decide, by decide,
    add_preserves_links NewSkiplist ⟨[108, 2], [119], 0, 0, 0⟩ [] (by decide) (by decide)⟩

/-- C9: in a sequential `Add` no assertion fires — the call returns `.ok`,
so in particular `AssertTrue(i > 1)` never fails — and the nil-`prev[i]`
branch of the publish loop is reachable only at levels `i ≥ 2`: under the
loop invariant a nil `prev[i]` at a pending level forces `2 ≤ i`. -/
theorem add_assert_levels (s : Skiplist) (e : Entry) (draws : List Nat)
    (hInv : s.inv = true) (hkl : e.Key.length < 2 ^ 16) :
    (∃ s', s.Add e draws = .ok s') ∧
    ∀ key xOff h i st prev next, PubInv key xOff h i st prev next → i < h →
      st.getNode (prev.getD i 0) = none → 2 ≤ i := by
  constructor
  · obtain ⟨s', hrun, -⟩ := Add_ok s e draws hInv hkl
    exact ⟨s', hrun⟩
  · intro key xOff h i st prev next hp hi hnil
    rcases hp.splices i le_rfl hi with ⟨-, h2⟩ | ⟨pm, hpm, -⟩
    · exact h2
    · rw [hpm] at hnil
      cases hnil

/-- Witness for `add_assert_levels`: one `Add` on the fresh list. -/
theorem add_assert_levels_witness :
    NewSkiplist.inv = true ∧ (⟨[109, 3], [120], 0, 0, 0⟩ : Entry).Key.length < 2 ^ 16 ∧
    ((∃ s', NewSkiplist.Add ⟨[109, 3], [120], 0, 0, 0⟩ [] = .ok s') ∧
      ∀ key xOff h i st prev next, PubInv key xOff h i st prev next → i < h →
        st.getNode (prev.getD i 0) = none → 2 ≤ i) :=
  ⟨by decide, by decide,
    add_assert_levels NewSkiplist ⟨[109, 3], [120], 0, 0, 0⟩ [] (by decide) (by decide)⟩

end ZKV
